import Mathlib

/-!
# Wire codec, serial framing, descriptors and signals

A shallow embedding of the (de)serialisation helpers in
`include/rix/msg/serialization.hpp`, of the serial framing in
`src/robot/robot.c` and of the descriptor and signal classes in `src/rix/ipc`.
The conventions below are those of the wire codec; the later parts state
theirs where their definitions start.

Modelling conventions

* A byte is a `Fin 256`; a byte buffer (`uint8_t *` together with the extent
  of the allocation behind it) is a `List Byte`.
* `size_t` values are natural numbers reduced modulo `2 ^ 64`, `uint32_t`
  values are natural numbers reduced modulo `2 ^ 32`, wherever the source
  performs arithmetic in those types.
* `std::memcpy` of the object representation of an integer is modelled for a
  little-endian target: a `w`-byte integer `n` is stored as the bytes
  `n % 256, (n / 256) % 256, ...`.
* The source never checks the capacity of a destination buffer.  A store
  outside the list is dropped (`List.set`), a load outside the list yields
  `0`; every theorem about a store or load states the bound under which
  the access is inside the buffer.
* `std::string` is a list of bytes, `std::vector<T>` and `std::array<T, N>` are
  lists (for an array, `N` is the length of the list).
* A function with reference parameters returns the new values of those
  parameters: `serialize_*` returns the buffer and the offset, `deserialize_*`
  returns the boolean result, the destination and the offset.
-/

namespace Rix

/-- One octet of a buffer. -/
abbrev Byte := Fin 256

/-- The number of values of `size_t` on the 64-bit target. -/
def SIZE_MOD : Nat := 2 ^ 64

/-- The number of values of `uint32_t`. -/
def U32_MOD : Nat := 2 ^ 32

/-- Object representation of a `w`-byte unsigned integer (little-endian). -/
def le_bytes : Nat → Nat → List Byte
  | 0, _ => []
  | w + 1, n => ⟨n % 256, Nat.mod_lt _ (by decide)⟩ :: le_bytes w (n / 256)

/-- Value of an unsigned integer given its little-endian object representation. -/
def le_value : List Byte → Nat
  | [] => 0
  | b :: bs => b.val + 256 * le_value bs

/-- Model of `std::memcpy(dst + off, bs, |bs|)`: stores the bytes one by one. -/
def memcpy_to : List Byte → Nat → List Byte → List Byte
  | dst, _, [] => dst
  | dst, off, b :: bs => memcpy_to (dst.set off b) (off + 1) bs

/-- Model of `std::memcpy(out, src + off, n)`: loads `n` consecutive bytes. -/
def memcpy_from (src : List Byte) (off n : Nat) : List Byte :=
  (List.range n).map (fun i => src.getD (off + i) 0)

/-- Model of `std::vector<T>::resize(n)`, new elements being value-initialised to `d`. -/
def resize {α : Type} (v : List α) (n : Nat) (d : α) : List α :=
  v.take n ++ List.replicate (n - v.length) d

/-! ## `size_*` -/

/-- `size_number<T>`, with `w = sizeof(T)`. -/
def size_number (w : Nat) (_src : Nat) : Nat := w % U32_MOD

/-- `size_string`: `4 + src.size()` converted to `uint32_t`. -/
def size_string (src : List Byte) : Nat := (4 + src.length) % U32_MOD

/-- `size_number_array<T, N>`: `N * sizeof(T)` converted to `uint32_t`. -/
def size_number_array (w : Nat) (src : List Nat) : Nat := (src.length * w) % U32_MOD

/-- `size_string_array<N>`: a `uint32_t` accumulator starting at `0`. -/
def size_string_array (src : List (List Byte)) : Nat :=
  src.foldl (fun size s => (size + size_string s) % U32_MOD) 0

/-- `size_number_vector<T>`: `4 + src.size() * sizeof(T)` converted to `uint32_t`. -/
def size_number_vector (w : Nat) (src : List Nat) : Nat := (4 + src.length * w) % U32_MOD

/-- `size_string_vector`: a `uint32_t` accumulator starting at `4`. -/
def size_string_vector (src : List (List Byte)) : Nat :=
  src.foldl (fun size s => (size + size_string s) % U32_MOD) 4

/-! ## `serialize_*` -/

/-- `serialize_number<T>`, with `w = sizeof(T)`. -/
def serialize_number (w : Nat) (dst : List Byte) (offset : Nat) (src : Nat) :
    List Byte × Nat :=
  (memcpy_to dst offset (le_bytes w src), (offset + w) % SIZE_MOD)

/-- `serialize_string`. -/
def serialize_string (dst : List Byte) (offset : Nat) (src : List Byte) :
    List Byte × Nat :=
  let len := src.length % U32_MOD
  let dst1 := memcpy_to dst offset (le_bytes 4 len)
  let offset1 := (offset + 4) % SIZE_MOD
  let dst2 := memcpy_to dst1 offset1 src
  (dst2, (offset1 + src.length) % SIZE_MOD)

/-- `serialize_number_array<T, N>`: one `memcpy` of `N * sizeof(T)` bytes. -/
def serialize_number_array (w : Nat) (dst : List Byte) (offset : Nat) (src : List Nat) :
    List Byte × Nat :=
  (memcpy_to dst offset (src.flatMap (le_bytes w)),
    (offset + (src.length * w) % SIZE_MOD) % SIZE_MOD)

/-- `serialize_string_array<N>`: the range-for loop over the elements. -/
def serialize_string_array (dst : List Byte) (offset : Nat) :
    List (List Byte) → List Byte × Nat
  | [] => (dst, offset)
  | s :: rest =>
    let r := serialize_string dst offset s
    serialize_string_array r.1 r.2 rest

/-- `serialize_number_vector<T>`. -/
def serialize_number_vector (w : Nat) (dst : List Byte) (offset : Nat) (src : List Nat) :
    List Byte × Nat :=
  let len := src.length % U32_MOD
  let dst1 := memcpy_to dst offset (le_bytes 4 len)
  let offset1 := (offset + 4) % SIZE_MOD
  let dst2 := memcpy_to dst1 offset1 (src.flatMap (le_bytes w))
  (dst2, (offset1 + (src.length * w) % SIZE_MOD) % SIZE_MOD)

/-- `serialize_string_vector`. -/
def serialize_string_vector (dst : List Byte) (offset : Nat) (src : List (List Byte)) :
    List Byte × Nat :=
  let len := src.length % U32_MOD
  let dst1 := memcpy_to dst offset (le_bytes 4 len)
  let offset1 := (offset + 4) % SIZE_MOD
  serialize_string_array dst1 offset1 src

/-! ## `deserialize_*` -/

/-- `deserialize_number<T>`, with `w = sizeof(T)`. -/
def deserialize_number (w : Nat) (dst : Nat) (src : List Byte) (size offset : Nat) :
    Bool × Nat × Nat :=
  if (offset + w) % SIZE_MOD > size then (false, dst, offset)
  else (true, le_value (memcpy_from src offset w), (offset + w) % SIZE_MOD)

/-- `deserialize_string`.  The local `len` is uninitialised in the source; it is
only read after `deserialize_number` has stored into it. -/
def deserialize_string (dst : List Byte) (src : List Byte) (size offset : Nat) :
    Bool × List Byte × Nat :=
  match deserialize_number 4 0 src size offset with
  | (false, _, offset1) => (false, dst, offset1)
  | (true, len, offset1) =>
    if (offset1 + len) % SIZE_MOD > size then (false, dst, offset1)
    else (true, memcpy_from src offset1 len, (offset1 + len) % SIZE_MOD)

/-- `deserialize_number_array<T, N>`, with `N = dst.length`. -/
def deserialize_number_array (w : Nat) (dst : List Nat) (src : List Byte) (size offset : Nat) :
    Bool × List Nat × Nat :=
  let n := (dst.length * w) % SIZE_MOD
  if (offset + n) % SIZE_MOD > size then (false, dst, offset)
  else (true, (List.range dst.length).map (fun i => le_value (memcpy_from src (offset + i * w) w)),
        (offset + n) % SIZE_MOD)

/-- `deserialize_string_array<N>`: the range-for loop over the destination, which
stops at the first element that fails. -/
def deserialize_string_array (src : List Byte) (size : Nat) :
    List (List Byte) → Nat → Bool × List (List Byte) × Nat
  | [], offset => (true, [], offset)
  | s :: rest, offset =>
    match deserialize_string s src size offset with
    | (false, s1, offset1) => (false, s1 :: rest, offset1)
    | (true, s1, offset1) =>
      let r := deserialize_string_array src size rest offset1
      (r.1, s1 :: r.2.1, r.2.2)

/-- `deserialize_number_vector<T>`. -/
def deserialize_number_vector (w : Nat) (dst : List Nat) (src : List Byte) (size offset : Nat) :
    Bool × List Nat × Nat :=
  match deserialize_number 4 0 src size offset with
  | (false, _, offset1) => (false, dst, offset1)
  | (true, len, offset1) =>
    let n := (len * w) % SIZE_MOD
    if (offset1 + n) % SIZE_MOD > size then (false, dst, offset1)
    else (true, (List.range len).map (fun i => le_value (memcpy_from src (offset1 + i * w) w)),
          (offset1 + n) % SIZE_MOD)

/-- `deserialize_string_vector`. -/
def deserialize_string_vector (dst : List (List Byte)) (src : List Byte) (size offset : Nat) :
    Bool × List (List Byte) × Nat :=
  match deserialize_number 4 0 src size offset with
  | (false, _, offset1) => (false, dst, offset1)
  | (true, len, offset1) => deserialize_string_array src size (resize dst len []) offset1

/-! ## Nested messages -/

/-- Modelled from the spec: the `Message` base class of `rix/msg/message.hpp`, which
is not part of the sources.  A message type is any type offering `size`,
`serialize(buffer, offset)` and `deserialize(buffer, length, offset)`; the
container functions below are written against this capability only. -/
structure Message (M : Type) where
  /-- The member `size()`, a `uint32_t`. -/
  size : M → Nat
  /-- The member `serialize(dst, offset)`: returns the buffer and the offset. -/
  serialize : M → List Byte → Nat → List Byte × Nat
  /-- The member `deserialize(src, size, offset)`: returns the result, the
  object and the offset. -/
  deserialize : M → List Byte → Nat → Nat → Bool × M × Nat

/-- `size_message`. -/
def size_message {M : Type} (ops : Message M) (src : M) : Nat := ops.size src

/-- `serialize_message`. -/
def serialize_message {M : Type} (ops : Message M) (dst : List Byte) (offset : Nat) (src : M) :
    List Byte × Nat :=
  ops.serialize src dst offset

/-- `deserialize_message`. -/
def deserialize_message {M : Type} (ops : Message M) (dst : M) (src : List Byte)
    (size offset : Nat) : Bool × M × Nat :=
  ops.deserialize dst src size offset

/-- `size_message_array<T, N>`: a `uint32_t` accumulator starting at `0`. -/
def size_message_array {M : Type} (ops : Message M) (src : List M) : Nat :=
  src.foldl (fun size m => (size + size_message ops m) % U32_MOD) 0

/-- `size_message_vector<T>`: a `uint32_t` accumulator starting at `4`. -/
def size_message_vector {M : Type} (ops : Message M) (src : List M) : Nat :=
  src.foldl (fun size m => (size + size_message ops m) % U32_MOD) 4

/-- `serialize_message_array<T, N>`: the range-for loop over the elements. -/
def serialize_message_array {M : Type} (ops : Message M) (dst : List Byte) (offset : Nat) :
    List M → List Byte × Nat
  | [] => (dst, offset)
  | m :: rest =>
    let r := serialize_message ops dst offset m
    serialize_message_array ops r.1 r.2 rest

/-- `serialize_message_vector<T>`. -/
def serialize_message_vector {M : Type} (ops : Message M) (dst : List Byte) (offset : Nat)
    (src : List M) : List Byte × Nat :=
  let len := src.length % U32_MOD
  let dst1 := memcpy_to dst offset (le_bytes 4 len)
  let offset1 := (offset + 4) % SIZE_MOD
  serialize_message_array ops dst1 offset1 src

/-- `deserialize_message_array<T, N>`: the range-for loop over the destination,
which stops at the first element that fails. -/
def deserialize_message_array {M : Type} (ops : Message M) (src : List Byte) (size : Nat) :
    List M → Nat → Bool × List M × Nat
  | [], offset => (true, [], offset)
  | m :: rest, offset =>
    match deserialize_message ops m src size offset with
    | (false, m1, offset1) => (false, m1 :: rest, offset1)
    | (true, m1, offset1) =>
      let r := deserialize_message_array ops src size rest offset1
      (r.1, m1 :: r.2.1, r.2.2)

/-- `deserialize_message_vector<T>`; `dflt` is the value-initialised `T` that
`resize` appends. -/
def deserialize_message_vector {M : Type} (ops : Message M) (dflt : M) (dst : List M)
    (src : List Byte) (size offset : Nat) : Bool × List M × Nat :=
  match deserialize_number 4 0 src size offset with
  | (false, _, offset1) => (false, dst, offset1)
  | (true, len, offset1) => deserialize_message_array ops src size (resize dst len dflt) offset1

/-! ## Wire format

The byte sequences that the specification gives for each category, stated
independently of the buffer-writing code. -/

/-- Encoding of a string: 4-byte little-endian length, then the bytes. -/
def wire_string (s : List Byte) : List Byte := le_bytes 4 s.length ++ s

/-- Concatenated encodings of a sequence of strings (no count prefix). -/
def wire_string_array (v : List (List Byte)) : List Byte := v.flatMap wire_string

/-- Encoding of a vector of strings: 4-byte little-endian count, then the elements. -/
def wire_string_vector (v : List (List Byte)) : List Byte :=
  le_bytes 4 v.length ++ wire_string_array v

/-- The buffer `dst` with the bytes at indices `[o, o + |bs|)` replaced by `bs`
and every other byte kept. -/
def splice (dst : List Byte) (o : Nat) (bs : List Byte) : List Byte :=
  dst.take o ++ bs ++ dst.drop (o + bs.length)

/-! ## Properties of a message type -/

/-- The message type round-trips at every offset: serialising `m` at offset `o` of
a buffer that can hold it advances the offset by `size m`, and deserialising
from the buffer so obtained, at `o`, with any `size` reaching the end of the
encoding, returns `true`, restores `m` and advances the offset by `size m`. -/
def MessageRoundTrips {M : Type} (ops : Message M) : Prop :=
  ∀ (m prev : M) (dst : List Byte) (o size : Nat),
    o + ops.size m ≤ dst.length → dst.length < SIZE_MOD → o + ops.size m ≤ size →
    (ops.serialize m dst o).2 = o + ops.size m ∧
    ops.deserialize prev (ops.serialize m dst o).1 size o = (true, m, o + ops.size m)

/-- The message type round-trips in place: serialising `m` at offset `o` replaces
exactly the `size m` bytes from `o` on, leaving every other byte of the buffer
as it was, and deserialising at `o` from any buffer that holds those bytes at
`o` returns `true`, restores `m` and advances the offset by `size m`. -/
def MessageRoundTripsInPlace {M : Type} (ops : Message M) : Prop :=
  ∀ (m : M) (dst : List Byte) (o : Nat),
    o + ops.size m ≤ dst.length → dst.length < SIZE_MOD →
    ∃ bs : List Byte, bs.length = ops.size m ∧
      ops.serialize m dst o = (splice dst o bs, o + ops.size m) ∧
      ∀ (pre post : List Byte) (prev : M) (size : Nat),
        pre.length = o → o + ops.size m ≤ size →
        ops.deserialize prev (pre ++ bs ++ post) size o = (true, m, o + ops.size m)

/-- A message with a single `uint8_t` field, (de)serialised with
`serialize_number` and `deserialize_number`. -/
def uint8Msg : Message Byte where
  size := fun _ => 1
  serialize := fun m dst o => serialize_number 1 dst o m.val
  deserialize := fun prev src size o =>
    let r := deserialize_number 1 prev.val src size o
    (r.1, Fin.ofNat r.2.1, r.2.2)

/-- A one-byte message whose `serialize` stores its byte at `offset` and also
clears the byte just before `offset`; its `deserialize` is bounds-checked and
reads the byte at `offset`. -/
def clobberMsg : Message Byte where
  size := fun _ => 1
  serialize := fun m dst o =>
    (if o = 0 then dst.set 0 m else (dst.set o m).set (o - 1) 0, (o + 1) % SIZE_MOD)
  deserialize := fun prev src size o =>
    if (o + 1) % SIZE_MOD > size then (false, prev, o)
    else (true, src.getD o 0, (o + 1) % SIZE_MOD)

/-- Sum of the `size()` of the elements of a container. -/
def sum_sizes {M : Type} (ops : Message M) (v : List M) : Nat :=
  (v.map ops.size).sum

/-! ## First failing element of a container loop -/

/-- Index of the first element at which the loop of `deserialize_string_array`
(also the loop of `deserialize_string_vector`) returns `false`, if there is one. -/
def first_failing_string (src : List Byte) (size : Nat) : List (List Byte) → Nat → Option Nat
  | [], _ => none
  | s :: rest, offset =>
    match deserialize_string s src size offset with
    | (false, _, _) => some 0
    | (true, _, offset1) => (first_failing_string src size rest offset1).map (· + 1)

/-- Index of the first element at which the loop of `deserialize_message_array`
(also the loop of `deserialize_message_vector`) returns `false`, if there is one. -/
def first_failing_message {M : Type} (ops : Message M) (src : List Byte) (size : Nat) :
    List M → Nat → Option Nat
  | [], _ => none
  | m :: rest, offset =>
    match deserialize_message ops m src size offset with
    | (false, _, _) => some 0
    | (true, _, offset1) => (first_failing_message ops src size rest offset1).map (· + 1)

/-! ## Serial framing (`robot.c`)

Modelling conventions

* An `int` is an integer, the parameters being between `-2 ^ 31` and
  `2 ^ 31 - 1`; the result of an `int` addition is brought back to that range by
  `wrap_int`.  Signed overflow is undefined in C: the theorems about `encode_msg`
  state the bound under which no addition overflows.
* `msg_len & 0xFF` and `msg_len >> 8` on an `int` are the remainder and the
  quotient of the division by 256 rounded down.
* `msg` and `rospkt` are distinct buffers.  As for the wire codec, a store
  outside `rospkt` is dropped and a load outside `msg` yields `0`.
-/

/-- Result of an `int` operation brought back to 32 bits (two's complement). -/
def wrap_int (x : Int) : Int := (x + 2 ^ 31) % 2 ^ 32 - 2 ^ 31

/-- Conversion of an `int` value to `uint8_t`. -/
def u8_of_int (x : Int) : Byte := Fin.ofNat (x % 256).toNat

/-- Conversion of an unsigned value to `uint8_t`. -/
def u8_of_nat (n : Nat) : Byte := Fin.ofNat n

/-- The loop of `checksum` with `n` iterations left, index `i` and accumulator `sum`:
`for (int i = 0; i < len; i++) sum += addends[i]`. -/
def checksum_loop (addends : List Byte) : Nat → Nat → Int → Int
  | 0, _, sum => sum
  | n + 1, i, sum => checksum_loop addends n (i + 1) (wrap_int (sum + ((addends.getD i 0).val : Int)))

/-- `checksum`: `255 - (sum % 256)` converted to `uint8_t`, `%` being the
remainder of C (truncated division). -/
def checksum (addends : List Byte) (len : Int) : Byte :=
  let sum := checksum_loop addends len.toNat 0 0
  u8_of_int (255 - Int.tmod sum 256)

/-- `encode_msg`: returns the result and the packet buffer.  The count of the
`memcpy` is `msg_len` converted to `size_t`. -/
def encode_msg (msg : List Byte) (msg_len : Int) (topic : Nat) (rospkt : List Byte)
    (rospkt_len : Int) : Int × List Byte :=
  if wrap_int (msg_len + 8) ≠ rospkt_len then (-1, rospkt)
  else
    let p0 := rospkt.set 0 0xFF
    let p1 := p0.set 1 0xFE
    let p2 := p1.set 2 (u8_of_int (msg_len % 256))
    let p3 := p2.set 3 (u8_of_int (msg_len / 256))
    let cs1_addends := [p3.getD 2 0, p3.getD 3 0]
    let p4 := p3.set 4 (checksum cs1_addends 2)
    let p5 := p4.set 5 (u8_of_nat (topic % 256))
    let p6 := p5.set 6 (u8_of_nat (topic / 256))
    let p7 := memcpy_to p6 7 (memcpy_from msg 0 (msg_len % (SIZE_MOD : Int)).toNat)
    let cs2_addends := [p7.getD 5 0, p7.getD 6 0] ++ memcpy_from msg 0 msg_len.toNat
    let cs2 := checksum cs2_addends (wrap_int (msg_len + 2))
    let p8 := if 0 ≤ rospkt_len - 1 then p7.set (rospkt_len - 1).toNat cs2 else p7
    (0, p8)

/-! ## Descriptor table

The system calls `close` and `dup` act on a table of open descriptors; `dup`
returns the lowest number that is not open, as POSIX specifies.
-/

/-- Model of the process's descriptor table together with a record of the `close` and
`dup` calls made: `entries` lists the open descriptor numbers with the open file
each refers to, `closed` and `dupped` the arguments of the calls, oldest first. -/
structure FdTable where
  entries : List (Int × Nat)
  closed : List Int
  dupped : List Int
deriving DecidableEq

/-- The open file a descriptor number refers to, if the number is open. -/
def FdTable.file_of (t : FdTable) (fd : Int) : Option Nat := List.lookup fd t.entries

/-- Search for the lowest number from `c` on that is not in `keys`, `fuel` steps. -/
def lowest_unused (keys : List Int) : Nat → Nat → Int
  | 0, c => c
  | fuel + 1, c => if (c : Int) ∈ keys then lowest_unused keys fuel (c + 1) else c

/-- The lowest descriptor number that is not open. -/
def FdTable.fresh (t : FdTable) : Int :=
  lowest_unused (t.entries.map Prod.fst) t.entries.length 0

/-- Model of `::close(fd)`: removes only the number it is given. -/
def sys_close (t : FdTable) (fd : Int) : FdTable :=
  { entries := t.entries.filter (fun e => e.1 ≠ fd), closed := t.closed ++ [fd],
    dupped := t.dupped }

/-- Model of `::dup(fd)`: a fresh descriptor number for the same open file, or `-1`
when `fd` is not open. -/
def sys_dup (t : FdTable) (fd : Int) : FdTable × Int :=
  match t.file_of fd with
  | none => ({ t with dupped := t.dupped ++ [fd] }, -1)
  | some k =>
    ({ entries := t.entries ++ [(t.fresh, k)], closed := t.closed,
       dupped := t.dupped ++ [fd] }, t.fresh)

/-! ## `File` (`file.cpp`) -/

/-- A `File` object: the member `fd_`. -/
structure File where
  fd_ : Int
deriving DecidableEq

/-- `File::File()`. -/
def File.default : File := ⟨-1⟩

/-- `File::File(int fd)`. -/
def File.of_fd (fd : Int) : File := ⟨fd⟩

/-- `File::fd`. -/
def File.fd (self : File) : Int := self.fd_

/-- `File::ok`. -/
def File.ok (self : File) : Bool := if self.fd_ ≥ 0 then true else false

/-- `File::File(const File &src)`: returns the table and the new object. -/
def File.copy_construct (t : FdTable) (src : File) : FdTable × File :=
  if src.fd_ ≥ 0 then
    let r := sys_dup t src.fd_
    (r.1, ⟨r.2⟩)
  else (t, ⟨-1⟩)

/-- `File::operator=(const File &src)`: returns the table and the assigned object;
`same` is the outcome of `this == &src`. -/
def File.copy_assign (t : FdTable) (same : Bool) (self src : File) : FdTable × File :=
  if same then (t, self)
  else
    let s1 : FdTable × Int := if self.fd_ > 0 then (sys_close t self.fd_, -1) else (t, self.fd_)
    if src.fd_ ≥ 0 then
      let r := sys_dup s1.1 src.fd_
      (r.1, ⟨r.2⟩)
    else (s1.1, ⟨-1⟩)

/-- `File::File(File &&src)`: `fd_` starts at `-1` and is swapped with `src.fd_`;
returns the new object and the source. -/
def File.move_construct (src : File) : File × File := (⟨src.fd_⟩, ⟨-1⟩)

/-- `File::operator=(File &&src)` on two distinct objects: returns the table, the
assigned object and the source. -/
def File.move_assign (t : FdTable) (self src : File) : FdTable × File × File :=
  let s1 : FdTable × Int := if self.fd_ > 0 then (sys_close t self.fd_, -1) else (t, self.fd_)
  (s1.1, ⟨src.fd_⟩, ⟨s1.2⟩)

/-- `File::~File`. -/
def File.destroy (t : FdTable) (self : File) : FdTable :=
  if self.fd_ ≥ 0 then sys_close t self.fd_ else t

/-- `File::read`: returns the result and the descriptor passed to `::read`, if the
call is made; `sys_read` gives the result of the system call. -/
def File.read (sys_read : Int → Nat → Int) (self : File) (size : Nat) : Int × Option Int :=
  if self.fd_ ≥ 0 then (sys_read self.fd_ size, some self.fd_) else (-1, none)

/-- `File::write`: returns the result and the descriptor passed to `::write`, if the
call is made; `sys_write` gives the result of the system call. -/
def File.write (sys_write : Int → Nat → Int) (self : File) (size : Nat) : Int × Option Int :=
  if self.fd_ ≥ 0 then (sys_write self.fd_ size, some self.fd_) else (-1, none)

/-- A `Pipe` object: the inherited `fd_` and the member `read_end_`. -/
structure Pipe where
  fd_ : Int
  read_end_ : Bool
deriving DecidableEq

/-- `Pipe::operator=(const Pipe &src)`; `same` is the outcome of `this == &src`. -/
def Pipe.copy_assign (t : FdTable) (same : Bool) (self src : Pipe) : FdTable × Pipe :=
  if same then (t, self)
  else
    let s1 : FdTable × Int := if self.fd_ > 0 then (sys_close t self.fd_, -1) else (t, self.fd_)
    if src.fd_ ≥ 0 then
      let r := sys_dup s1.1 src.fd_
      (r.1, ⟨r.2, src.read_end_⟩)
    else (s1.1, ⟨-1, src.read_end_⟩)

/-- `Fifo::Mode`. -/
inductive FifoMode where
  | READ
  | WRITE
deriving DecidableEq

/-- A `Fifo` object: the inherited `fd_` and the members `mode_` and `pathname_`. -/
structure Fifo where
  fd_ : Int
  mode_ : FifoMode
  pathname_ : String
deriving DecidableEq

/-- `Fifo::operator=(const Fifo &src)`; `same` is the outcome of `this == &src`. -/
def Fifo.copy_assign (t : FdTable) (same : Bool) (self src : Fifo) : FdTable × Fifo :=
  if same then (t, self)
  else
    let s1 : FdTable × Int := if self.fd_ > 0 then (sys_close t self.fd_, -1) else (t, self.fd_)
    if src.fd_ ≥ 0 then
      let r := sys_dup s1.1 src.fd_
      (r.1, ⟨r.2, src.mode_, src.pathname_⟩)
    else (s1.1, ⟨-1, src.mode_, src.pathname_⟩)

/-- A table with descriptors `0` and `5` open on two different files. -/
def table_0_5 : FdTable := { entries := [(0, 10), (5, 11)], closed := [], dupped := [] }

/-! ## `Signal` (`signal.cpp`) -/

/-- A system call made by a member function. -/
inductive SysCall where
  | raise (sig : Int)
  | kill (pid sig : Int)
  | poll (fd : Int)
  | read (fd : Int)
deriving DecidableEq

/-- `File::wait_for_readable`: returns the result and the system calls made;
`sys_poll fd` gives the result of `::poll` and whether `POLLIN` is set in
`revents`. -/
def File.wait_for_readable (sys_poll : Int → Int × Bool) (self : File) : Bool × List SysCall :=
  if self.fd_ ≥ 0 then
    (decide ((sys_poll self.fd_).1 > 0) && (sys_poll self.fd_).2, [SysCall.poll self.fd_])
  else (false, [])

/-- The `File` base of a `Pipe`. -/
def Pipe.toFile (p : Pipe) : File := ⟨p.fd_⟩

/-- `Signal::SignalNotifier`: one slot of the registration table. -/
structure SignalNotifier where
  is_init : Bool
  pipe : Pipe × Pipe

/-- Process-wide state used by `Signal`: the static array `notifier`, indexed
`0..31`, and for each signal number whether `Signal::handler` is installed
(`true`) or the disposition is `SIG_DFL` (`false`). -/
structure SignalState where
  notifier : Int → SignalNotifier
  handler_installed : Int → Bool

/-- A `Signal` object: the member `signum_`. -/
structure Signal where
  signum_ : Int
deriving DecidableEq

/-- `Signal::Signal(int signum)`: returns the state and the object, `none` standing
for `std::invalid_argument` being thrown; `created` is the value returned by
`Pipe::create()`. -/
def Signal.construct (st : SignalState) (created : Pipe × Pipe) (signum : Int) :
    SignalState × Option Signal :=
  if signum < 1 ∨ signum > 32 then (st, none)
  else if (st.notifier (signum - 1)).is_init then (st, none)
  else
    ({ notifier := Function.update st.notifier (signum - 1) ⟨true, created⟩,
       handler_installed := Function.update st.handler_installed signum true },
      some ⟨signum - 1⟩)

/-- The two statements `::signal(signum_ + 1, SIG_DFL); notifier[signum_].is_init = false`. -/
def SignalState.unregister (st : SignalState) (idx : Int) : SignalState :=
  { notifier := Function.update st.notifier idx ⟨false, (st.notifier idx).pipe⟩,
    handler_installed := Function.update st.handler_installed (idx + 1) false }

/-- `Signal::~Signal`. -/
def Signal.destroy (st : SignalState) (self : Signal) : SignalState :=
  if self.signum_ ≥ 0 then st.unregister self.signum_ else st

/-- `Signal::Signal(Signal &&other)`: returns the new object and the source. -/
def Signal.move_construct (other : Signal) : Signal × Signal := (⟨other.signum_⟩, ⟨-1⟩)

/-- `Signal::operator=(Signal &&other)`: returns the state, the assigned object and
the source; `same` is the outcome of `this == &other`. -/
def Signal.move_assign (st : SignalState) (same : Bool) (self other : Signal) :
    SignalState × Signal × Signal :=
  if same = false ∧ other.signum_ ≥ 0 then
    let st1 := if self.signum_ ≥ 0 then st.unregister self.signum_ else st
    (st1, ⟨other.signum_⟩, ⟨-1⟩)
  else (st, self, other)

/-- `Signal::signum`. -/
def Signal.signum (self : Signal) : Int := if self.signum_ < 0 then -1 else self.signum_ + 1

/-- `Signal::raise`: returns the result and the system calls made. -/
def Signal.raise (sys_raise : Int → Int) (self : Signal) : Bool × List SysCall :=
  if self.signum_ < 0 then (false, [])
  else (decide (sys_raise (self.signum_ + 1) = 0), [SysCall.raise (self.signum_ + 1)])

/-- `Signal::kill`: returns the result and the system calls made. -/
def Signal.kill (sys_kill : Int → Int → Int) (self : Signal) (pid : Int) : Bool × List SysCall :=
  if self.signum_ < 0 then (false, [])
  else (decide (sys_kill pid (self.signum_ + 1) = 0), [SysCall.kill pid (self.signum_ + 1)])

/-- `Signal::wait`: returns the result and the system calls made. -/
def Signal.wait (st : SignalState) (sys_poll : Int → Int × Bool) (self : Signal) :
    Bool × List SysCall :=
  if self.signum_ < 0 then (false, [])
  else
    let rd := (st.notifier self.signum_).pipe.1
    let r := File.wait_for_readable sys_poll rd.toFile
    if r.1 then (true, r.2 ++ (if rd.fd_ ≥ 0 then [SysCall.read rd.fd_] else []))
    else (false, r.2)

/-- The registration table before any `Signal` exists. -/
def SignalState.empty : SignalState :=
  { notifier := fun _ => ⟨false, (⟨-1, false⟩, ⟨-1, false⟩)⟩, handler_installed := fun _ => false }

/-- A table in which signal numbers 2 and 3 are registered, both slots holding
pipes with descriptors 3 and 4. -/
def SignalState.with_2_3 : SignalState :=
  { notifier := fun k => ⟨decide (k = 1 ∨ k = 2), (⟨3, true⟩, ⟨4, false⟩)⟩,
    handler_installed := fun s => decide (s = 2 ∨ s = 3) }

/-- The process-wide state together with the live `Signal` objects. -/
structure SignalWorld where
  st : SignalState
  objs : List Signal

/-- An operation on `Signal` objects, the objects being named by their position
in the list of live objects. -/
inductive SignalOp where
  | construct (created : Pipe × Pipe) (signum : Int)
  | destroy (i : Nat)
  | move_construct (i : Nat)
  | move_assign (j i : Nat)

/-- Effect of one operation. -/
def SignalWorld.step (w : SignalWorld) : SignalOp → SignalWorld
  | .construct created signum =>
    match Signal.construct w.st created signum with
    | (st1, some s) => ⟨st1, w.objs ++ [s]⟩
    | (st1, none) => ⟨st1, w.objs⟩
  | .destroy i =>
    match w.objs[i]? with
    | some s => ⟨Signal.destroy w.st s, w.objs.eraseIdx i⟩
    | none => w
  | .move_construct i =>
    match w.objs[i]? with
    | some s => ⟨w.st, w.objs.set i (Signal.move_construct s).2 ++ [(Signal.move_construct s).1]⟩
    | none => w
  | .move_assign j i =>
    match w.objs[j]?, w.objs[i]? with
    | some sj, some si =>
      let r := Signal.move_assign w.st (decide (j = i)) sj si
      ⟨r.1, (w.objs.set j r.2.1).set i r.2.2⟩
    | _, _ => w

/-- The state reached from the empty table by a sequence of operations. -/
def SignalWorld.run (ops : List SignalOp) : SignalWorld :=
  ops.foldl SignalWorld.step ⟨SignalState.empty, []⟩

/-- Number of live objects whose `signum_` is `k`. -/
def SignalWorld.holders (w : SignalWorld) (k : Int) : Nat :=
  w.objs.countP (fun s => decide (s.signum_ = k))

/-- The table and the live objects agree: for every index `k ≥ 0`, exactly one live
object holds `k` if slot `k` is initialised and none does otherwise. -/
def SignalWorld.consistent (w : SignalWorld) : Prop :=
  ∀ k : Int, 0 ≤ k → w.holders k = if (w.st.notifier k).is_init then 1 else 0

/-! ## `Pipe` (`pipe.cpp`) and `Fifo` (`fifo.cpp`) -/

/-- `Pipe::Pipe()`. -/
def Pipe.default : Pipe := ⟨-1, false⟩

/-- `Pipe::Pipe(int fd, bool read_end)`. -/
def Pipe.of_fd (fd : Int) (read_end : Bool) : Pipe := ⟨fd, read_end⟩

/-- `Pipe::is_read_end`. -/
def Pipe.is_read_end (self : Pipe) : Bool := self.read_end_

/-- `Pipe::is_write_end`. -/
def Pipe.is_write_end (self : Pipe) : Bool := !self.read_end_

/-- `File::ok` on the `File` base of a `Pipe`. -/
def Pipe.ok (self : Pipe) : Bool := self.toFile.ok

/-- Model of `::pipe(fds)`: returns the table, the result and `fds[0]`, `fds[1]`.
When the call fails the table is unchanged and `fds` is left as it was (`g0`,
`g1`: the array is not initialised by the caller); when it succeeds the two
lowest unused numbers are opened on the new pipe `obj`. -/
def sys_pipe (t : FdTable) (fails : Bool) (obj : Nat) (g0 g1 : Int) :
    FdTable × Int × Int × Int :=
  if fails then (t, -1, g0, g1)
  else
    let t1 : FdTable :=
      { entries := t.entries ++ [(t.fresh, obj)], closed := t.closed, dupped := t.dupped }
    ({ entries := t1.entries ++ [(t1.fresh, obj)], closed := t.closed, dupped := t.dupped },
      0, t.fresh, t1.fresh)

/-- `Pipe::create`: returns the table and the pair of pipes. -/
def Pipe.create (t : FdTable) (fails : Bool) (obj : Nat) (g0 g1 : Int) :
    FdTable × Pipe × Pipe :=
  let r := sys_pipe t fails obj g0 g1
  if r.2.1 = -1 then (r.1, Pipe.default, Pipe.default)
  else (r.1, Pipe.of_fd r.2.2.1 true, Pipe.of_fd r.2.2.2 false)

/-- `Pipe::Pipe(const Pipe &src)`: returns the table and the new object. -/
def Pipe.copy_construct (t : FdTable) (src : Pipe) : FdTable × Pipe :=
  if src.fd_ ≥ 0 then
    let r := sys_dup t src.fd_
    (r.1, ⟨r.2, src.read_end_⟩)
  else (t, ⟨-1, src.read_end_⟩)

/-- `Pipe::Pipe(Pipe &&other)`: the `File` base is move-constructed from `other`,
then `read_end_` is copied from it; returns the new object and the source. -/
def Pipe.move_construct (other : Pipe) : Pipe × Pipe :=
  (⟨(File.move_construct other.toFile).1.fd_, other.read_end_⟩,
    ⟨(File.move_construct other.toFile).2.fd_, other.read_end_⟩)

/-- `Pipe::operator=(Pipe &&other)` on two distinct objects: returns the table,
the assigned object and the source. -/
def Pipe.move_assign (t : FdTable) (self other : Pipe) : FdTable × Pipe × Pipe :=
  let s1 : FdTable × Int × Bool :=
    if self.fd_ > 0 then (sys_close t self.fd_, -1, false) else (t, self.fd_, self.read_end_)
  (s1.1, ⟨other.fd_, other.read_end_⟩, ⟨s1.2.1, other.read_end_⟩)

/-- The value of `O_RDONLY` in `<fcntl.h>` (Linux). -/
def O_RDONLY : Nat := 0

/-- The value of `O_WRONLY` in `<fcntl.h>` (Linux). -/
def O_WRONLY : Nat := 1

/-- The value of `O_RDWR` in `<fcntl.h>` (Linux). -/
def O_RDWR : Nat := 2

/-- The value of `O_ACCMODE` in `<fcntl.h>` (Linux). -/
def O_ACCMODE : Nat := 3

/-- The value of `O_NONBLOCK` in `<fcntl.h>` (Linux). -/
def O_NONBLOCK : Nat := 2048

/-- A file-system call made by the `Fifo` constructor. -/
inductive FsCall where
  | mkfifo (pathname : String) (mode : Nat)
  | open_path (pathname : String) (flags : Nat)
deriving DecidableEq

/-- `Fifo::Fifo(const std::string &pathname, Mode mode, bool nonblocking)`: returns
the object and the system calls made, in order; `sys_open` gives the result of
`::open`. -/
def Fifo.construct (sys_open : String → Nat → Int) (pathname : String) (mode : FifoMode)
    (nonblocking : Bool) : Fifo × List FsCall :=
  let flags0 : Nat := if mode = FifoMode.READ then O_RDONLY else O_WRONLY
  let flags : Nat := if nonblocking then flags0 ||| O_NONBLOCK else flags0
  (⟨sys_open pathname flags, mode, pathname⟩,
    [FsCall.mkfifo pathname 0o666, FsCall.open_path pathname flags])

/-- `Fifo::Fifo(const Fifo &src)`: returns the table and the new object. -/
def Fifo.copy_construct (t : FdTable) (src : Fifo) : FdTable × Fifo :=
  if src.fd_ ≥ 0 then
    let r := sys_dup t src.fd_
    (r.1, ⟨r.2, src.mode_, src.pathname_⟩)
  else (t, ⟨-1, src.mode_, src.pathname_⟩)

/-- `Fifo::pathname`. -/
def Fifo.pathname (self : Fifo) : String := self.pathname_

/-- `Fifo::mode`. -/
def Fifo.mode (self : Fifo) : FifoMode := self.mode_

/-! ## The robot link (`robot.c`, `robot.h`) -/

/-- `ROS_PKG_LENGTH`, that is `ROS_HEADER_LENGTH + ROS_FOOTER_LENGTH`. -/
def ROS_PKG_LENGTH : Nat := 7 + 1

/-- `MBOT_VEL_CMD`. -/
def MBOT_VEL_CMD : Nat := 214

/-- `STDOUT_FILENO`. -/
def STDOUT_FILENO : Int := 1

/-- `drive_cmd_t`: the `int64_t` and the three `float` fields are held as the
unsigned values of their object representations. -/
structure drive_cmd_t where
  utime : Nat
  vx : Nat
  vy : Nat
  wz : Nat
deriving DecidableEq

/-- `sizeof(drive_cmd_t)` under `#pragma pack(push, 1)`. -/
def sizeof_drive_cmd_t : Nat := 8 + 4 + 4 + 4

/-- The bytes seen through `(uint8_t *)cmd`: the packed fields in declaration order. -/
def drive_cmd_t.bytes (cmd : drive_cmd_t) : List Byte :=
  le_bytes 8 cmd.utime ++ le_bytes 4 cmd.vx ++ le_bytes 4 cmd.vy ++ le_bytes 4 cmd.wz

/-- An effect of `robot.c` on the outside world, on the globals shared with the
time-sync thread, or on the thread itself. -/
inductive RobotAction where
  | open_serial
  | perror
  | tcgetattr (fd : Int)
  | tcflush (fd : Int)
  | tcsetattr (fd : Int)
  | close (fd : Int)
  | mutex_init
  | mutex_destroy
  | mutex_lock
  | mutex_unlock
  | thread_create
  | thread_join
  | set_stop_flag
  | write (fd : Int) (bytes : List Byte)
  | usleep (usec : Nat)
deriving DecidableEq

/-- The globals of `robot.c` read by the functions below. -/
structure RobotState where
  stop_timesync_flag : Bool
  use_serial_flag : Int
  robot_fd : Int
deriving DecidableEq

/-- `init_mbot`: returns the result, the globals and the effects in order.
`open_result` is what `open` returns and `tcgetattr_result` what the second
`tcgetattr` returns. -/
def init_mbot (st : RobotState) (use_serial : Int) (open_result tcgetattr_result : Int) :
    Int × RobotState × List RobotAction :=
  let st1 : RobotState := { st with use_serial_flag := use_serial }
  if use_serial ≠ 0 then
    let st2 : RobotState := { st1 with robot_fd := open_result }
    if open_result < 0 then (-1, st2, [RobotAction.open_serial, RobotAction.perror])
    else
      let setup := [RobotAction.open_serial, RobotAction.tcgetattr open_result,
        RobotAction.tcflush open_result, RobotAction.tcsetattr open_result,
        RobotAction.tcgetattr open_result]
      if tcgetattr_result ≠ 0 then (-1, st2, setup ++ [RobotAction.close open_result])
      else (0, st2, setup ++ [RobotAction.mutex_init, RobotAction.thread_create])
  else (0, { st1 with robot_fd := STDOUT_FILENO }, [RobotAction.mutex_init])

/-- `deinit_mbot`: returns the globals and the effects in order. -/
def deinit_mbot (st : RobotState) : RobotState × List RobotAction :=
  ({ st with stop_timesync_flag := true },
    [RobotAction.set_stop_flag] ++
      (if st.use_serial_flag ≠ 0 then [RobotAction.thread_join] else []) ++
      [RobotAction.close st.robot_fd, RobotAction.mutex_destroy])

/-- `drive`: returns the result of the `encode_msg` call and the effects in order.
`stack` is the content of the local array `msg` before the call. -/
def drive (st : RobotState) (stack : List Byte) (cmd : drive_cmd_t) : Int × List RobotAction :=
  let r := encode_msg cmd.bytes sizeof_drive_cmd_t MBOT_VEL_CMD stack
    ((sizeof_drive_cmd_t + ROS_PKG_LENGTH : Nat) : Int)
  (r.1, [RobotAction.mutex_lock,
    RobotAction.write st.robot_fd (r.2.take (sizeof_drive_cmd_t + ROS_PKG_LENGTH)),
    RobotAction.mutex_unlock])

/-! ## The self-pipe of a signal slot (`signal.cpp`) -/

/-- The registration table together with the bytes held, oldest first, by the pipe
of each slot. -/
structure SelfPipe where
  st : SignalState
  queue : Int → List Byte

/-- `Signal::handler`: when the slot is initialised, `::write` of the byte `1` to
the write end of its pipe, which appends the byte to the queue when the
descriptor is valid. -/
def Signal.handler (w : SelfPipe) (signum : Int) : SelfPipe :=
  let index := signum - 1
  if (w.st.notifier index).is_init then
    if (w.st.notifier index).pipe.2.fd_ ≥ 0 then
      { w with queue := Function.update w.queue index (w.queue index ++ [1]) }
    else w
  else w

/-- `Signal::Signal(int signum)` with the pipe of the slot: the pair returned by
`Pipe::create()` is a new, empty pipe. -/
def SelfPipe.construct (w : SelfPipe) (created : Pipe × Pipe) (signum : Int) :
    SelfPipe × Option Signal :=
  let r := Signal.construct w.st created signum
  (⟨r.1, if r.2.isSome then Function.update w.queue (signum - 1) [] else w.queue⟩, r.2)

/-- `Signal::raise` with the delivery of the signal: `::raise` returns `0` after the
handler installed for the signal number, if any, has run once. -/
def SelfPipe.raise (w : SelfPipe) (self : Signal) : Bool × SelfPipe :=
  let r := Signal.raise (fun _ => 0) self
  (r.1,
    if SysCall.raise (self.signum_ + 1) ∈ r.2 ∧ w.st.handler_installed (self.signum_ + 1) then
      Signal.handler w (self.signum_ + 1)
    else w)

/-- `Signal::wait` on the pipe of the slot: `::poll` on the read end reports
`POLLIN` exactly when a byte is queued, and the `read` of one byte removes the
oldest one. -/
def SelfPipe.wait (w : SelfPipe) (self : Signal) : Bool × SelfPipe :=
  let r := Signal.wait w.st
    (fun _ => if w.queue self.signum_ = [] then (0, false) else (1, true)) self
  (r.1,
    if r.1 then
      { w with queue := Function.update w.queue self.signum_ (w.queue self.signum_).tail }
    else w)

/-! ## The spin loops (`mbot_driver.cpp`, `teleop_keyboard.cpp`)

The message classes `standard::UInt32` and `geometry::Twist2DStamped`, the
interfaces `IO` and `Notification` and the class `MBotBase` are declared in
headers that are not among the sources.  The velocity message is a record of the
fields the loops access, its codec is a parameter `ops`, and the environment of
a loop is the list of the results of its `is_ready()` calls and the list of the
results of its `read` calls, in order. -/

/-- Modelled from the spec: `standard::UInt32`, a message whose one field `data` is
a `uint32_t` encoded by `serialize_number` and decoded by `deserialize_number`. -/
def standardUInt32 : Message Nat where
  size := fun _ => 4
  serialize := fun data dst offset => serialize_number 4 dst offset data
  deserialize := fun data src size offset => deserialize_number 4 data src size offset

/-- Modelled from the spec: `geometry::Twist2DStamped`, a timestamped planar
velocity: sequence number, frame identifier, timestamp (seconds, nanoseconds) and
the three single-precision velocities, each `float` being held as the unsigned
value of its object representation (`0` for `0.0f`, `0x3F000000` for `0.5f`). -/
structure Twist2DStamped where
  seq : Nat
  frame_id : List Byte
  stamp : Nat × Nat
  vx : Nat
  vy : Nat
  wz : Nat
deriving DecidableEq

/-- The bytes `enc` are the wire form of `m` under `ops`: `size` is their count,
`serialize` puts them at the offset and advances by their count, and
`deserialize` reads `m` back from them wherever they stand in a buffer. -/
def Message.encodes {M : Type} (ops : Message M) (m : M) (enc : List Byte) : Prop :=
  enc.length = ops.size m
  ∧ (∀ (dst : List Byte) (o : Nat), o + enc.length ≤ dst.length → dst.length < SIZE_MOD →
      ops.serialize m dst o = (splice dst o enc, o + enc.length))
  ∧ (∀ (prev : M) (pre post : List Byte) (size : Nat), pre.length + enc.length ≤ size →
      size < SIZE_MOD →
      ops.deserialize prev (pre ++ enc ++ post) size pre.length =
        (true, m, pre.length + enc.length))

/-- What a run of `MBotDriver::spin` does, in order. -/
inductive DriverEvent where
  | is_ready (r : Bool)
  | read (size : Nat) (ret : Int)
  | drive (cmd : Twist2DStamped)
  | returned
deriving DecidableEq

/-- The local `stop_cmd` of `MBotDriver::spin`: a default-constructed message
`dflt` whose three velocities are then set to `0.0`. -/
def MBotDriver.stop_cmd (dflt : Twist2DStamped) : Twist2DStamped :=
  { dflt with vx := 0, vy := 0, wz := 0 }

/-- The outcome of one pass through the loop body after `is_ready()` returned
false: the events, whether the function returned, the receive buffer and the
results of `read` not yet consumed. -/
structure DriverStep where
  events : List DriverEvent
  finished : Bool
  buffer : List Byte
  reads : List (Int × List Byte)
deriving DecidableEq

/-- The body of the loop of `MBotDriver::spin` after the notification check.  A
`read` of `n` bytes that returns `(ret, data)` stores at most `n` bytes of `data`
at the start of `buffer`; `none` when the results of `read` run out. -/
def MBotDriver.iteration (ops : Message Twist2DStamped) (dflt : Twist2DStamped)
    (buffer : List Byte) : List (Int × List Byte) → Option DriverStep
  | [] => none
  | rd1 :: reads1 =>
    let buffer1 := memcpy_to buffer 0 (rd1.2.take 4)
    if rd1.1 = 0 then
      some ⟨[DriverEvent.read 4 0, DriverEvent.drive (MBotDriver.stop_cmd dflt),
        DriverEvent.returned], true, buffer1, reads1⟩
    else if rd1.1 ≠ 4 then some ⟨[DriverEvent.read 4 rd1.1], false, buffer1, reads1⟩
    else
      let r := standardUInt32.deserialize 0 buffer1 4 0
      if r.1 = false then some ⟨[DriverEvent.read 4 4], false, buffer1, reads1⟩
      else
        let msg_size := r.2.1
        match reads1 with
        | [] => none
        | rd2 :: reads2 =>
          let buffer2 := memcpy_to buffer1 0 (rd2.2.take msg_size)
          if rd2.1 ≠ (msg_size : Int) then
            some ⟨[DriverEvent.read 4 4, DriverEvent.read msg_size rd2.1], false, buffer2, reads2⟩
          else
            let c := ops.deserialize dflt buffer2 msg_size 0
            if c.1 = false then
              some ⟨[DriverEvent.read 4 4, DriverEvent.read msg_size rd2.1], false, buffer2,
                reads2⟩
            else
              some ⟨[DriverEvent.read 4 4, DriverEvent.read msg_size rd2.1,
                DriverEvent.drive c.2.1], false, buffer2, reads2⟩

/-- `MBotDriver::spin`: the events of the run, or `none` when the results of
`is_ready()` or of `read` run out before the function returns. -/
def MBotDriver.spin (ops : Message Twist2DStamped) (dflt : Twist2DStamped) :
    List Bool → List (Int × List Byte) → List Byte → Option (List DriverEvent)
  | [], _, _ => none
  | true :: _, _, _ =>
    some [DriverEvent.is_ready true, DriverEvent.drive (MBotDriver.stop_cmd dflt),
      DriverEvent.returned]
  | false :: ready, reads, buffer =>
    match MBotDriver.iteration ops dflt buffer reads with
    | none => none
    | some s =>
      if s.finished then some (DriverEvent.is_ready false :: s.events)
      else
        match MBotDriver.spin ops dflt ready s.reads s.buffer with
        | none => none
        | some tr => some (DriverEvent.is_ready false :: (s.events ++ tr))

/-- What a run of `TeleopKeyboard::spin` does, in order. -/
inductive TeleopEvent where
  | is_ready (r : Bool)
  | read (size : Nat) (ret : Int)
  | write (bytes : List Byte)
  | returned
deriving DecidableEq

/-- The arithmetic on `double` used by `TeleopKeyboard::spin`: the value `0`, unary
minus, and the conversion `(float)` to the object representation of a `float`. -/
structure DoubleOps (D : Type) where
  zero : D
  neg : D → D
  to_float : D → Nat

/-- The `switch` of `TeleopKeyboard::spin`: the velocities `(vx, vy, wz)` for the
character read, `none` standing for `default: continue`. -/
def TeleopKeyboard.velocities {D : Type} (ar : DoubleOps D) (linear_speed angular_speed : D)
    (ch : Byte) : Option (D × D × D) :=
  if ch = 87 ∨ ch = 119 then some (linear_speed, ar.zero, ar.zero)
  else if ch = 65 ∨ ch = 97 then some (ar.zero, linear_speed, ar.zero)
  else if ch = 83 ∨ ch = 115 then some (ar.neg linear_speed, ar.zero, ar.zero)
  else if ch = 68 ∨ ch = 100 then some (ar.zero, ar.neg linear_speed, ar.zero)
  else if ch = 81 ∨ ch = 113 then some (ar.zero, ar.zero, angular_speed)
  else if ch = 69 ∨ ch = 101 then some (ar.zero, ar.zero, ar.neg angular_speed)
  else if ch = 32 then some (ar.zero, ar.zero, ar.zero)
  else none

/-- The message built by `TeleopKeyboard::spin` for the velocities `v`: a
default-constructed message `dflt` with `header.seq`, `header.frame_id = "mbot"`,
`header.stamp` and the three converted velocities stored into it. -/
def TeleopKeyboard.make_cmd {D : Type} (ar : DoubleOps D) (dflt : Twist2DStamped) (seq : Nat)
    (now : Nat × Nat) (v : D × D × D) : Twist2DStamped :=
  { dflt with
    seq := seq, frame_id := [109, 98, 111, 116], stamp := now,
    vx := ar.to_float v.1, vy := ar.to_float v.2.1, wz := ar.to_float v.2.2 }

/-- The bytes passed to `output->write`: `cmd.size()` and then `cmd` are serialised
from offset `0` into the local array `msg_buffer`, whose prior content is
`stack`, and the first `offset` bytes are written. -/
def TeleopKeyboard.frame (ops : Message Twist2DStamped) (stack : List Byte)
    (cmd : Twist2DStamped) : List Byte :=
  let r1 := standardUInt32.serialize (ops.size cmd) stack 0
  let r2 := ops.serialize cmd r1.1 r1.2
  memcpy_from r2.1 0 r2.2

/-- The outcome of one pass through the loop body of `TeleopKeyboard::spin` after
`is_ready()` returned false: the events, the counter `seq` and the buffer. -/
structure TeleopStep where
  events : List TeleopEvent
  seq : Nat
  buffer : List Byte
deriving DecidableEq

/-- The body of the loop of `TeleopKeyboard::spin` after the notification check;
`rd` is the result of the `read` of one byte and `now` that of `Time::now()`. -/
def TeleopKeyboard.iteration {D : Type} (ar : DoubleOps D) (ops : Message Twist2DStamped)
    (dflt : Twist2DStamped) (linear_speed angular_speed : D) (stack : List Byte) (seq : Nat)
    (buffer : List Byte) (rd : Int × List Byte) (now : Nat × Nat) : TeleopStep :=
  let buffer1 := memcpy_to buffer 0 (rd.2.take 1)
  if rd.1 ≠ 1 then ⟨[TeleopEvent.read 1 rd.1], seq, buffer1⟩
  else
    match TeleopKeyboard.velocities ar linear_speed angular_speed (buffer1.getD 0 0) with
    | none => ⟨[TeleopEvent.read 1 1], seq, buffer1⟩
    | some v =>
      ⟨[TeleopEvent.read 1 1,
          TeleopEvent.write
            (TeleopKeyboard.frame ops stack (TeleopKeyboard.make_cmd ar dflt seq now v))],
        (seq + 1) % U32_MOD, buffer1⟩

/-- `TeleopKeyboard::spin` from the given value of `seq` and pass number `k`: the
events of the run, or `none` when the results of `is_ready()` or of `read` run
out before the function returns; `now k` is the time read in pass `k`. -/
def TeleopKeyboard.spin {D : Type} (ar : DoubleOps D) (ops : Message Twist2DStamped)
    (dflt : Twist2DStamped) (linear_speed angular_speed : D) (stack : List Byte)
    (now : Nat → Nat × Nat) :
    List Bool → List (Int × List Byte) → Nat → List Byte → Nat → Option (List TeleopEvent)
  | [], _, _, _, _ => none
  | true :: _, _, _, _, _ => some [TeleopEvent.is_ready true, TeleopEvent.returned]
  | false :: _, [], _, _, _ => none
  | false :: ready, rd :: reads, seq, buffer, k =>
    let s := TeleopKeyboard.iteration ar ops dflt linear_speed angular_speed stack seq buffer
      rd (now k)
    match TeleopKeyboard.spin ar ops dflt linear_speed angular_speed stack now ready reads
        s.seq s.buffer (k + 1) with
    | none => none
    | some tr => some (TeleopEvent.is_ready false :: (s.events ++ tr))

/-- Modelled from the spec: the wire form of a `geometry::Twist2DStamped`, its
fields in the order sequence number, frame identifier, timestamp, velocities,
each encoded by the wire codec. -/
def wire_twist (m : Twist2DStamped) : List Byte :=
  le_bytes 4 m.seq ++ (wire_string m.frame_id ++
    [m.stamp.1, m.stamp.2, m.vx, m.vy, m.wz].flatMap (le_bytes 4))

/-- Modelled from the spec: the members `size`, `serialize` and `deserialize` of
`geometry::Twist2DStamped`, composed from the functions of `serialization.hpp`;
the five 4-byte fields after the string are copied as one block. -/
def twist2DStampedMsg : Message Twist2DStamped where
  size := fun m => (4 + size_string m.frame_id + 20) % U32_MOD
  serialize := fun m dst offset =>
    let r1 := serialize_number 4 dst offset m.seq
    let r2 := serialize_string r1.1 r1.2 m.frame_id
    serialize_number_array 4 r2.1 r2.2 [m.stamp.1, m.stamp.2, m.vx, m.vy, m.wz]
  deserialize := fun prev src size offset =>
    let r1 := deserialize_number 4 prev.seq src size offset
    if r1.1 = false then (false, prev, r1.2.2)
    else
      let r2 := deserialize_string prev.frame_id src size r1.2.2
      if r2.1 = false then (false, { prev with seq := r1.2.1 }, r2.2.2)
      else
        let r3 := deserialize_number_array 4
          [prev.stamp.1, prev.stamp.2, prev.vx, prev.vy, prev.wz] src size r2.2.2
        if r3.1 = false then (false, { prev with seq := r1.2.1, frame_id := r2.2.1 }, r3.2.2)
        else
          (true,
            ⟨r1.2.1, r2.2.1, (r3.2.1.getD 0 0, r3.2.1.getD 1 0), r3.2.1.getD 2 0,
              r3.2.1.getD 3 0, r3.2.1.getD 4 0⟩,
            r3.2.2)

/-- A sample of the arithmetic on `double`, for the examples: a `double` is held as
an integer number of halves, and `(float)` gives the object representation of
the `float` for `0`, `0.5`, `-0.5`, `1.5` and `-1.5` (and `0` elsewhere). -/
def halvesOps : DoubleOps Int where
  zero := 0
  neg := fun x => -x
  to_float := fun x =>
    if x = 1 then 0x3F000000 else if x = -1 then 0xBF000000
    else if x = 3 then 0x3FC00000 else if x = -3 then 0xBFC00000 else 0

/-! ## The time-sync thread and the shared descriptor (`robot.c`) -/

/-- `MBOT_TIMESYNC`. -/
def MBOT_TIMESYNC : Nat := 201

/-- `sizeof(timesync_msg_t)` under `#pragma pack(push, 1)`. -/
def sizeof_timesync_msg_t : Nat := 8

/-- `timesync`: the effects of the thread in order, or `none` when the environment
runs out before the function returns.  Each pass of the loop takes from the
environment whether another thread has stored to `stop_timesync_flag` since the
thread started, the time `utime`, the prior content of the local array `rospkt`
and the result of `write`; `st` holds the globals as they were when the thread
started, and the flag is read as set when it was set then or has been stored to
since. -/
def timesync (st : RobotState) : List (Bool × Nat × List Byte × Int) → Option (List RobotAction)
  | [] => none
  | e :: env =>
    if st.stop_timesync_flag || e.1 then some []
    else
      let r := encode_msg (le_bytes 8 e.2.1) sizeof_timesync_msg_t MBOT_TIMESYNC e.2.2.1
        ((sizeof_timesync_msg_t + ROS_PKG_LENGTH : Nat) : Int)
      if r.1 < 0 then some [RobotAction.perror]
      else
        let acts := [RobotAction.mutex_lock,
          RobotAction.write st.robot_fd (r.2.take (sizeof_timesync_msg_t + ROS_PKG_LENGTH)),
          RobotAction.mutex_unlock]
        if e.2.2.2 < 0 then some (acts ++ [RobotAction.perror])
        else
          match timesync st env with
          | none => none
          | some rest => some (acts ++ RobotAction.usleep 500000 :: rest)

/-- The index ranges `(first, count)` of `rospkt` that `encode_msg` stores to, in
order: the seven header bytes, the `memcpy` of `(size_t)msg_len` bytes to index
`7`, and the footer at `rospkt_len - 1`; none when the size check fails. -/
def encode_msg_stores (msg_len rospkt_len : Int) : List (Int × Nat) :=
  if wrap_int (msg_len + 8) ≠ rospkt_len then []
  else
    [(0, 1), (1, 1), (2, 1), (3, 1), (4, 1), (5, 1), (6, 1),
      (7, (msg_len % (SIZE_MOD : Int)).toNat), (rospkt_len - 1, 1)]

/-- Every non-empty range of `stores` lies in `[0, len)`. -/
def stores_inside (len : Int) (stores : List (Int × Nat)) : Bool :=
  stores.all (fun s => decide (s.2 = 0 ∨ (0 ≤ s.1 ∧ s.1 + (s.2 : Int) ≤ len)))

/-- Two threads running against one mutex and one descriptor: the actions each
thread has still to perform, the thread holding the mutex, and the bytes that
have reached the descriptor. -/
structure Interleaving where
  todo : Bool → List RobotAction
  holder : Option Bool
  out : List Byte

/-- One step of thread `t`.  `mutex_lock` is taken only when the mutex is free, and
otherwise the thread stays where it is; `mutex_unlock` frees the mutex; a `write`
transfers one byte per step, so that the other thread may run between two bytes;
every other action is performed in one step. -/
def Interleaving.step (s : Interleaving) (t : Bool) : Interleaving :=
  match s.todo t with
  | [] => s
  | RobotAction.mutex_lock :: rest =>
    if s.holder = none then
      { s with todo := Function.update s.todo t rest, holder := some t }
    else s
  | RobotAction.mutex_unlock :: rest =>
    { s with todo := Function.update s.todo t rest, holder := none }
  | RobotAction.write _ [] :: rest => { s with todo := Function.update s.todo t rest }
  | RobotAction.write fd (x :: xs) :: rest =>
    { s with todo := Function.update s.todo t (RobotAction.write fd xs :: rest),
             out := s.out ++ [x] }
  | _ :: rest => { s with todo := Function.update s.todo t rest }

/-- The state reached from the start of the traces `a` (command thread) and `b`
(time-sync thread) under the schedule `sched`, which names the thread that takes
each step. -/
def Interleaving.run (a b : List RobotAction) (sched : List Bool) : Interleaving :=
  sched.foldl Interleaving.step ⟨fun t => if t then b else a, none, []⟩

theorem le_bytes_length (w n : Nat) : (le_bytes w n).length = w := by
  induction w generalizing n with
  | zero => rfl
  | succ w ih => simp [le_bytes, ih]

theorem le_value_le_bytes (w n : Nat) : le_value (le_bytes w n) = n % 256 ^ w := by
  induction w generalizing n with
  | zero => simp [le_bytes, le_value, Nat.mod_one]
  | succ w ih =>
    simp only [le_bytes, le_value, ih]
    rw [pow_succ, mul_comm (256 ^ w) 256, Nat.mod_mul]

theorem le_value_le_bytes_of_lt (w n : Nat) (h : n < 256 ^ w) :
    le_value (le_bytes w n) = n := by
  rw [le_value_le_bytes, Nat.mod_eq_of_lt h]

theorem le_value_lt (bs : List Byte) : le_value bs < 256 ^ bs.length := by
  induction bs with
  | nil => simp [le_value]
  | cons b bs ih =>
    simp only [le_value, List.length_cons, pow_succ]
    have := b.isLt
    omega

theorem memcpy_to_length (dst : List Byte) (off : Nat) (bs : List Byte) :
    (memcpy_to dst off bs).length = dst.length := by
  induction bs generalizing dst off with
  | nil => rfl
  | cons b bs ih => simp [memcpy_to, ih]

theorem memcpy_to_append (pre mid post bs : List Byte) (h : mid.length = bs.length) :
    memcpy_to (pre ++ mid ++ post) pre.length bs = pre ++ bs ++ post := by
  induction bs generalizing pre mid with
  | nil =>
    have : mid = [] := List.length_eq_zero.mp (by simpa using h)
    simp [memcpy_to, this]
  | cons b bs ih =>
    cases mid with
    | nil => simp at h
    | cons m mid =>
      simp only [List.length_cons, add_left_inj] at h
      have hset : (pre ++ m :: mid ++ post).set pre.length b = (pre ++ [b]) ++ mid ++ post := by
        simp [List.set_append]
      have := ih (pre ++ [b]) mid h
      simp only [List.length_append, List.length_singleton] at this
      simp only [memcpy_to, hset, this]
      simp

theorem memcpy_to_eq (dst : List Byte) (off : Nat) (bs : List Byte)
    (h : off + bs.length ≤ dst.length) :
    memcpy_to dst off bs = dst.take off ++ bs ++ dst.drop (off + bs.length) := by
  have hsplit : dst = dst.take off ++ (dst.drop off).take bs.length ++ dst.drop (off + bs.length) := by
    rw [List.append_assoc, ← List.drop_drop, List.take_append_drop, List.take_append_drop]
  have hlen : (dst.take off).length = off := by simp; omega
  have hmid : ((dst.drop off).take bs.length).length = bs.length := by simp; omega
  have := memcpy_to_append (dst.take off) ((dst.drop off).take bs.length)
    (dst.drop (off + bs.length)) bs hmid
  rw [hlen, ← hsplit] at this
  exact this

theorem memcpy_from_length (src : List Byte) (off n : Nat) :
    (memcpy_from src off n).length = n := by
  simp [memcpy_from]

theorem memcpy_from_append (pre bs post : List Byte) :
    memcpy_from (pre ++ bs ++ post) pre.length bs.length = bs := by
  apply List.ext_getElem
  · simp [memcpy_from]
  · intro i h1 h2
    simp [memcpy_from, List.getD_eq_getElem?_getD, List.getElem?_append_left,
      List.getElem?_append_right, h2]

theorem memcpy_from_mid (pre bs post : List Byte) (off n : Nat)
    (hoff : off = pre.length) (hn : n = bs.length) :
    memcpy_from (pre ++ bs ++ post) off n = bs := by
  subst hoff hn
  exact memcpy_from_append pre bs post

theorem u32_lt_size : U32_MOD < SIZE_MOD := by decide

/-! ## Strings -/

theorem serialize_string_eq (dst s : List Byte) (o : Nat)
    (hfit : o + 4 + s.length ≤ dst.length) (hbuf : dst.length < SIZE_MOD) :
    serialize_string dst o s =
      (dst.take o ++ (le_bytes 4 (s.length % U32_MOD) ++ s) ++ dst.drop (o + 4 + s.length),
        o + 4 + s.length) := by
  have h1 : (o + 4) % SIZE_MOD = o + 4 := Nat.mod_eq_of_lt (by omega)
  have h2 : (o + 4 + s.length) % SIZE_MOD = o + 4 + s.length := Nat.mod_eq_of_lt (by omega)
  simp only [serialize_string, h1, h2]
  congr 1
  rw [memcpy_to_eq dst o _ (by rw [le_bytes_length]; omega), le_bytes_length]
  have hpre : (dst.take o ++ le_bytes 4 (s.length % U32_MOD)).length = o + 4 := by
    simp [le_bytes_length]; omega
  have hdd : dst.drop (o + 4 + s.length) = (dst.drop (o + 4)).drop s.length := by
    rw [List.drop_drop]
  have hsplit : dst.drop (o + 4) = (dst.drop (o + 4)).take s.length ++ dst.drop (o + 4 + s.length) := by
    rw [hdd, List.take_append_drop]
  have hmid : ((dst.drop (o + 4)).take s.length).length = s.length := by
    rw [List.length_take, List.length_drop]; omega
  have key := memcpy_to_append (dst.take o ++ le_bytes 4 (s.length % U32_MOD))
    ((dst.drop (o + 4)).take s.length) (dst.drop (o + 4 + s.length)) s hmid
  rw [hpre, List.append_assoc _ ((dst.drop (o + 4)).take s.length), ← hsplit] at key
  rw [key]
  simp

theorem deserialize_number_mid (pre bs post : List Byte) (w prev size off : Nat)
    (hoff : off = pre.length) (hw : w = bs.length)
    (hsize : off + w ≤ size) (hlt : off + w < SIZE_MOD) :
    deserialize_number w prev (pre ++ bs ++ post) size off = (true, le_value bs, off + w) := by
  have h1 : (off + w) % SIZE_MOD = off + w := Nat.mod_eq_of_lt hlt
  simp only [deserialize_number, h1, gt_iff_lt, not_lt.mpr hsize, if_false,
    memcpy_from_mid pre bs post off w hoff hw]

theorem deserialize_string_wire (pre s post prev : List Byte) (n size off : Nat)
    (hoff : off = pre.length) (hn : n % U32_MOD = s.length)
    (hsize : off + 4 + s.length ≤ size) (hlt : off + 4 + s.length < SIZE_MOD) :
    deserialize_string prev (pre ++ (le_bytes 4 n ++ s) ++ post) size off =
      (true, s, off + 4 + s.length) := by
  have hnum : deserialize_number 4 0 (pre ++ (le_bytes 4 n ++ s) ++ post) size off =
      (true, s.length, off + 4) := by
    have := deserialize_number_mid pre (le_bytes 4 n) (s ++ post) 4 0 size off hoff
      (by rw [le_bytes_length]) (by omega) (by omega)
    rw [le_value_le_bytes] at this
    have h256 : (256 : Nat) ^ 4 = U32_MOD := by decide
    rw [h256, hn] at this
    simpa [List.append_assoc] using this
  have h2 : (off + 4 + s.length) % SIZE_MOD = off + 4 + s.length := Nat.mod_eq_of_lt hlt
  have hrd : memcpy_from (pre ++ (le_bytes 4 n ++ s) ++ post) (off + 4) s.length = s := by
    have := memcpy_from_mid (pre ++ le_bytes 4 n) s post (off + 4) s.length
      (by simp [le_bytes_length, hoff]) rfl
    simpa [List.append_assoc] using this
  simp only [deserialize_string, hnum, h2, gt_iff_lt, not_lt.mpr hsize, if_false, hrd]

/-- C1: a string whose length fits in 32 bits, serialised at any offset `o` of a
buffer that can hold it and read back from offset `o` with any `size` of at least
`o + 4 + |s|`, is restored: the result is `true`, the destination equals `s`
whatever it held before, and the read offset equals the write offset
`o + 4 + |s|`. -/
theorem C1_string_round_trip (dst s prev : List Byte) (o size : Nat)
    (hs : s.length < U32_MOD) (hfit : o + 4 + s.length ≤ dst.length)
    (hbuf : dst.length < SIZE_MOD) (hsize : o + 4 + s.length ≤ size) :
    (serialize_string dst o s).2 = o + 4 + s.length ∧
    deserialize_string prev (serialize_string dst o s).1 size o =
      (true, s, (serialize_string dst o s).2) := by
  rw [serialize_string_eq dst s o hfit hbuf]
  refine ⟨rfl, ?_⟩
  exact deserialize_string_wire (dst.take o) s _ prev _ size o (by simp; omega)
    (by rw [Nat.mod_mod]; exact Nat.mod_eq_of_lt hs) hsize (by omega)

theorem C1_string_round_trip_witness :
    (serialize_string (List.replicate 8 0) 1 [104, 105]).2 = 1 + 4 + 2 ∧
    deserialize_string [7] (serialize_string (List.replicate 8 0) 1 [104, 105]).1 9 1 =
      (true, [104, 105], (serialize_string (List.replicate 8 0) 1 [104, 105]).2) :=
  C1_string_round_trip (List.replicate 8 0) [104, 105] [7] 1 9
    (by decide) (by decide) (by decide) (by decide)

/-! ## Layout of strings and string containers -/

theorem le_bytes_mod (w n : Nat) : le_bytes w (n % 256 ^ w) = le_bytes w n := by
  induction w generalizing n with
  | zero => rfl
  | succ w ih =>
    simp only [le_bytes]
    congr 1
    · apply Fin.ext
      simp only [pow_succ]
      exact Nat.mod_mod_of_dvd n (Dvd.intro_left _ rfl)
    · rw [pow_succ, mul_comm (256 ^ w) 256, Nat.mod_mul_right_div_self, ih]

theorem le_bytes_u32 (n : Nat) : le_bytes 4 (n % U32_MOD) = le_bytes 4 n := by
  have h256 : U32_MOD = 256 ^ 4 := by decide
  rw [h256, le_bytes_mod]

theorem wire_string_length (s : List Byte) : (wire_string s).length = 4 + s.length := by
  simp [wire_string, le_bytes_length]

theorem wire_string_array_cons (s : List Byte) (v : List (List Byte)) :
    wire_string_array (s :: v) = wire_string s ++ wire_string_array v := by
  simp [wire_string_array]

theorem splice_length (dst : List Byte) (o : Nat) (bs : List Byte)
    (h : o + bs.length ≤ dst.length) : (splice dst o bs).length = dst.length := by
  simp only [splice, List.length_append, List.length_take, List.length_drop]
  omega

theorem splice_nil (dst : List Byte) (o : Nat) : splice dst o [] = dst := by
  simp [splice]

theorem splice_splice (dst : List Byte) (o : Nat) (bs cs : List Byte)
    (h : o + bs.length ≤ dst.length) :
    splice (splice dst o bs) (o + bs.length) cs = splice dst o (bs ++ cs) := by
  have hpre : (dst.take o ++ bs).length = o + bs.length := by
    simp only [List.length_append, List.length_take]; omega
  have htake : (splice dst o bs).take (o + bs.length) = dst.take o ++ bs := by
    rw [splice, ← hpre, List.take_left]
  have hdrop : (splice dst o bs).drop (o + bs.length + cs.length) =
      dst.drop (o + (bs ++ cs).length) := by
    rw [splice, ← hpre, List.drop_append, List.drop_drop, hpre, List.length_append]
    congr 1; omega
  rw [splice, htake, hdrop, splice]
  simp [List.append_assoc]

theorem serialize_string_splice (dst s : List Byte) (o : Nat)
    (hfit : o + 4 + s.length ≤ dst.length) (hbuf : dst.length < SIZE_MOD) :
    serialize_string dst o s = (splice dst o (wire_string s), o + (wire_string s).length) := by
  rw [serialize_string_eq dst s o hfit hbuf, le_bytes_u32, splice, wire_string_length]
  simp only [wire_string, Nat.add_assoc]

theorem serialize_string_array_splice (v : List (List Byte)) (dst : List Byte) (o : Nat)
    (hfit : o + (wire_string_array v).length ≤ dst.length) (hbuf : dst.length < SIZE_MOD) :
    serialize_string_array dst o v =
      (splice dst o (wire_string_array v), o + (wire_string_array v).length) := by
  induction v generalizing dst o with
  | nil => simp [serialize_string_array, wire_string_array, splice_nil]
  | cons s v ih =>
    rw [wire_string_array_cons, List.length_append, wire_string_length] at hfit
    have hs := serialize_string_splice dst s o (by omega) hbuf
    have hlen := splice_length dst o (wire_string s) (by rw [wire_string_length]; omega)
    simp only [serialize_string_array, hs]
    rw [ih _ _ (by rw [hlen, wire_string_length]; omega) (by rw [hlen]; exact hbuf),
      splice_splice dst o _ _ (by rw [wire_string_length]; omega), wire_string_array_cons,
      List.length_append, Nat.add_assoc]

theorem serialize_string_vector_splice (v : List (List Byte)) (dst : List Byte) (o : Nat)
    (hfit : o + (wire_string_vector v).length ≤ dst.length) (hbuf : dst.length < SIZE_MOD) :
    serialize_string_vector dst o v =
      (splice dst o (wire_string_vector v), o + (wire_string_vector v).length) := by
  simp only [wire_string_vector, List.length_append, le_bytes_length] at hfit
  have h1 : (o + 4) % SIZE_MOD = o + 4 := Nat.mod_eq_of_lt (by omega)
  have hsp : memcpy_to dst o (le_bytes 4 (v.length % U32_MOD)) = splice dst o (le_bytes 4 v.length) := by
    rw [le_bytes_u32, memcpy_to_eq dst o _ (by rw [le_bytes_length]; omega), splice]
  have hlen := splice_length dst o (le_bytes 4 v.length) (by rw [le_bytes_length]; omega)
  simp only [serialize_string_vector, h1, hsp]
  rw [serialize_string_array_splice v _ _ (by rw [hlen]; omega) (by rw [hlen]; exact hbuf)]
  have h4 : o + 4 = o + (le_bytes 4 v.length).length := by rw [le_bytes_length]
  rw [h4, splice_splice dst o _ _ (by rw [le_bytes_length]; omega)]
  simp only [wire_string_vector, List.length_append, Nat.add_assoc]

/-- C10: wire layout of strings and string containers.  In a buffer that can hold
the data, `serialize_string` replaces the bytes from `o` on by the 4-byte
little-endian encoding of `|s|` followed by the bytes of `s`;
`serialize_string_vector` replaces them by the 4-byte little-endian element count
followed by each element's string encoding in order; `serialize_string_array`
replaces them by the element encodings in order with no count prefix.  In each
case the bytes before `o` and after the written range are those of `dst`, and
the 4 length bytes of a string shorter than `2 ^ 32` decode to `|s|`. -/
theorem C10_string_wire_layout (dst s : List Byte) (v a : List (List Byte)) (o : Nat)
    (hbuf : dst.length < SIZE_MOD) (hs32 : s.length < U32_MOD)
    (hs : o + 4 + s.length ≤ dst.length)
    (hv : o + (wire_string_vector v).length ≤ dst.length)
    (ha : o + (wire_string_array a).length ≤ dst.length) :
    ((serialize_string dst o s).1 =
        dst.take o ++ (le_bytes 4 s.length ++ s) ++ dst.drop (o + (4 + s.length))
      ∧ le_value (le_bytes 4 s.length) = s.length)
    ∧ (serialize_string_vector dst o v).1 =
        dst.take o ++ (le_bytes 4 v.length ++ v.flatMap (fun e => le_bytes 4 e.length ++ e))
          ++ dst.drop (o + (wire_string_vector v).length)
    ∧ (serialize_string_array dst o a).1 =
        dst.take o ++ a.flatMap (fun e => le_bytes 4 e.length ++ e)
          ++ dst.drop (o + (wire_string_array a).length) := by
  refine ⟨⟨?_, ?_⟩, ?_, ?_⟩
  · rw [serialize_string_splice dst s o hs hbuf, splice, wire_string_length]
    rfl
  · exact le_value_le_bytes_of_lt 4 _ hs32
  · rw [serialize_string_vector_splice v dst o hv hbuf]
    rfl
  · rw [serialize_string_array_splice a dst o ha hbuf]
    rfl

theorem C10_string_wire_layout_witness :
    ((serialize_string (List.replicate 16 9) 1 [104, 105]).1 =
        (List.replicate 16 9).take 1 ++ (le_bytes 4 2 ++ [104, 105])
          ++ (List.replicate 16 9).drop (1 + (4 + 2))
      ∧ le_value (le_bytes 4 2) = 2)
    ∧ (serialize_string_vector (List.replicate 16 9) 1 [[104, 105], []]).1 =
        (List.replicate 16 9).take 1 ++
          (le_bytes 4 2 ++ [[104, 105], []].flatMap (fun e => le_bytes 4 e.length ++ e))
          ++ (List.replicate 16 9).drop (1 + (wire_string_vector [[104, 105], []]).length)
    ∧ (serialize_string_array (List.replicate 16 9) 1 [[104, 105], []]).1 =
        (List.replicate 16 9).take 1 ++
          [[104, 105], []].flatMap (fun e => le_bytes 4 e.length ++ e)
          ++ (List.replicate 16 9).drop (1 + (wire_string_array [[104, 105], []]).length) :=
  C10_string_wire_layout (List.replicate 16 9) [104, 105] [[104, 105], []] [[104, 105], []] 1
    (by decide) (by decide) (by decide) (by decide) (by decide)

/-! ## Round trip of string containers -/

theorem deserialize_string_array_wire (v : List (List Byte)) (pre post : List Byte)
    (prev : List (List Byte)) (size off : Nat)
    (hoff : off = pre.length) (hprev : prev.length = v.length)
    (h32 : ∀ s ∈ v, s.length < U32_MOD)
    (hsize : off + (wire_string_array v).length ≤ size)
    (hlt : off + (wire_string_array v).length < SIZE_MOD) :
    deserialize_string_array (pre ++ wire_string_array v ++ post) size prev off =
      (true, v, off + (wire_string_array v).length) := by
  induction v generalizing pre prev off with
  | nil =>
    have : prev = [] := List.length_eq_zero.mp hprev
    subst this
    simp [deserialize_string_array, wire_string_array]
  | cons s v ih =>
    cases prev with
    | nil => simp at hprev
    | cons p prev =>
      simp only [List.length_cons, add_left_inj] at hprev
      rw [wire_string_array_cons, List.length_append, wire_string_length] at hsize hlt
      have hs32 := h32 s (List.mem_cons_self s v)
      have hstr : deserialize_string p (pre ++ wire_string_array (s :: v) ++ post) size off =
          (true, s, off + 4 + s.length) := by
        have := deserialize_string_wire pre s (wire_string_array v ++ post) p s.length size off
          hoff (Nat.mod_eq_of_lt hs32) (by omega) (by omega)
        rw [← this, wire_string_array_cons, wire_string]
        simp [List.append_assoc]
      have hrest := ih (pre ++ wire_string s) prev (off + 4 + s.length)
        (by rw [List.length_append, wire_string_length, hoff]; omega) hprev
        (fun t ht => h32 t (List.mem_cons_of_mem s ht)) (by omega) (by omega)
      have hsrc : pre ++ wire_string_array (s :: v) ++ post =
          pre ++ wire_string s ++ wire_string_array v ++ post := by
        rw [wire_string_array_cons]; simp [List.append_assoc]
      simp only [deserialize_string_array, hstr]
      rw [hsrc, hrest, wire_string_array_cons, List.length_append, wire_string_length]
      simp only [Prod.mk.injEq, true_and]
      omega

theorem resize_length {α : Type} (v : List α) (n : Nat) (d : α) : (resize v n d).length = n := by
  simp only [resize, List.length_append, List.length_take, List.length_replicate]
  omega

theorem wire_string_array_length_ge (v : List (List Byte)) :
    4 * v.length ≤ (wire_string_array v).length := by
  induction v with
  | nil => simp [wire_string_array]
  | cons s v ih =>
    rw [wire_string_array_cons, List.length_append, wire_string_length, List.length_cons]
    omega

theorem wire_string_array_mem_le (v : List (List Byte)) (s : List Byte) (hs : s ∈ v) :
    4 + s.length ≤ (wire_string_array v).length := by
  induction v with
  | nil => simp at hs
  | cons t v ih =>
    rw [wire_string_array_cons, List.length_append, wire_string_length]
    rcases List.mem_cons.mp hs with h | h
    · subst h; omega
    · have := ih h; omega

theorem deserialize_string_vector_wire (v : List (List Byte)) (pre post : List Byte)
    (prev : List (List Byte)) (size off : Nat)
    (hoff : off = pre.length) (hcount : v.length < U32_MOD)
    (h32 : ∀ s ∈ v, s.length < U32_MOD)
    (hsize : off + (wire_string_vector v).length ≤ size)
    (hlt : off + (wire_string_vector v).length < SIZE_MOD) :
    deserialize_string_vector prev (pre ++ wire_string_vector v ++ post) size off =
      (true, v, off + (wire_string_vector v).length) := by
  simp only [wire_string_vector, List.length_append, le_bytes_length] at hsize hlt
  have hnum : deserialize_number 4 0 (pre ++ wire_string_vector v ++ post) size off =
      (true, v.length, off + 4) := by
    have := deserialize_number_mid pre (le_bytes 4 v.length) (wire_string_array v ++ post)
      4 0 size off hoff (by rw [le_bytes_length]) (by omega) (by omega)
    rw [le_value_le_bytes_of_lt 4 _ hcount] at this
    rw [← this, wire_string_vector]
    simp [List.append_assoc]
  have hsrc : pre ++ wire_string_vector v ++ post =
      pre ++ le_bytes 4 v.length ++ wire_string_array v ++ post := by
    rw [wire_string_vector]; simp [List.append_assoc]
  simp only [deserialize_string_vector, hnum]
  rw [hsrc, deserialize_string_array_wire v (pre ++ le_bytes 4 v.length) post _ size (off + 4)
    (by rw [List.length_append, le_bytes_length, hoff]) (resize_length _ _ _) h32
    (by omega) (by omega)]
  simp only [wire_string_vector, List.length_append, le_bytes_length, Prod.mk.injEq, true_and]
  omega

/-- C2: round trip of string containers.  A vector of strings whose encoding is
shorter than `2 ^ 32` bytes, serialised at offset `o` of a buffer that can hold
it, is restored by `deserialize_string_vector` whatever the destination held
before: the result is `true`, the destination equals `v` and the read offset is
the offset where serialisation ended.  The same holds for
`serialize_string_array` and `deserialize_string_array` on an array of `N`
strings (the destination array having the same `N`). -/
theorem C2_string_container_round_trip (dst : List Byte) (v a prevv preva : List (List Byte))
    (o size : Nat) (hbuf : dst.length < SIZE_MOD)
    (hv32 : (wire_string_vector v).length < U32_MOD)
    (hvfit : o + (wire_string_vector v).length ≤ dst.length)
    (hvsize : o + (wire_string_vector v).length ≤ size)
    (ha32 : ∀ e ∈ a, e.length < U32_MOD)
    (hafit : o + (wire_string_array a).length ≤ dst.length)
    (hasize : o + (wire_string_array a).length ≤ size)
    (hN : preva.length = a.length) :
    (deserialize_string_vector prevv (serialize_string_vector dst o v).1 size o =
        (true, v, (serialize_string_vector dst o v).2)
      ∧ (serialize_string_vector dst o v).2 = o + (wire_string_vector v).length)
    ∧ (deserialize_string_array (serialize_string_array dst o a).1 size preva o =
        (true, a, (serialize_string_array dst o a).2)
      ∧ (serialize_string_array dst o a).2 = o + (wire_string_array a).length) := by
  have hvlen : (wire_string_vector v).length = 4 + (wire_string_array v).length := by
    simp [wire_string_vector, le_bytes_length]
  have hge := wire_string_array_length_ge v
  refine ⟨⟨?_, ?_⟩, ?_, ?_⟩
  · rw [serialize_string_vector_splice v dst o hvfit hbuf, splice]
    exact deserialize_string_vector_wire v (dst.take o) _ prevv size o
      (by rw [List.length_take]; omega) (by omega)
      (fun e he => by have := wire_string_array_mem_le v e he; omega) hvsize (by omega)
  · rw [serialize_string_vector_splice v dst o hvfit hbuf]
  · rw [serialize_string_array_splice a dst o hafit hbuf, splice]
    exact deserialize_string_array_wire a (dst.take o) _ preva size o
      (by rw [List.length_take]; omega) hN ha32 hasize (by omega)
  · rw [serialize_string_array_splice a dst o hafit hbuf]

theorem C2_string_container_round_trip_witness :
    (deserialize_string_vector [[1], [2], [3]]
        (serialize_string_vector (List.replicate 16 9) 1 [[104, 105], []]).1 15 1 =
        (true, [[104, 105], []], (serialize_string_vector (List.replicate 16 9) 1 [[104, 105], []]).2)
      ∧ (serialize_string_vector (List.replicate 16 9) 1 [[104, 105], []]).2 =
          1 + (wire_string_vector [[104, 105], []]).length)
    ∧ (deserialize_string_array (serialize_string_array (List.replicate 16 9) 1 [[], [7]]).1 15
          [[1], [2]] 1 =
        (true, [[], [7]], (serialize_string_array (List.replicate 16 9) 1 [[], [7]]).2)
      ∧ (serialize_string_array (List.replicate 16 9) 1 [[], [7]]).2 =
          1 + (wire_string_array [[], [7]]).length) :=
  C2_string_container_round_trip (List.replicate 16 9) [[104, 105], []] [[], [7]]
    [[1], [2], [3]] [[1], [2]] 1 15
    (by decide) (by decide) (by decide) (by decide) (by decide) (by decide) (by decide) (by decide)

/-! ## Round trip of number containers -/

theorem flatMap_le_bytes_length (w : Nat) (v : List Nat) :
    (v.flatMap (le_bytes w)).length = v.length * w := by
  induction v with
  | nil => simp
  | cons x v ih =>
    simp only [List.flatMap_cons, List.length_append, le_bytes_length, ih, List.length_cons]
    rw [Nat.add_mul, Nat.one_mul, Nat.add_comm]

theorem read_numbers_mid (w : Nat) (v : List Nat) (pre post : List Byte) (off : Nat)
    (hoff : off = pre.length) (hv : ∀ x ∈ v, x < 256 ^ w) :
    (List.range v.length).map
        (fun i => le_value (memcpy_from (pre ++ v.flatMap (le_bytes w) ++ post) (off + i * w) w))
      = v := by
  induction v generalizing pre off with
  | nil => simp
  | cons x v ih =>
    have hx := hv x (List.mem_cons_self x v)
    have hhead : memcpy_from (pre ++ (x :: v).flatMap (le_bytes w) ++ post) off w = le_bytes w x := by
      have := memcpy_from_mid pre (le_bytes w x) (v.flatMap (le_bytes w) ++ post) off w hoff
        (by rw [le_bytes_length])
      rw [← this]
      simp [List.append_assoc]
    have htail := ih (pre ++ le_bytes w x) (off + w)
      (by rw [List.length_append, le_bytes_length, hoff])
      (fun y hy => hv y (List.mem_cons_of_mem x hy))
    have hsrc : pre ++ (x :: v).flatMap (le_bytes w) ++ post =
        pre ++ le_bytes w x ++ v.flatMap (le_bytes w) ++ post := by
      simp [List.append_assoc]
    rw [List.length_cons, List.range_succ_eq_map, List.map_cons, List.map_map]
    simp only [Nat.zero_mul, Nat.add_zero, hhead, le_value_le_bytes_of_lt w x hx]
    congr 1
    rw [hsrc]
    refine Eq.trans ?_ htail
    apply List.map_congr_left
    intro i _
    simp only [Function.comp_apply, Nat.succ_eq_add_one]
    congr 2
    rw [Nat.add_mul, Nat.one_mul]
    omega

theorem serialize_number_array_splice (w : Nat) (a : List Nat) (dst : List Byte) (o : Nat)
    (hfit : o + a.length * w ≤ dst.length) (hbuf : dst.length < SIZE_MOD) :
    serialize_number_array w dst o a =
      (splice dst o (a.flatMap (le_bytes w)), o + a.length * w) := by
  have h1 : (a.length * w) % SIZE_MOD = a.length * w := Nat.mod_eq_of_lt (by omega)
  have h2 : (o + a.length * w) % SIZE_MOD = o + a.length * w := Nat.mod_eq_of_lt (by omega)
  simp only [serialize_number_array, h1, h2]
  rw [memcpy_to_eq dst o _ (by rw [flatMap_le_bytes_length]; exact hfit), splice]

theorem serialize_number_vector_splice (w : Nat) (v : List Nat) (dst : List Byte) (o : Nat)
    (hfit : o + 4 + v.length * w ≤ dst.length) (hbuf : dst.length < SIZE_MOD) :
    serialize_number_vector w dst o v =
      (splice dst o (le_bytes 4 v.length ++ v.flatMap (le_bytes w)), o + 4 + v.length * w) := by
  have h0 : (o + 4) % SIZE_MOD = o + 4 := Nat.mod_eq_of_lt (by omega)
  have h1 : (v.length * w) % SIZE_MOD = v.length * w := Nat.mod_eq_of_lt (by omega)
  have h2 : (o + 4 + v.length * w) % SIZE_MOD = o + 4 + v.length * w :=
    Nat.mod_eq_of_lt (by omega)
  have hsp : memcpy_to dst o (le_bytes 4 (v.length % U32_MOD)) = splice dst o (le_bytes 4 v.length) := by
    rw [le_bytes_u32, memcpy_to_eq dst o _ (by rw [le_bytes_length]; omega), splice]
  have hlen := splice_length dst o (le_bytes 4 v.length) (by rw [le_bytes_length]; omega)
  have hsp2 : memcpy_to (splice dst o (le_bytes 4 v.length)) (o + 4) (v.flatMap (le_bytes w)) =
      splice (splice dst o (le_bytes 4 v.length)) (o + 4) (v.flatMap (le_bytes w)) := by
    rw [memcpy_to_eq _ (o + 4) _ (by rw [flatMap_le_bytes_length, hlen]; exact hfit)]
    rfl
  have hss := splice_splice dst o (le_bytes 4 v.length) (v.flatMap (le_bytes w))
    (by rw [le_bytes_length]; omega)
  rw [le_bytes_length] at hss
  simp only [serialize_number_vector, h0, h1, h2, hsp, hsp2, hss]

theorem deserialize_number_array_wire (w : Nat) (a prev : List Nat) (pre post : List Byte)
    (size off : Nat) (hoff : off = pre.length) (hN : prev.length = a.length)
    (hT : ∀ x ∈ a, x < 256 ^ w)
    (hsize : off + a.length * w ≤ size) (hlt : off + a.length * w < SIZE_MOD) :
    deserialize_number_array w prev (pre ++ a.flatMap (le_bytes w) ++ post) size off =
      (true, a, off + a.length * w) := by
  have h1 : (a.length * w) % SIZE_MOD = a.length * w := Nat.mod_eq_of_lt (by omega)
  have h2 : (off + a.length * w) % SIZE_MOD = off + a.length * w := Nat.mod_eq_of_lt hlt
  simp only [deserialize_number_array, hN, h1, h2, gt_iff_lt, not_lt.mpr hsize, if_false,
    read_numbers_mid w a pre post off hoff hT]

theorem deserialize_number_vector_wire (w : Nat) (v prev : List Nat) (pre post : List Byte)
    (size off : Nat) (hoff : off = pre.length) (hcount : v.length < U32_MOD)
    (hT : ∀ x ∈ v, x < 256 ^ w)
    (hsize : off + 4 + v.length * w ≤ size) (hlt : off + 4 + v.length * w < SIZE_MOD) :
    deserialize_number_vector w prev
        (pre ++ (le_bytes 4 v.length ++ v.flatMap (le_bytes w)) ++ post) size off =
      (true, v, off + 4 + v.length * w) := by
  have hnum : deserialize_number 4 0
      (pre ++ (le_bytes 4 v.length ++ v.flatMap (le_bytes w)) ++ post) size off =
      (true, v.length, off + 4) := by
    have := deserialize_number_mid pre (le_bytes 4 v.length) (v.flatMap (le_bytes w) ++ post)
      4 0 size off hoff (by rw [le_bytes_length]) (by omega) (by omega)
    rw [le_value_le_bytes_of_lt 4 _ hcount] at this
    rw [← this]
    simp [List.append_assoc]
  have h1 : (v.length * w) % SIZE_MOD = v.length * w := Nat.mod_eq_of_lt (by omega)
  have h2 : (off + 4 + v.length * w) % SIZE_MOD = off + 4 + v.length * w := Nat.mod_eq_of_lt hlt
  have hsrc : pre ++ (le_bytes 4 v.length ++ v.flatMap (le_bytes w)) ++ post =
      pre ++ le_bytes 4 v.length ++ v.flatMap (le_bytes w) ++ post := by
    simp [List.append_assoc]
  have hrd := read_numbers_mid w v (pre ++ le_bytes 4 v.length) post (off + 4)
    (by rw [List.length_append, le_bytes_length, hoff]) hT
  rw [← hsrc] at hrd
  simp only [deserialize_number_vector, hnum, h1, h2, gt_iff_lt, not_lt.mpr hsize, if_false, hrd]

/-- C3: round trip of number containers.  For an integer type of width `w` bytes
(its values being the naturals below `256 ^ w`) and a vector `v` with fewer
than `2 ^ 32` elements, `deserialize_number_vector` applied to the output of
`serialize_number_vector` returns `true`, yields `v` whatever the destination
held before, and advances the offset by exactly `4 + |v| * w`; for an array `a`
of `N` elements, `deserialize_number_array` applied to the output of
`serialize_number_array` returns `true`, yields `a` and advances the offset by
exactly `N * w`, there being no length prefix. -/
theorem C3_number_container_round_trip (w : Nat) (dst : List Byte) (v a prevv preva : List Nat)
    (o size : Nat) (hbuf : dst.length < SIZE_MOD)
    (hvT : ∀ x ∈ v, x < 256 ^ w) (hcount : v.length < U32_MOD)
    (hvfit : o + 4 + v.length * w ≤ dst.length) (hvsize : o + 4 + v.length * w ≤ size)
    (haT : ∀ x ∈ a, x < 256 ^ w) (hN : preva.length = a.length)
    (hafit : o + a.length * w ≤ dst.length) (hasize : o + a.length * w ≤ size) :
    (deserialize_number_vector w prevv (serialize_number_vector w dst o v).1 size o =
        (true, v, o + (4 + v.length * w))
      ∧ (serialize_number_vector w dst o v).2 = o + (4 + v.length * w))
    ∧ (deserialize_number_array w preva (serialize_number_array w dst o a).1 size o =
        (true, a, o + a.length * w)
      ∧ (serialize_number_array w dst o a).2 = o + a.length * w) := by
  refine ⟨⟨?_, ?_⟩, ?_, ?_⟩
  · rw [serialize_number_vector_splice w v dst o hvfit hbuf, splice, ← Nat.add_assoc]
    exact deserialize_number_vector_wire w v prevv (dst.take o) _ size o
      (by rw [List.length_take]; omega) hcount hvT hvsize (by omega)
  · rw [serialize_number_vector_splice w v dst o hvfit hbuf, ← Nat.add_assoc]
  · rw [serialize_number_array_splice w a dst o hafit hbuf, splice]
    exact deserialize_number_array_wire w a preva (dst.take o) _ size o
      (by rw [List.length_take]; omega) hN haT hasize (by omega)
  · rw [serialize_number_array_splice w a dst o hafit hbuf]

theorem C3_number_container_round_trip_witness :
    (deserialize_number_vector 2 [5] (serialize_number_vector 2 (List.replicate 12 9) 1 [513, 7]).1
          12 1 = (true, [513, 7], 1 + (4 + 2 * 2))
      ∧ (serialize_number_vector 2 (List.replicate 12 9) 1 [513, 7]).2 = 1 + (4 + 2 * 2))
    ∧ (deserialize_number_array 2 [0, 0, 0]
          (serialize_number_array 2 (List.replicate 12 9) 1 [65535, 0, 258]).1 12 1 =
        (true, [65535, 0, 258], 1 + 3 * 2)
      ∧ (serialize_number_array 2 (List.replicate 12 9) 1 [65535, 0, 258]).2 = 1 + 3 * 2) :=
  C3_number_container_round_trip 2 (List.replicate 12 9) [513, 7] [65535, 0, 258] [5] [0, 0, 0]
    1 12 (by decide) (by decide) (by decide) (by decide) (by decide) (by decide) (by decide)
    (by decide) (by decide)

/-! ## Round trip of message containers -/

theorem clobberMsg_round_trips : MessageRoundTrips clobberMsg := by
  intro m prev dst o size hfit hbuf hsize
  simp only [clobberMsg] at hfit hsize ⊢
  have h1 : (o + 1) % SIZE_MOD = o + 1 := Nat.mod_eq_of_lt (by omega)
  refine ⟨h1, ?_⟩
  simp only [h1, gt_iff_lt, not_lt.mpr hsize, if_false, Prod.mk.injEq, true_and, and_true]
  by_cases ho : o = 0
  · subst ho
    have hlt : 0 < dst.length := by omega
    simp [List.getD_eq_getElem?_getD, List.getElem?_set, hlt]
  · have hne : o - 1 ≠ o := by omega
    have hlt : o < dst.length := by omega
    simp [ho, List.getD_eq_getElem?_getD, List.getElem?_set, hne, hlt]

theorem message_array_in_place {M : Type} (ops : Message M) (h : MessageRoundTripsInPlace ops)
    (v : List M) (dst : List Byte) (o : Nat)
    (hfit : o + sum_sizes ops v ≤ dst.length) (hbuf : dst.length < SIZE_MOD) :
    ∃ enc : List Byte, enc.length = sum_sizes ops v ∧
      serialize_message_array ops dst o v = (splice dst o enc, o + sum_sizes ops v) ∧
      ∀ (pre post : List Byte) (prev : List M) (size : Nat),
        pre.length = o → prev.length = v.length → o + sum_sizes ops v ≤ size →
        deserialize_message_array ops (pre ++ enc ++ post) size prev o =
          (true, v, o + sum_sizes ops v) := by
  induction v generalizing dst o with
  | nil =>
    refine ⟨[], rfl, ?_, ?_⟩
    · simp [serialize_message_array, splice_nil, sum_sizes]
    · intro pre post prev size _ hprev _
      have : prev = [] := List.length_eq_zero.mp hprev
      subst this
      simp [deserialize_message_array, sum_sizes]
  | cons m v ih =>
    have hsum : sum_sizes ops (m :: v) = ops.size m + sum_sizes ops v := by
      simp [sum_sizes]
    rw [hsum] at hfit
    obtain ⟨bs, hbs, hser, hde⟩ := h m dst o (by omega) hbuf
    have hlen := splice_length dst o bs (by omega)
    obtain ⟨enc, henc, hser2, hde2⟩ := ih (splice dst o bs) (o + ops.size m)
      (by rw [hlen]; omega) (by rw [hlen]; exact hbuf)
    refine ⟨bs ++ enc, by rw [List.length_append, hbs, henc, hsum], ?_, ?_⟩
    · simp only [serialize_message_array, serialize_message, hser, hser2]
      have := splice_splice dst o bs enc (by omega)
      rw [hbs] at this
      rw [this, hsum, Nat.add_assoc]
    · intro pre post prev size hpre hprev hsize
      rw [hsum] at hsize
      cases prev with
      | nil => simp at hprev
      | cons p prev =>
        simp only [List.length_cons, add_left_inj] at hprev
        have e1 := hde pre (enc ++ post) p size hpre (by omega)
        have e2 := hde2 (pre ++ bs) post prev size
          (by rw [List.length_append, hpre, hbs]) hprev (by omega)
        have hsrc1 : pre ++ (bs ++ enc) ++ post = pre ++ bs ++ (enc ++ post) := by
          simp [List.append_assoc]
        have hsrc2 : pre ++ bs ++ (enc ++ post) = pre ++ bs ++ enc ++ post := by
          simp [List.append_assoc]
        rw [hsrc1]
        simp only [deserialize_message_array, deserialize_message, e1]
        rw [hsrc2, e2, hsum, Nat.add_assoc]

theorem uint8Msg_in_place : MessageRoundTripsInPlace uint8Msg := by
  intro m dst o hfit hbuf
  simp only [uint8Msg] at hfit ⊢
  have h1 : (o + 1) % SIZE_MOD = o + 1 := Nat.mod_eq_of_lt (by omega)
  refine ⟨le_bytes 1 m.val, le_bytes_length 1 _, ?_, ?_⟩
  · simp only [serialize_number, h1]
    rw [memcpy_to_eq dst o _ (by rw [le_bytes_length]; exact hfit), splice]
  · intro pre post prev size hpre hsize
    rw [deserialize_number_mid pre (le_bytes 1 m.val) post 1 prev.val size o hpre.symm
      (by rw [le_bytes_length]) hsize (by omega)]
    have hv : le_value (le_bytes 1 m.val) = m.val :=
      le_value_le_bytes_of_lt 1 _ (by simp)
    simp only [hv, Prod.mk.injEq, true_and, and_true]
    apply Fin.ext
    simp [Fin.ofNat, Nat.mod_eq_of_lt m.isLt]

theorem message_vector_in_place {M : Type} (ops : Message M) (dflt : M)
    (h : MessageRoundTripsInPlace ops) (dst : List Byte) (v prev : List M) (o size : Nat)
    (hbuf : dst.length < SIZE_MOD) (hcount : v.length < U32_MOD)
    (hfit : o + 4 + sum_sizes ops v ≤ dst.length) (hsize : o + 4 + sum_sizes ops v ≤ size) :
    deserialize_message_vector ops dflt prev (serialize_message_vector ops dst o v).1 size o =
        (true, v, (serialize_message_vector ops dst o v).2)
      ∧ (serialize_message_vector ops dst o v).2 = o + 4 + sum_sizes ops v := by
  have h1 : (o + 4) % SIZE_MOD = o + 4 := Nat.mod_eq_of_lt (by omega)
  have hsp : memcpy_to dst o (le_bytes 4 (v.length % U32_MOD)) = splice dst o (le_bytes 4 v.length) := by
    rw [le_bytes_u32, memcpy_to_eq dst o _ (by rw [le_bytes_length]; omega), splice]
  have hlen := splice_length dst o (le_bytes 4 v.length) (by rw [le_bytes_length]; omega)
  obtain ⟨enc, henc, hser, hde⟩ := message_array_in_place ops h v
    (splice dst o (le_bytes 4 v.length)) (o + 4) (by rw [hlen]; omega) (by rw [hlen]; exact hbuf)
  have hss := splice_splice dst o (le_bytes 4 v.length) enc (by rw [le_bytes_length]; omega)
  rw [le_bytes_length] at hss
  have hS : serialize_message_vector ops dst o v =
      (splice dst o (le_bytes 4 v.length ++ enc), o + 4 + sum_sizes ops v) := by
    simp only [serialize_message_vector, h1, hsp, hser, hss]
  rw [hS]
  refine ⟨?_, rfl⟩
  simp only [splice]
  have hpre : (dst.take o).length = o := by rw [List.length_take]; omega
  have hnum : deserialize_number 4 0
      (dst.take o ++ (le_bytes 4 v.length ++ enc) ++
        dst.drop (o + (le_bytes 4 v.length ++ enc).length)) size o = (true, v.length, o + 4) := by
    have := deserialize_number_mid (dst.take o) (le_bytes 4 v.length)
      (enc ++ dst.drop (o + (le_bytes 4 v.length ++ enc).length)) 4 0 size o hpre.symm
      (by rw [le_bytes_length]) (by omega) (by omega)
    rw [le_value_le_bytes_of_lt 4 _ hcount] at this
    rw [← this]
    simp [List.append_assoc]
  have hsrc : dst.take o ++ (le_bytes 4 v.length ++ enc) ++
        dst.drop (o + (le_bytes 4 v.length ++ enc).length) =
      dst.take o ++ le_bytes 4 v.length ++ enc ++
        dst.drop (o + (le_bytes 4 v.length ++ enc).length) := by
    simp [List.append_assoc]
  simp only [deserialize_message_vector, hnum]
  rw [hsrc]
  exact hde (dst.take o ++ le_bytes 4 v.length) _ _ size
    (by rw [List.length_append, hpre, le_bytes_length]) (resize_length _ _ _) hsize

/-- C4 (as amended): nested-message round trip is compositional for message types
that round-trip in place.  If `serialize` of `M` replaces exactly the `size()`
bytes from the offset on and changes no other byte, and `deserialize` of `M`
restores the value from any buffer holding those bytes at the offset, then
`serialize_message_vector` followed by `deserialize_message_vector` restores
every vector of `M` with fewer than `2 ^ 32` elements and ends at the offset
where serialisation ended, and `serialize_message_array` followed by
`deserialize_message_array` restores every array of `M`. -/
theorem C4_message_container_round_trip {M : Type} (ops : Message M) (dflt : M)
    (h : MessageRoundTripsInPlace ops) (dst : List Byte) (v a prevv preva : List M)
    (o size : Nat) (hbuf : dst.length < SIZE_MOD) (hcount : v.length < U32_MOD)
    (hvfit : o + 4 + sum_sizes ops v ≤ dst.length) (hvsize : o + 4 + sum_sizes ops v ≤ size)
    (hN : preva.length = a.length)
    (hafit : o + sum_sizes ops a ≤ dst.length) (hasize : o + sum_sizes ops a ≤ size) :
    (deserialize_message_vector ops dflt prevv (serialize_message_vector ops dst o v).1 size o =
        (true, v, (serialize_message_vector ops dst o v).2)
      ∧ (serialize_message_vector ops dst o v).2 = o + 4 + sum_sizes ops v)
    ∧ (deserialize_message_array ops (serialize_message_array ops dst o a).1 size preva o =
        (true, a, (serialize_message_array ops dst o a).2)
      ∧ (serialize_message_array ops dst o a).2 = o + sum_sizes ops a) := by
  refine ⟨message_vector_in_place ops dflt h dst v prevv o size hbuf hcount hvfit hvsize, ?_⟩
  obtain ⟨enc, henc, hser, hde⟩ := message_array_in_place ops h a dst o hafit hbuf
  rw [hser]
  refine ⟨?_, rfl⟩
  simp only [splice]
  exact hde (dst.take o) _ preva size (by rw [List.length_take]; omega) hN hasize

theorem C4_message_container_round_trip_witness :
    (deserialize_message_vector uint8Msg 0 [9]
          (serialize_message_vector uint8Msg (List.replicate 8 7) 1 [5, 6]).1 8 1 =
        (true, [5, 6], (serialize_message_vector uint8Msg (List.replicate 8 7) 1 [5, 6]).2)
      ∧ (serialize_message_vector uint8Msg (List.replicate 8 7) 1 [5, 6]).2 =
          1 + 4 + sum_sizes uint8Msg [5, 6])
    ∧ (deserialize_message_array uint8Msg
          (serialize_message_array uint8Msg (List.replicate 8 7) 1 [5, 6, 8]).1 8 [0, 0, 0] 1 =
        (true, [5, 6, 8], (serialize_message_array uint8Msg (List.replicate 8 7) 1 [5, 6, 8]).2)
      ∧ (serialize_message_array uint8Msg (List.replicate 8 7) 1 [5, 6, 8]).2 =
          1 + sum_sizes uint8Msg [5, 6, 8]) :=
  C4_message_container_round_trip uint8Msg 0 uint8Msg_in_place (List.replicate 8 7)
    [5, 6] [5, 6, 8] [9] [0, 0, 0] 1 8
    (by decide) (by decide) (by decide) (by decide) (by decide) (by decide) (by decide)

/-- C4 (counterexample): `clobberMsg` round-trips at every offset, yet a vector of
two of them does not: serialising `[5, 6]` at offset `0` and deserialising
yields `[0, 6]`, because writing the second element clears the byte of the
first. -/
theorem C4_round_trip_not_compositional :
    MessageRoundTrips clobberMsg
    ∧ deserialize_message_vector clobberMsg 0 []
        (serialize_message_vector clobberMsg (List.replicate 6 0) 0 [5, 6]).1 6 0 =
        (true, [0, 6], 6)
    ∧ deserialize_message_vector clobberMsg 0 []
        (serialize_message_vector clobberMsg (List.replicate 6 0) 0 [5, 6]).1 6 0 ≠
        (true, [5, 6], (serialize_message_vector clobberMsg (List.replicate 6 0) 0 [5, 6]).2) :=
  ⟨clobberMsg_round_trips, by decide, by decide⟩

/-! ## Truncated input -/

theorem deserialize_number_fail (w d : Nat) (src : List Byte) (size off : Nat)
    (h : size < (off + w) % SIZE_MOD) :
    deserialize_number w d src size off = (false, d, off) := by
  simp only [deserialize_number, gt_iff_lt, h, if_true]

theorem deserialize_number_ok (w d : Nat) (src : List Byte) (size off : Nat)
    (h : (off + w) % SIZE_MOD ≤ size) :
    deserialize_number w d src size off =
      (true, le_value (memcpy_from src off w), (off + w) % SIZE_MOD) := by
  simp only [deserialize_number, gt_iff_lt, not_lt.mpr h, if_false]

theorem memcpy_from_take (l : List Byte) (n off k : Nat) (h : off + k ≤ n) :
    memcpy_from (l.take n) off k = memcpy_from l off k := by
  simp only [memcpy_from]
  apply List.map_congr_left
  intro i hi
  have hik : i < k := List.mem_range.mp hi
  have hlt : off + i < n := by omega
  simp [List.getD_eq_getElem?_getD, List.getElem?_take, hlt]

theorem splice_zero_full (dst bs : List Byte) (h : dst.length = bs.length) :
    splice dst 0 bs = bs := by
  simp [splice, ← h]

theorem memcpy_from_take_mid (pre bs post : List Byte) (n off k : Nat)
    (hoff : off = pre.length) (hk : k = bs.length) (h : off + k ≤ n) :
    memcpy_from ((pre ++ bs ++ post).take n) off k = bs := by
  rw [memcpy_from_take _ n off k h, memcpy_from_mid pre bs post off k hoff hk]

theorem deserialize_string_truncated (pre s post prev : List Byte) (n off : Nat)
    (hoff : off = pre.length) (hs32 : s.length < U32_MOD)
    (hlt : off + 4 + s.length < SIZE_MOD) :
    deserialize_string prev ((pre ++ (le_bytes 4 s.length ++ s) ++ post).take n) n off =
      if n < off + 4 then (false, prev, off)
      else if n < off + 4 + s.length then (false, prev, off + 4)
      else (true, s, off + 4 + s.length) := by
  have h1 : (off + 4) % SIZE_MOD = off + 4 := Nat.mod_eq_of_lt (by omega)
  have h2 : (off + 4 + s.length) % SIZE_MOD = off + 4 + s.length := Nat.mod_eq_of_lt hlt
  by_cases hA : n < off + 4
  · simp only [deserialize_string, deserialize_number_fail 4 0 _ n off (by rw [h1]; exact hA),
      hA, if_true]
  · have hA2 : off + 4 ≤ n := by omega
    have hrd : memcpy_from ((pre ++ (le_bytes 4 s.length ++ s) ++ post).take n) off 4 =
        le_bytes 4 s.length := by
      have := memcpy_from_take_mid pre (le_bytes 4 s.length) (s ++ post) n off 4 hoff
        (by rw [le_bytes_length]) hA2
      simpa [List.append_assoc] using this
    simp only [deserialize_string, deserialize_number_ok 4 0 _ n off (by rw [h1]; exact hA2),
      hrd, le_value_le_bytes_of_lt 4 _ hs32, h1, h2, hA, if_false, gt_iff_lt]
    by_cases hB : n < off + 4 + s.length
    · simp only [hB, if_true]
    · simp only [hB, if_false]
      have hrd2 : memcpy_from ((pre ++ (le_bytes 4 s.length ++ s) ++ post).take n) (off + 4)
          s.length = s := by
        have := memcpy_from_take_mid (pre ++ le_bytes 4 s.length) s post n (off + 4) s.length
          (by rw [List.length_append, le_bytes_length, hoff]) rfl (by omega)
        simpa [List.append_assoc] using this
      rw [hrd2]

theorem deserialize_string_array_truncated (v : List (List Byte)) (pre : List Byte)
    (prev : List (List Byte)) (n off : Nat)
    (hoff : off = pre.length) (hprev : prev.length = v.length)
    (h32 : ∀ e ∈ v, e.length < U32_MOD)
    (hlt : off + (wire_string_array v).length < SIZE_MOD)
    (hon : off ≤ n) (hn : n < off + (wire_string_array v).length) :
    (deserialize_string_array ((pre ++ wire_string_array v).take n) n prev off).1 = false := by
  induction v generalizing pre prev off with
  | nil => simp [wire_string_array] at hn; omega
  | cons s v ih =>
    cases prev with
    | nil => simp at hprev
    | cons p prev =>
      simp only [List.length_cons, add_left_inj] at hprev
      rw [wire_string_array_cons, List.length_append, wire_string_length] at hlt hn
      have hs32 := h32 s (List.mem_cons_self s v)
      have hsrc : pre ++ wire_string_array (s :: v) =
          pre ++ (le_bytes 4 s.length ++ s) ++ wire_string_array v := by
        rw [wire_string_array_cons, wire_string]; simp [List.append_assoc]
      have hstr := deserialize_string_truncated pre s (wire_string_array v) p n off hoff hs32
        (by omega)
      rw [← hsrc] at hstr
      by_cases hA : n < off + 4
      · simp only [hA, if_true] at hstr
        simp only [deserialize_string_array, hstr]
      · by_cases hB : n < off + 4 + s.length
        · simp only [hA, hB, if_true, if_false] at hstr
          simp only [deserialize_string_array, hstr]
        · simp only [hA, hB, if_false] at hstr
          have hrest := ih (pre ++ wire_string s) prev (off + 4 + s.length)
            (by rw [List.length_append, wire_string_length, hoff]; omega) hprev
            (fun t ht => h32 t (List.mem_cons_of_mem s ht)) (by omega) (by omega) (by omega)
          have hsrc2 : pre ++ wire_string_array (s :: v) =
              pre ++ wire_string s ++ wire_string_array v := by
            rw [wire_string_array_cons]; simp [List.append_assoc]
          simp only [deserialize_string_array, hstr]
          rw [hsrc2]
          exact hrest

theorem string_encoding_exact (bs s : List Byte) (hbs : bs.length = 4 + s.length)
    (hlt : bs.length < SIZE_MOD) : (serialize_string bs 0 s).1 = wire_string s := by
  rw [serialize_string_splice bs s 0 (by omega) hlt]
  exact splice_zero_full bs _ (by rw [wire_string_length, hbs])

theorem string_truncated (s prev bs : List Byte) (n : Nat) (hs32 : s.length < U32_MOD)
    (hbs : bs.length = 4 + s.length) (hn : n < (serialize_string bs 0 s).1.length) :
    (deserialize_string prev ((serialize_string bs 0 s).1.take n) n 0).1 = false := by
  have hlt : bs.length < SIZE_MOD := by
    have := u32_lt_size
    have h2 : U32_MOD + 4 < SIZE_MOD := by decide
    omega
  rw [string_encoding_exact bs s hbs hlt] at hn ⊢
  rw [wire_string_length] at hn
  have h := deserialize_string_truncated [] s [] prev n 0 rfl hs32 (by omega)
  simp only [List.nil_append, List.append_nil, Nat.zero_add] at h
  rw [wire_string, h]
  by_cases hA : n < 4
  · simp only [hA, if_true]
  · simp only [hA, hn, if_true, if_false]

theorem number_vector_truncated (w : Nat) (v prev : List Nat) (bs : List Byte) (n : Nat)
    (hcount : v.length < U32_MOD) (hbs : bs.length = 4 + v.length * w)
    (hlt : bs.length < SIZE_MOD) (hn : n < (serialize_number_vector w bs 0 v).1.length) :
    (deserialize_number_vector w prev ((serialize_number_vector w bs 0 v).1.take n) n 0).1
      = false := by
  have henc : (serialize_number_vector w bs 0 v).1 =
      le_bytes 4 v.length ++ v.flatMap (le_bytes w) := by
    rw [serialize_number_vector_splice w v bs 0 (by omega) hlt]
    exact splice_zero_full bs _
      (by rw [List.length_append, le_bytes_length, flatMap_le_bytes_length, hbs])
  rw [henc] at hn ⊢
  rw [List.length_append, le_bytes_length, flatMap_le_bytes_length] at hn
  have h1 : (0 + 4) % SIZE_MOD = 4 := by decide
  by_cases hA : n < 4
  · simp only [deserialize_number_vector, deserialize_number_fail 4 0 _ n 0 (by rw [h1]; exact hA)]
  · have hrd : memcpy_from ((le_bytes 4 v.length ++ v.flatMap (le_bytes w)).take n) 0 4 =
        le_bytes 4 v.length := by
      have := memcpy_from_take_mid [] (le_bytes 4 v.length) (v.flatMap (le_bytes w)) n 0 4 rfl
        (by rw [le_bytes_length]) (by omega)
      simpa using this
    have h2 : (v.length * w) % SIZE_MOD = v.length * w := Nat.mod_eq_of_lt (by omega)
    have h3 : (4 + v.length * w) % SIZE_MOD = 4 + v.length * w := Nat.mod_eq_of_lt (by omega)
    simp only [deserialize_number_vector, deserialize_number_ok 4 0 _ n 0 (by rw [h1]; omega),
      hrd, le_value_le_bytes_of_lt 4 _ hcount, h1, h2, h3, gt_iff_lt, hn, if_true]

theorem string_vector_truncated (v prev : List (List Byte)) (bs : List Byte) (n : Nat)
    (hcount : v.length < U32_MOD) (h32 : ∀ e ∈ v, e.length < U32_MOD)
    (hbs : bs.length = (wire_string_vector v).length) (hlt : bs.length < SIZE_MOD)
    (hn : n < (serialize_string_vector bs 0 v).1.length) :
    (deserialize_string_vector prev ((serialize_string_vector bs 0 v).1.take n) n 0).1
      = false := by
  have henc : (serialize_string_vector bs 0 v).1 = wire_string_vector v := by
    rw [serialize_string_vector_splice v bs 0 (by omega) hlt]
    exact splice_zero_full bs _ hbs
  rw [henc] at hn ⊢
  have hvlen : (wire_string_vector v).length = 4 + (wire_string_array v).length := by
    simp [wire_string_vector, le_bytes_length]
  rw [hvlen] at hn hbs
  have h1 : (0 + 4) % SIZE_MOD = 4 := by decide
  by_cases hA : n < 4
  · simp only [deserialize_string_vector, deserialize_number_fail 4 0 _ n 0 (by rw [h1]; exact hA)]
  · have hrd : memcpy_from ((wire_string_vector v).take n) 0 4 = le_bytes 4 v.length := by
      have := memcpy_from_take_mid [] (le_bytes 4 v.length) (wire_string_array v) n 0 4 rfl
        (by rw [le_bytes_length]) (by omega)
      simpa [wire_string_vector] using this
    simp only [deserialize_string_vector, deserialize_number_ok 4 0 _ n 0 (by rw [h1]; omega),
      hrd, le_value_le_bytes_of_lt 4 _ hcount, h1]
    exact deserialize_string_array_truncated v (le_bytes 4 v.length) _ n 4
      (by rw [le_bytes_length]) (resize_length _ _ _) h32 (by omega) (by omega) (by omega)

theorem long_string_prefix (s bs : List Byte) (hs : s.length = U32_MOD)
    (hbs : bs.length = 4 + s.length) :
    (serialize_string bs 0 s).1.length = 4 + U32_MOD ∧
    (serialize_string bs 0 s).1.take 4 = [0, 0, 0, 0] := by
  have hlt : bs.length < SIZE_MOD := by
    have h2 : U32_MOD + 4 < SIZE_MOD := by decide
    omega
  rw [string_encoding_exact bs s hbs hlt]
  refine ⟨by rw [wire_string_length, hs], ?_⟩
  have h0 : le_bytes 4 s.length = [0, 0, 0, 0] := by
    rw [← le_bytes_u32, hs, Nat.mod_self]
    rfl
  rw [wire_string, h0]
  rfl

/-- C5 (as amended): truncation is always rejected for values that fit the 32-bit
length prefix.  For a string shorter than `2 ^ 32` bytes, a vector of
fixed-width numbers with fewer than `2 ^ 32` elements, and a vector of fewer
than `2 ^ 32` strings each shorter than `2 ^ 32` bytes, serialised at offset
`0` into a buffer of exactly the size of the encoding: for every `n` strictly
smaller than the length of the encoding, the matching deserialiser run on the
first `n` bytes with `size = n` and `offset = 0` returns `false`. -/
theorem C5_truncation_rejected (w n1 n2 n3 : Nat) (s prevs bs : List Byte)
    (nv prevn : List Nat) (bn : List Byte) (sv prevv : List (List Byte)) (bv : List Byte)
    (hs32 : s.length < U32_MOD) (hbs : bs.length = 4 + s.length)
    (h1 : n1 < (serialize_string bs 0 s).1.length)
    (hn32 : nv.length < U32_MOD) (hbn : bn.length = 4 + nv.length * w)
    (hbnlt : bn.length < SIZE_MOD)
    (h2 : n2 < (serialize_number_vector w bn 0 nv).1.length)
    (hv32 : sv.length < U32_MOD) (he32 : ∀ e ∈ sv, e.length < U32_MOD)
    (hbv : bv.length = (wire_string_vector sv).length) (hbvlt : bv.length < SIZE_MOD)
    (h3 : n3 < (serialize_string_vector bv 0 sv).1.length) :
    (deserialize_string prevs ((serialize_string bs 0 s).1.take n1) n1 0).1 = false
    ∧ (deserialize_number_vector w prevn ((serialize_number_vector w bn 0 nv).1.take n2) n2 0).1
        = false
    ∧ (deserialize_string_vector prevv ((serialize_string_vector bv 0 sv).1.take n3) n3 0).1
        = false :=
  ⟨string_truncated s prevs bs n1 hs32 hbs h1,
    number_vector_truncated w nv prevn bn n2 hn32 hbn hbnlt h2,
    string_vector_truncated sv prevv bv n3 hv32 he32 hbv hbvlt h3⟩

theorem C5_truncation_rejected_witness :
    (deserialize_string [] ((serialize_string (List.replicate 6 0) 0 [104, 105]).1.take 5) 5 0).1
        = false
    ∧ (deserialize_number_vector 2 []
        ((serialize_number_vector 2 (List.replicate 8 0) 0 [513, 7]).1.take 7) 7 0).1 = false
    ∧ (deserialize_string_vector []
        ((serialize_string_vector (List.replicate 13 0) 0 [[104], []]).1.take 12) 12 0).1
        = false :=
  C5_truncation_rejected 2 5 7 12 [104, 105] [] (List.replicate 6 0) [513, 7] []
    (List.replicate 8 0) [[104], []] [] (List.replicate 13 0)
    (by decide) (by decide) (by decide) (by decide) (by decide) (by decide) (by decide)
    (by decide) (by decide) (by decide) (by decide) (by decide)

/-- C5 (counterexample): a string of `2 ^ 32` bytes has the length prefix
`00 00 00 00`, so the first 4 bytes of its `4 + 2 ^ 32`-byte encoding, a proper
prefix, are accepted by `deserialize_string` as the empty string. -/
theorem C5_long_string_prefix_accepted :
    4 < (serialize_string (List.replicate (4 + U32_MOD) 0) 0
          (List.replicate U32_MOD 0)).1.length
    ∧ deserialize_string []
        ((serialize_string (List.replicate (4 + U32_MOD) 0) 0
          (List.replicate U32_MOD 0)).1.take 4) 4 0 = (true, [], 4) := by
  have h := long_string_prefix (List.replicate U32_MOD 0) (List.replicate (4 + U32_MOD) 0)
    (List.length_replicate _ _) (by rw [List.length_replicate, List.length_replicate])
  rw [h.1, h.2]
  exact ⟨by decide, by decide⟩

/-! ## Bounds check of the leaf deserialisers -/

/-- C6 (failing input): with `offset = 2 ^ 64 - 4` and `size = 8`, the sum
`offset + sizeof(uint32_t)` wraps to `0`, the check `offset + 4 > size` is
false, and `deserialize_number<uint32_t>` returns `true`, overwrites the
destination with 4 bytes taken from outside `[0, size)` and sets the offset to
`0`, although `offset + 4 > size` as integers. -/
theorem C6_bounds_check_wraps :
    SIZE_MOD - 4 < SIZE_MOD
    ∧ ¬ (SIZE_MOD - 4 + 4 ≤ 8)
    ∧ deserialize_number 4 7 [1, 1, 1, 1, 1, 1, 1, 1] 8 (SIZE_MOD - 4) = (true, 0, 0)
    ∧ (deserialize_string [7] [1, 1, 1, 1, 1, 1, 1, 1] 8 (SIZE_MOD - 4)).1 = true
    ∧ (deserialize_number_vector 4 [7] [1, 1, 1, 1, 1, 1, 1, 1] 8 (SIZE_MOD - 4)).1 = true := by
  decide

/-! ## Effect of a failed deserialisation on the destination -/

theorem deserialize_number_false (w d : Nat) (src : List Byte) (size off : Nat) :
    (deserialize_number w d src size off).1 = true ∨
      deserialize_number w d src size off = (false, d, off) := by
  by_cases h : size < (off + w) % SIZE_MOD
  · exact Or.inr (deserialize_number_fail w d src size off h)
  · left
    rw [deserialize_number_ok w d src size off (by omega)]

theorem deserialize_string_cases (s src : List Byte) (size off : Nat) :
    (deserialize_string s src size off).1 = true
    ∨ ((deserialize_number 4 0 src size off).1 = false ∧
        deserialize_string s src size off = (false, s, off))
    ∨ ((deserialize_number 4 0 src size off).1 = true ∧
        deserialize_string s src size off = (false, s, (off + 4) % SIZE_MOD)) := by
  by_cases h : size < (off + 4) % SIZE_MOD
  · right; left
    simp only [deserialize_string, deserialize_number_fail 4 0 src size off h, and_self]
  · have hok := deserialize_number_ok 4 0 src size off (by omega)
    by_cases h2 : size < ((off + 4) % SIZE_MOD + le_value (memcpy_from src off 4)) % SIZE_MOD
    · right; right
      simp only [deserialize_string, hok, gt_iff_lt, h2, if_true, and_self]
    · left
      simp only [deserialize_string, hok, gt_iff_lt, h2, if_false]

theorem deserialize_string_false_dst (s src : List Byte) (size off : Nat)
    (h : (deserialize_string s src size off).1 = false) :
    (deserialize_string s src size off).2.1 = s := by
  rcases deserialize_string_cases s src size off with h1 | ⟨_, h2⟩ | ⟨_, h3⟩
  · rw [h1] at h; cases h
  · rw [h2]
  · rw [h3]

theorem deserialize_string_array_length (src : List Byte) (size : Nat)
    (dst : List (List Byte)) (off : Nat) :
    (deserialize_string_array src size dst off).2.1.length = dst.length := by
  induction dst generalizing off with
  | nil => rfl
  | cons s rest ih =>
    simp only [deserialize_string_array]
    split
    · rfl
    · simp [ih]

theorem deserialize_string_array_failed (src : List Byte) (size : Nat)
    (dst : List (List Byte)) (off : Nat)
    (h : (deserialize_string_array src size dst off).1 = false) :
    ∃ i, first_failing_string src size dst off = some i ∧ i < dst.length ∧
      (deserialize_string_array src size dst off).2.1.drop i = dst.drop i := by
  induction dst generalizing off with
  | nil => simp [deserialize_string_array] at h
  | cons s rest ih =>
    simp only [deserialize_string_array, first_failing_string] at h ⊢
    split at h
    · rename_i s1 off1 heq
      have hd := deserialize_string_false_dst s src size off (by rw [heq])
      rw [heq] at hd
      simp only at hd
      refine ⟨0, ?_, by simp, ?_⟩
      · simp [heq]
      · simp [heq, hd]
    · rename_i s1 off1 heq
      obtain ⟨i, hi, hlt, hdrop⟩ := ih off1 h
      refine ⟨i + 1, ?_, by simp [hlt], ?_⟩
      · simp [heq, hi]
      · simp [heq, hdrop]

theorem deserialize_message_array_length {M : Type} (ops : Message M) (src : List Byte)
    (size : Nat) (dst : List M) (off : Nat) :
    (deserialize_message_array ops src size dst off).2.1.length = dst.length := by
  induction dst generalizing off with
  | nil => rfl
  | cons m rest ih =>
    simp only [deserialize_message_array]
    split
    · rfl
    · simp [ih]

theorem deserialize_message_array_failed {M : Type} (ops : Message M) (src : List Byte)
    (size : Nat) (dst : List M) (off : Nat)
    (h : (deserialize_message_array ops src size dst off).1 = false) :
    ∃ i, first_failing_message ops src size dst off = some i ∧ i < dst.length ∧
      (deserialize_message_array ops src size dst off).2.1.drop (i + 1) = dst.drop (i + 1) := by
  induction dst generalizing off with
  | nil => simp [deserialize_message_array] at h
  | cons m rest ih =>
    simp only [deserialize_message_array, first_failing_message] at h ⊢
    split at h
    · rename_i m1 off1 heq
      refine ⟨0, ?_, by simp, ?_⟩
      · simp [heq]
      · simp [heq]
    · rename_i m1 off1 heq
      obtain ⟨i, hi, hlt, hdrop⟩ := ih off1 h
      refine ⟨i + 1, ?_, by simp [hlt], ?_⟩
      · simp [heq, hi]
      · simp [heq, hdrop]

theorem string_vector_failed (dst : List (List Byte)) (src : List Byte) (size off : Nat)
    (h : (deserialize_string_vector dst src size off).1 = false) :
    ((deserialize_number 4 0 src size off).1 = false ∧
        (deserialize_string_vector dst src size off).2.1 = dst)
    ∨ ((deserialize_number 4 0 src size off).1 = true ∧
        (deserialize_string_vector dst src size off).2.1.length =
          (deserialize_number 4 0 src size off).2.1 ∧
        ∃ i, first_failing_string src size
              (resize dst (deserialize_number 4 0 src size off).2.1 [])
              (deserialize_number 4 0 src size off).2.2 = some i ∧
          i < (deserialize_number 4 0 src size off).2.1 ∧
          (deserialize_string_vector dst src size off).2.1.drop i =
            (resize dst (deserialize_number 4 0 src size off).2.1 []).drop i) := by
  rcases hnum : deserialize_number 4 0 src size off with ⟨b, len, off1⟩
  cases b with
  | false =>
    left
    simp only [deserialize_string_vector, hnum, and_self]
  | true =>
    right
    simp only [deserialize_string_vector, hnum] at h ⊢
    refine ⟨trivial, ?_, ?_⟩
    · rw [deserialize_string_array_length, resize_length]
    · obtain ⟨i, hi, hlt, hdrop⟩ := deserialize_string_array_failed src size _ off1 h
      rw [resize_length] at hlt
      exact ⟨i, hi, hlt, hdrop⟩

theorem message_vector_failed {M : Type} (ops : Message M) (dflt : M) (dst : List M)
    (src : List Byte) (size off : Nat)
    (h : (deserialize_message_vector ops dflt dst src size off).1 = false) :
    ((deserialize_number 4 0 src size off).1 = false ∧
        (deserialize_message_vector ops dflt dst src size off).2.1 = dst)
    ∨ ((deserialize_number 4 0 src size off).1 = true ∧
        (deserialize_message_vector ops dflt dst src size off).2.1.length =
          (deserialize_number 4 0 src size off).2.1 ∧
        ∃ i, first_failing_message ops src size
              (resize dst (deserialize_number 4 0 src size off).2.1 dflt)
              (deserialize_number 4 0 src size off).2.2 = some i ∧
          i < (deserialize_number 4 0 src size off).2.1 ∧
          (deserialize_message_vector ops dflt dst src size off).2.1.drop (i + 1) =
            (resize dst (deserialize_number 4 0 src size off).2.1 dflt).drop (i + 1)) := by
  rcases hnum : deserialize_number 4 0 src size off with ⟨b, len, off1⟩
  cases b with
  | false =>
    left
    simp only [deserialize_message_vector, hnum, and_self]
  | true =>
    right
    simp only [deserialize_message_vector, hnum] at h ⊢
    refine ⟨trivial, ?_, ?_⟩
    · rw [deserialize_message_array_length, resize_length]
    · obtain ⟨i, hi, hlt, hdrop⟩ := deserialize_message_array_failed ops src size _ off1 h
      rw [resize_length] at hlt
      exact ⟨i, hi, hlt, hdrop⟩

/-- C7 (as amended): effect of a failed vector deserialisation on the destination.
Whenever `deserialize_string_vector` or `deserialize_message_vector` returns
`false`: either the 4-byte count could not be read and the destination is
unchanged, or the count was read, the destination has been resized to it (so
its length is the count read, not the length before the call) and there is a
first failing index `i` below the count such that every element after `i` -
for strings also the element at `i` - is the corresponding element of the
resized destination: the old element where there was one, a value-initialised
one otherwise. -/
theorem C7_failed_vector_destination {M : Type} (ops : Message M) (dflt : M)
    (sdst : List (List Byte)) (ssrc : List Byte) (ssize soff : Nat)
    (mdst : List M) (msrc : List Byte) (msize moff : Nat)
    (hs : (deserialize_string_vector sdst ssrc ssize soff).1 = false)
    (hm : (deserialize_message_vector ops dflt mdst msrc msize moff).1 = false) :
    (((deserialize_number 4 0 ssrc ssize soff).1 = false ∧
        (deserialize_string_vector sdst ssrc ssize soff).2.1 = sdst)
      ∨ ((deserialize_number 4 0 ssrc ssize soff).1 = true ∧
        (deserialize_string_vector sdst ssrc ssize soff).2.1.length =
          (deserialize_number 4 0 ssrc ssize soff).2.1 ∧
        ∃ i, first_failing_string ssrc ssize
              (resize sdst (deserialize_number 4 0 ssrc ssize soff).2.1 [])
              (deserialize_number 4 0 ssrc ssize soff).2.2 = some i ∧
          i < (deserialize_number 4 0 ssrc ssize soff).2.1 ∧
          (deserialize_string_vector sdst ssrc ssize soff).2.1.drop i =
            (resize sdst (deserialize_number 4 0 ssrc ssize soff).2.1 []).drop i))
    ∧ (((deserialize_number 4 0 msrc msize moff).1 = false ∧
        (deserialize_message_vector ops dflt mdst msrc msize moff).2.1 = mdst)
      ∨ ((deserialize_number 4 0 msrc msize moff).1 = true ∧
        (deserialize_message_vector ops dflt mdst msrc msize moff).2.1.length =
          (deserialize_number 4 0 msrc msize moff).2.1 ∧
        ∃ i, first_failing_message ops msrc msize
              (resize mdst (deserialize_number 4 0 msrc msize moff).2.1 dflt)
              (deserialize_number 4 0 msrc msize moff).2.2 = some i ∧
          i < (deserialize_number 4 0 msrc msize moff).2.1 ∧
          (deserialize_message_vector ops dflt mdst msrc msize moff).2.1.drop (i + 1) =
            (resize mdst (deserialize_number 4 0 msrc msize moff).2.1 dflt).drop (i + 1))) :=
  ⟨string_vector_failed sdst ssrc ssize soff hs,
    message_vector_failed ops dflt mdst msrc msize moff hm⟩

theorem C7_failed_vector_destination_witness :
    (deserialize_string_vector [[1], [2], [3]] [2, 0, 0, 0, 1, 0, 0, 0, 65, 9, 0, 0, 0] 13 0).1
        = false
    ∧ (deserialize_message_vector uint8Msg 0 [7, 8, 9] [3, 0, 0, 0, 5] 5 0).1 = false
    ∧ (((deserialize_number 4 0 [2, 0, 0, 0, 1, 0, 0, 0, 65, 9, 0, 0, 0] 13 0).1 = false ∧
        (deserialize_string_vector [[1], [2], [3]]
          [2, 0, 0, 0, 1, 0, 0, 0, 65, 9, 0, 0, 0] 13 0).2.1 = [[1], [2], [3]])
      ∨ ((deserialize_number 4 0 [2, 0, 0, 0, 1, 0, 0, 0, 65, 9, 0, 0, 0] 13 0).1 = true ∧
        (deserialize_string_vector [[1], [2], [3]]
          [2, 0, 0, 0, 1, 0, 0, 0, 65, 9, 0, 0, 0] 13 0).2.1.length =
          (deserialize_number 4 0 [2, 0, 0, 0, 1, 0, 0, 0, 65, 9, 0, 0, 0] 13 0).2.1 ∧
        ∃ i, first_failing_string [2, 0, 0, 0, 1, 0, 0, 0, 65, 9, 0, 0, 0] 13
              (resize [[1], [2], [3]]
                (deserialize_number 4 0 [2, 0, 0, 0, 1, 0, 0, 0, 65, 9, 0, 0, 0] 13 0).2.1 [])
              (deserialize_number 4 0 [2, 0, 0, 0, 1, 0, 0, 0, 65, 9, 0, 0, 0] 13 0).2.2 = some i ∧
          i < (deserialize_number 4 0 [2, 0, 0, 0, 1, 0, 0, 0, 65, 9, 0, 0, 0] 13 0).2.1 ∧
          (deserialize_string_vector [[1], [2], [3]]
            [2, 0, 0, 0, 1, 0, 0, 0, 65, 9, 0, 0, 0] 13 0).2.1.drop i =
            (resize [[1], [2], [3]]
              (deserialize_number 4 0 [2, 0, 0, 0, 1, 0, 0, 0, 65, 9, 0, 0, 0] 13 0).2.1 []).drop i))
    ∧ (((deserialize_number 4 0 [3, 0, 0, 0, 5] 5 0).1 = false ∧
        (deserialize_message_vector uint8Msg 0 [7, 8, 9] [3, 0, 0, 0, 5] 5 0).2.1 = [7, 8, 9])
      ∨ ((deserialize_number 4 0 [3, 0, 0, 0, 5] 5 0).1 = true ∧
        (deserialize_message_vector uint8Msg 0 [7, 8, 9] [3, 0, 0, 0, 5] 5 0).2.1.length =
          (deserialize_number 4 0 [3, 0, 0, 0, 5] 5 0).2.1 ∧
        ∃ i, first_failing_message uint8Msg [3, 0, 0, 0, 5] 5
              (resize [7, 8, 9] (deserialize_number 4 0 [3, 0, 0, 0, 5] 5 0).2.1 0)
              (deserialize_number 4 0 [3, 0, 0, 0, 5] 5 0).2.2 = some i ∧
          i < (deserialize_number 4 0 [3, 0, 0, 0, 5] 5 0).2.1 ∧
          (deserialize_message_vector uint8Msg 0 [7, 8, 9] [3, 0, 0, 0, 5] 5 0).2.1.drop (i + 1) =
            (resize [7, 8, 9] (deserialize_number 4 0 [3, 0, 0, 0, 5] 5 0).2.1 0).drop (i + 1))) :=
  ⟨by decide, by decide,
    C7_failed_vector_destination uint8Msg 0 [[1], [2], [3]]
      [2, 0, 0, 0, 1, 0, 0, 0, 65, 9, 0, 0, 0] 13 0 [7, 8, 9] [3, 0, 0, 0, 5] 5 0
      (by decide) (by decide)⟩

/-- C7 (counterexample): a failed `deserialize_string_vector` changes the length of
the destination.  On the 4 bytes `01 00 00 00` the count `1` is read, the
destination is resized to one element and the element then fails: an empty
destination ends with length `1`, and a destination of three strings ends with
length `1`, its elements at indices `1` and `2` (after the failing index `0`)
being gone. -/
theorem C7_failed_vector_resized :
    deserialize_string_vector [] [1, 0, 0, 0] 4 0 = (false, [[]], 4)
    ∧ (deserialize_string_vector [] [1, 0, 0, 0] 4 0).2.1.length ≠ ([] : List (List Byte)).length
    ∧ deserialize_string_vector [[1], [2], [3]] [1, 0, 0, 0] 4 0 = (false, [[1]], 4)
    ∧ deserialize_message_vector uint8Msg 0 [] [1, 0, 0, 0] 4 0 = (false, [0], 4) := by
  decide

theorem deserialize_number_array_false (w : Nat) (a : List Nat) (src : List Byte)
    (size off : Nat) :
    (deserialize_number_array w a src size off).1 = true ∨
      deserialize_number_array w a src size off = (false, a, off) := by
  by_cases h : size < (off + (a.length * w) % SIZE_MOD) % SIZE_MOD
  · right
    simp only [deserialize_number_array, gt_iff_lt, h, if_true]
  · left
    simp only [deserialize_number_array, gt_iff_lt, h, if_false]

theorem deserialize_number_vector_cases (w : Nat) (v : List Nat) (src : List Byte)
    (size off : Nat) :
    (deserialize_number_vector w v src size off).1 = true
    ∨ ((deserialize_number 4 0 src size off).1 = false ∧
        deserialize_number_vector w v src size off = (false, v, off))
    ∨ ((deserialize_number 4 0 src size off).1 = true ∧
        deserialize_number_vector w v src size off = (false, v, (off + 4) % SIZE_MOD)) := by
  by_cases h : size < (off + 4) % SIZE_MOD
  · right; left
    simp only [deserialize_number_vector, deserialize_number_fail 4 0 src size off h, and_self]
  · have hok := deserialize_number_ok 4 0 src size off (by omega)
    by_cases h2 : size <
        ((off + 4) % SIZE_MOD + (le_value (memcpy_from src off 4) * w) % SIZE_MOD) % SIZE_MOD
    · right; right
      simp only [deserialize_number_vector, hok, gt_iff_lt, h2, if_true, and_self]
    · left
      simp only [deserialize_number_vector, hok, gt_iff_lt, h2, if_false]

/-- C8: failure atomicity of the leaf deserialisers.  `deserialize_number` and
`deserialize_number_array` either return `true` or return `false` with the
destination and the offset unchanged.  `deserialize_string` and
`deserialize_number_vector` either return `true`, or return `false` with the
destination unchanged and the offset unchanged (the length prefix could not be
read), or return `false` with the destination unchanged and the offset advanced
by exactly 4 (the prefix was read, the body is truncated); the offset being a
`size_t`, advancing it by 4 is addition modulo `2 ^ 64`. -/
theorem C8_leaf_failure_atomicity (w d : Nat) (a v : List Nat) (s src : List Byte)
    (size off : Nat) :
    ((deserialize_number w d src size off).1 = true ∨
        deserialize_number w d src size off = (false, d, off))
    ∧ ((deserialize_number_array w a src size off).1 = true ∨
        deserialize_number_array w a src size off = (false, a, off))
    ∧ ((deserialize_string s src size off).1 = true
      ∨ ((deserialize_number 4 0 src size off).1 = false ∧
          deserialize_string s src size off = (false, s, off))
      ∨ ((deserialize_number 4 0 src size off).1 = true ∧
          deserialize_string s src size off = (false, s, (off + 4) % SIZE_MOD)))
    ∧ ((deserialize_number_vector w v src size off).1 = true
      ∨ ((deserialize_number 4 0 src size off).1 = false ∧
          deserialize_number_vector w v src size off = (false, v, off))
      ∨ ((deserialize_number 4 0 src size off).1 = true ∧
          deserialize_number_vector w v src size off = (false, v, (off + 4) % SIZE_MOD))) :=
  ⟨deserialize_number_false w d src size off,
    deserialize_number_array_false w a src size off,
    deserialize_string_cases s src size off,
    deserialize_number_vector_cases w v src size off⟩

/-! ## `serialize_*` against `size_*` -/

theorem add_mod_size (o a b : Nat) :
    ((o + a) % SIZE_MOD + b) % SIZE_MOD = (o + (a + b)) % SIZE_MOD := by
  rw [Nat.add_mod, Nat.mod_mod, ← Nat.add_mod, Nat.add_assoc]

theorem serialize_string_offset (dst s : List Byte) (o : Nat) :
    (serialize_string dst o s).2 = (o + (4 + s.length)) % SIZE_MOD := by
  simp only [serialize_string, add_mod_size]

theorem serialize_string_array_offset (a : List (List Byte)) (dst : List Byte) (o : Nat)
    (ho : o < SIZE_MOD) :
    (serialize_string_array dst o a).2 =
      (o + (a.map (fun e => 4 + e.length)).sum) % SIZE_MOD := by
  induction a generalizing dst o with
  | nil => simp [serialize_string_array, Nat.mod_eq_of_lt ho]
  | cons s a ih =>
    simp only [serialize_string_array, List.map_cons, List.sum_cons]
    rw [ih _ _ (by rw [serialize_string_offset]; exact Nat.mod_lt _ (by decide)),
      serialize_string_offset, add_mod_size]

theorem size_fold (a : List (List Byte)) (init : Nat)
    (h : init + (a.map (fun e => 4 + e.length)).sum < U32_MOD) :
    a.foldl (fun size s => (size + size_string s) % U32_MOD) init =
      init + (a.map (fun e => 4 + e.length)).sum := by
  induction a generalizing init with
  | nil => simp
  | cons s a ih =>
    simp only [List.map_cons, List.sum_cons] at h
    have hs : size_string s = 4 + s.length := Nat.mod_eq_of_lt (by omega)
    have hacc : (init + size_string s) % U32_MOD = init + (4 + s.length) := by
      rw [hs]; exact Nat.mod_eq_of_lt (by omega)
    simp only [List.foldl_cons, List.map_cons, List.sum_cons, hacc]
    rw [ih _ (by omega)]
    omega

theorem map_size_string (a : List (List Byte))
    (h : (a.map (fun e => 4 + e.length)).sum < U32_MOD) :
    a.map size_string = a.map (fun e => 4 + e.length) := by
  induction a with
  | nil => rfl
  | cons s a ih =>
    simp only [List.map_cons, List.sum_cons] at h
    simp only [List.map_cons, ih (by omega)]
    congr 1
    exact Nat.mod_eq_of_lt (by omega)

/-- C9 (as amended): `serialize_*` advances the offset by `size_*` for every value
whose encoding is shorter than `2 ^ 32` bytes.  For each category (number,
string, number array, string array, number vector, string vector) the offset
after `serialize_*` is the offset before plus the value of the matching
`size_*` (in `size_t` arithmetic), where `size_string(s) = 4 + |s|`, the size
of a vector is 4 plus the sum of its element sizes and the size of an array is
the sum of its element sizes with no prefix. -/
theorem C9_serialize_advances_by_size (w x o : Nat) (dst s : List Byte) (na nv : List Nat)
    (sa sv : List (List Byte)) (ho : o < SIZE_MOD) (hw : w < U32_MOD)
    (hs : 4 + s.length < U32_MOD) (hna : na.length * w < U32_MOD)
    (hnv : 4 + nv.length * w < U32_MOD)
    (hsa : (sa.map (fun e => 4 + e.length)).sum < U32_MOD)
    (hsv : 4 + (sv.map (fun e => 4 + e.length)).sum < U32_MOD) :
    ((serialize_number w dst o x).2 = (o + size_number w x) % SIZE_MOD ∧ size_number w x = w)
    ∧ ((serialize_string dst o s).2 = (o + size_string s) % SIZE_MOD ∧
        size_string s = 4 + s.length)
    ∧ ((serialize_number_array w dst o na).2 = (o + size_number_array w na) % SIZE_MOD ∧
        size_number_array w na = na.length * w)
    ∧ ((serialize_string_array dst o sa).2 = (o + size_string_array sa) % SIZE_MOD ∧
        size_string_array sa = (sa.map size_string).sum)
    ∧ ((serialize_number_vector w dst o nv).2 = (o + size_number_vector w nv) % SIZE_MOD ∧
        size_number_vector w nv = 4 + nv.length * w)
    ∧ ((serialize_string_vector dst o sv).2 = (o + size_string_vector sv) % SIZE_MOD ∧
        size_string_vector sv = 4 + (sv.map size_string).sum) := by
  have e1 : size_number w x = w := Nat.mod_eq_of_lt hw
  have e2 : size_string s = 4 + s.length := Nat.mod_eq_of_lt hs
  have e3 : size_number_array w na = na.length * w := Nat.mod_eq_of_lt hna
  have e4 : size_string_array sa = (sa.map (fun e => 4 + e.length)).sum := by
    rw [size_string_array, size_fold sa 0 (by omega), Nat.zero_add]
  have e5 : size_number_vector w nv = 4 + nv.length * w := Nat.mod_eq_of_lt hnv
  have e6 : size_string_vector sv = 4 + (sv.map (fun e => 4 + e.length)).sum := by
    rw [size_string_vector, size_fold sv 4 hsv]
  refine ⟨⟨?_, e1⟩, ⟨?_, e2⟩, ⟨?_, e3⟩, ⟨?_, ?_⟩, ⟨?_, e5⟩, ⟨?_, ?_⟩⟩
  · rw [e1]; rfl
  · rw [e2, serialize_string_offset]
  · rw [e3]
    simp only [serialize_number_array, Nat.add_mod_mod]
  · rw [e4, serialize_string_array_offset sa dst o ho]
  · rw [e4, map_size_string sa hsa]
  · rw [e5]
    simp only [serialize_number_vector, Nat.add_mod_mod, add_mod_size]
  · rw [e6]
    simp only [serialize_string_vector]
    rw [serialize_string_array_offset sv _ _ (Nat.mod_lt _ (by decide)), add_mod_size]
  · rw [e6, map_size_string sv (by omega)]

theorem C9_serialize_advances_by_size_witness :
    ((serialize_number 2 (List.replicate 16 0) 1 513).2 = (1 + size_number 2 513) % SIZE_MOD ∧
        size_number 2 513 = 2)
    ∧ ((serialize_string (List.replicate 16 0) 1 [104, 105]).2 =
          (1 + size_string [104, 105]) % SIZE_MOD ∧
        size_string [104, 105] = 4 + [104, 105].length)
    ∧ ((serialize_number_array 2 (List.replicate 16 0) 1 [1, 2, 3]).2 =
          (1 + size_number_array 2 [1, 2, 3]) % SIZE_MOD ∧
        size_number_array 2 [1, 2, 3] = [1, 2, 3].length * 2)
    ∧ ((serialize_string_array (List.replicate 16 0) 1 [[104], []]).2 =
          (1 + size_string_array [[104], []]) % SIZE_MOD ∧
        size_string_array [[104], []] = ([[104], []].map size_string).sum)
    ∧ ((serialize_number_vector 2 (List.replicate 16 0) 1 [1, 2]).2 =
          (1 + size_number_vector 2 [1, 2]) % SIZE_MOD ∧
        size_number_vector 2 [1, 2] = 4 + [1, 2].length * 2)
    ∧ ((serialize_string_vector (List.replicate 16 0) 1 [[104], []]).2 =
          (1 + size_string_vector [[104], []]) % SIZE_MOD ∧
        size_string_vector [[104], []] = 4 + ([[104], []].map size_string).sum) :=
  C9_serialize_advances_by_size 2 513 1 (List.replicate 16 0) [104, 105] [1, 2, 3] [1, 2]
    [[104], []] [[104], []] (by decide) (by decide) (by decide) (by decide) (by decide)
    (by decide) (by decide)

theorem long_string_size (dst s : List Byte) (hs : s.length = U32_MOD - 4) :
    size_string s = 0 ∧ (serialize_string dst 0 s).2 = U32_MOD := by
  rw [serialize_string_offset, size_string, hs]
  decide

/-- C9 (counterexample): for a string of `2 ^ 32 - 4` bytes `size_string` returns
`0`, the sum `4 + |s| = 2 ^ 32` not fitting the `uint32_t` result, while
`serialize_string` advances the offset from `0` to `2 ^ 32`. -/
theorem C9_size_string_wraps :
    size_string (List.replicate (U32_MOD - 4) 0) = 0
    ∧ (serialize_string (List.replicate U32_MOD 0) 0 (List.replicate (U32_MOD - 4) 0)).2 =
        U32_MOD
    ∧ size_string (List.replicate (U32_MOD - 4) 0) ≠
        4 + (List.replicate (U32_MOD - 4) (0 : Byte)).length := by
  have h := long_string_size (List.replicate U32_MOD 0) (List.replicate (U32_MOD - 4) 0)
    (List.length_replicate _ _)
  refine ⟨h.1, h.2, ?_⟩
  rw [h.1, List.length_replicate]
  decide

/-! ## Serial framing -/

theorem wrap_int_emod (x : Int) : wrap_int x % 256 = x % 256 := by
  unfold wrap_int
  omega

theorem wrap_int_id (x : Int) (h1 : -2 ^ 31 ≤ x) (h2 : x < 2 ^ 31) : wrap_int x = x := by
  unfold wrap_int
  omega

theorem tmod_256 (x : Int) : Int.tmod x 256 = if 0 ≤ x then x % 256 else -((-x) % 256) := by
  by_cases h : 0 ≤ x
  · simp only [h, if_true]
    exact Int.tmod_eq_emod h (by decide)
  · simp only [h, if_false]
    have hd : x.tdiv 256 = -((-x) / 256) := by
      have hx : x = -(-x) := by omega
      rw [hx, Int.neg_tdiv, Int.tdiv_eq_ediv (by omega) (by decide)]
      simp
    rw [Int.tmod_def, hd]
    omega

theorem checksum_loop_emod (b : List Byte) (n i : Nat) (s : Int) (h : i + n ≤ b.length) :
    checksum_loop b n i s % 256 =
      (s + ((((b.drop i).take n).map (fun x => x.val)).sum : Nat)) % 256 := by
  induction n generalizing i s with
  | zero => simp [checksum_loop]
  | succ n ih =>
    have hi : i < b.length := by omega
    have hd : b.drop i = b[i] :: b.drop (i + 1) := List.drop_eq_getElem_cons hi
    have hg : b.getD i 0 = b[i] := by
      simp [List.getD_eq_getElem?_getD, hi]
    simp only [checksum_loop, hg]
    rw [ih (i + 1) _ (by omega), hd]
    simp only [List.take_succ_cons, List.map_cons, List.sum_cons, Nat.cast_add]
    rw [Int.add_emod, wrap_int_emod, ← Int.add_emod]
    congr 1
    omega

theorem u8_complement (x : Int) :
    (u8_of_int (255 - Int.tmod x 256)).val = 255 - (x % 256).toNat := by
  simp only [u8_of_int, Fin.ofNat, tmod_256]
  split <;> omega

theorem checksum_val (b : List Byte) :
    (checksum b b.length).val = 255 - (b.map (fun x => x.val)).sum % 256 := by
  have h := checksum_loop_emod b b.length 0 0 (by omega)
  simp only [List.drop_zero, List.take_length, Int.zero_add] at h
  simp only [checksum, Int.toNat_ofNat, u8_complement, h]
  omega

theorem split7 (l : List Byte) (h : 7 ≤ l.length) :
    ∃ a0 a1 a2 a3 a4 a5 a6 rest, l = a0 :: a1 :: a2 :: a3 :: a4 :: a5 :: a6 :: rest := by
  rcases l with _ | ⟨a0, _ | ⟨a1, _ | ⟨a2, _ | ⟨a3, _ | ⟨a4, _ | ⟨a5, _ | ⟨a6, rest⟩⟩⟩⟩⟩⟩⟩
  all_goals first
    | exact ⟨_, _, _, _, _, _, _, _, rfl⟩
    | (simp at h)

theorem memcpy_from_all (msg : List Byte) : memcpy_from msg 0 msg.length = msg := by
  have := memcpy_from_append [] msg []
  simpa using this

theorem encode_msg_layout (msg rospkt : List Byte) (t : Nat)
    (hL : msg.length + 8 < 2 ^ 31) (hbuf : rospkt.length = msg.length + 8) :
    encode_msg msg msg.length t rospkt (msg.length + 8) =
      (0, [0xFF, 0xFE, u8_of_int ((msg.length : Int) % 256), u8_of_int ((msg.length : Int) / 256),
            checksum [u8_of_int ((msg.length : Int) % 256), u8_of_int ((msg.length : Int) / 256)] 2,
            u8_of_nat (t % 256), u8_of_nat (t / 256)] ++ msg ++
          [checksum ([u8_of_nat (t % 256), u8_of_nat (t / 256)] ++ msg) (msg.length + 2)]) := by
  obtain ⟨a0, a1, a2, a3, a4, a5, a6, rest, rfl⟩ := split7 rospkt (by omega)
  simp only [List.length_cons] at hbuf
  have hrest : rest.length = msg.length + 1 := by omega
  have hw8 : wrap_int ((msg.length : Int) + 8) = (msg.length : Int) + 8 :=
    wrap_int_id _ (by omega) (by omega)
  have hw2 : wrap_int ((msg.length : Int) + 2) = (msg.length : Int) + 2 :=
    wrap_int_id _ (by omega) (by omega)
  have hcount : ((msg.length : Int) % (SIZE_MOD : Int)).toNat = msg.length := by
    simp only [SIZE_MOD]
    omega
  have hidx : ((msg.length : Int) + 8 - 1).toNat = msg.length + 7 := by omega
  have hnn : (0 : Int) ≤ (msg.length : Int) + 8 - 1 := by omega
  obtain ⟨z, hz⟩ : ∃ z, rest.drop msg.length = [z] := by
    have hl : (rest.drop msg.length).length = 1 := by rw [List.length_drop]; omega
    match hd : rest.drop msg.length, hl with
    | [z], _ => exact ⟨z, rfl⟩
  have hsplit : rest = rest.take msg.length ++ [z] := by
    rw [← hz, List.take_append_drop]
  have hcopy := memcpy_to_append
    [0xFF, 0xFE, u8_of_int ((msg.length : Int) % 256), u8_of_int ((msg.length : Int) / 256),
      checksum [u8_of_int ((msg.length : Int) % 256), u8_of_int ((msg.length : Int) / 256)] 2,
      u8_of_nat (t % 256), u8_of_nat (t / 256)]
    (rest.take msg.length) [z] msg (by rw [List.length_take]; omega)
  simp only [List.length_cons, List.length_nil, List.cons_append, List.nil_append,
    ← hsplit] at hcopy
  simp only [encode_msg, hw8, hw2, ne_eq, not_true_eq_false, if_false, List.set_cons_zero,
    List.set_cons_succ, List.getD_cons_zero, List.getD_cons_succ, hcount, Int.toNat_ofNat,
    memcpy_from_all, hcopy, hnn, if_true, hidx]
  simp only [Prod.mk.injEq, true_and, List.cons_append, List.nil_append, List.set_cons_succ,
    List.cons.injEq]
  have hset : (msg ++ [z]).set msg.length
      (checksum (u8_of_nat (t % 256) :: u8_of_nat (t / 256) :: msg) (msg.length + 2)) =
      msg ++ [checksum (u8_of_nat (t % 256) :: u8_of_nat (t / 256) :: msg) (msg.length + 2)] := by
    simp [List.set_append]
  exact hset

theorem u8_of_int_natCast (n : Nat) : u8_of_int (n : Int) = u8_of_nat n := by
  apply Fin.ext
  simp only [u8_of_int, u8_of_nat, Fin.ofNat]
  omega

theorem u8_of_nat_val (n : Nat) (h : n < 256) : (u8_of_nat n).val = n := by
  simp only [u8_of_nat, Fin.ofNat]
  omega

theorem memcpy_to_getElem_lt (bs dst : List Byte) (off i : Nat) (h : i < off) :
    (memcpy_to dst off bs)[i]? = dst[i]? := by
  induction bs generalizing dst off with
  | nil => rfl
  | cons b bs ih =>
    simp only [memcpy_to]
    rw [ih _ _ (by omega), List.getElem?_set]
    have hne : ¬ off = i := by omega
    simp [hne]

theorem encode_msg_fields (msg rospkt : List Byte) (msg_len rospkt_len : Int) (t : Nat)
    (h0 : 0 ≤ msg_len) (hno : msg_len + 8 < 2 ^ 31) (hlen : rospkt_len = msg_len + 8)
    (hbuf : 7 ≤ rospkt.length) :
    (encode_msg msg msg_len t rospkt rospkt_len).1 = 0
    ∧ (encode_msg msg msg_len t rospkt rospkt_len).2.getD 2 0 = u8_of_int (msg_len % 256)
    ∧ (encode_msg msg msg_len t rospkt rospkt_len).2.getD 3 0 = u8_of_int (msg_len / 256)
    ∧ (encode_msg msg msg_len t rospkt rospkt_len).2.getD 5 0 = u8_of_nat (t % 256)
    ∧ (encode_msg msg msg_len t rospkt rospkt_len).2.getD 6 0 = u8_of_nat (t / 256) := by
  obtain ⟨a0, a1, a2, a3, a4, a5, a6, rest, rfl⟩ := split7 rospkt hbuf
  subst hlen
  have hw8 : wrap_int (msg_len + 8) = msg_len + 8 := wrap_int_id _ (by omega) (by omega)
  have hnn : (0 : Int) ≤ msg_len + 8 - 1 := by omega
  have hidx : 7 ≤ (msg_len + 8 - 1).toNat := by omega
  simp only [encode_msg, hw8, ne_eq, not_true_eq_false, if_false, hnn, if_true,
    List.set_cons_zero, List.set_cons_succ, List.getD_eq_getElem?_getD, List.getElem?_set]
  have h2 : ¬ (msg_len + 8 - 1).toNat = 2 := by omega
  have h3 : ¬ (msg_len + 8 - 1).toNat = 3 := by omega
  have h5 : ¬ (msg_len + 8 - 1).toNat = 5 := by omega
  have h6 : ¬ (msg_len + 8 - 1).toNat = 6 := by omega
  simp only [h2, h3, h5, h6, if_false]
  refine ⟨trivial, ?_, ?_, ?_, ?_⟩
  all_goals
    rw [memcpy_to_getElem_lt _ _ 7 _ (by omega)]
    simp

/-- C11: frame layout.  For every payload of length `L` with `0 ≤ L ≤ 65535`, every
16-bit topic `t` and a destination buffer of length `L + 8`, `encode_msg`
returns `0` and the buffer equals `[0xFF, 0xFE, L mod 256, L div 256,
checksum([L mod 256, L div 256]), t mod 256, t div 256] ++ payload ++
[checksum([t mod 256, t div 256] ++ payload)]`; the four conversions to
`uint8_t` lose nothing. -/
theorem C11_frame_layout (msg rospkt : List Byte) (t : Nat)
    (hL : msg.length ≤ 65535) (ht : t < 65536) (hbuf : rospkt.length = msg.length + 8) :
    encode_msg msg msg.length t rospkt (msg.length + 8) =
      (0, [0xFF, 0xFE, u8_of_nat (msg.length % 256), u8_of_nat (msg.length / 256),
            checksum [u8_of_nat (msg.length % 256), u8_of_nat (msg.length / 256)] 2,
            u8_of_nat (t % 256), u8_of_nat (t / 256)] ++ msg ++
          [checksum ([u8_of_nat (t % 256), u8_of_nat (t / 256)] ++ msg) (msg.length + 2)])
    ∧ (u8_of_nat (msg.length % 256)).val = msg.length % 256
    ∧ (u8_of_nat (msg.length / 256)).val = msg.length / 256
    ∧ (u8_of_nat (t % 256)).val = t % 256
    ∧ (u8_of_nat (t / 256)).val = t / 256 := by
  refine ⟨?_, u8_of_nat_val _ (by omega), u8_of_nat_val _ (by omega),
    u8_of_nat_val _ (by omega), u8_of_nat_val _ (by omega)⟩
  have h := encode_msg_layout msg rospkt t (by omega) hbuf
  have e1 : (msg.length : Int) % 256 = ((msg.length % 256 : Nat) : Int) := by omega
  have e2 : (msg.length : Int) / 256 = ((msg.length / 256 : Nat) : Int) := by omega
  rw [e1, e2, u8_of_int_natCast, u8_of_int_natCast] at h
  exact h

theorem C11_frame_layout_witness :
    encode_msg [0xAA] 1 214 (List.replicate 9 0) 9 =
      (0, [0xFF, 0xFE, 0x01, 0x00, 0xFE, 0xD6, 0x00, 0xAA, 0x7F]) :=
  (C11_frame_layout [0xAA] (List.replicate 9 0) 214 (by decide) (by decide) (by decide)).1.trans
    (by decide)

/-- C12: checksum formula.  For every byte sequence `b`, of any length, the value
of `checksum(b)` is `255 - ((sum of the bytes of b) mod 256)`, also when the
`int` accumulator wraps around; in particular `checksum([0x05, 0x00]) = 0xFA`. -/
theorem C12_checksum_formula (b : List Byte) :
    (checksum b b.length).val = 255 - (b.map (fun x => x.val)).sum % 256
    ∧ checksum [0x05, 0x00] 2 = 0xFA :=
  ⟨checksum_val b, by decide⟩

/-- C13: a wrong-sized destination is rejected without writing.  For every `int`
`msg_len` for which `msg_len + 8` does not overflow, every topic and every
`rospkt_len`: either `rospkt_len ≠ msg_len + 8`, and `encode_msg` returns `-1`
with the destination buffer unchanged, or `rospkt_len = msg_len + 8`, and it
returns `0`. -/
theorem C13_wrong_size_rejected (msg rospkt : List Byte) (msg_len rospkt_len : Int) (topic : Nat)
    (hlo : -2 ^ 31 ≤ msg_len) (hhi : msg_len + 8 < 2 ^ 31) :
    (rospkt_len ≠ msg_len + 8 ∧ encode_msg msg msg_len topic rospkt rospkt_len = (-1, rospkt))
    ∨ (rospkt_len = msg_len + 8 ∧ (encode_msg msg msg_len topic rospkt rospkt_len).1 = 0) := by
  have hw8 : wrap_int (msg_len + 8) = msg_len + 8 := wrap_int_id _ (by omega) hhi
  by_cases h : rospkt_len = msg_len + 8
  · right
    refine ⟨h, ?_⟩
    simp only [encode_msg, hw8, h, ne_eq, not_true_eq_false, if_false]
  · left
    refine ⟨h, ?_⟩
    have h2 : msg_len + 8 ≠ rospkt_len := fun e => h e.symm
    simp only [encode_msg, hw8, ne_eq, h2, not_false_eq_true, if_true]

theorem C13_wrong_size_rejected_witness :
    ((8 : Int) ≠ 1 + 8 ∧ encode_msg [0xAA] 1 214 (List.replicate 8 0) 8 = (-1, List.replicate 8 0))
    ∨ ((8 : Int) = 1 + 8 ∧ (encode_msg [0xAA] 1 214 (List.replicate 8 0) 8).1 = 0) :=
  C13_wrong_size_rejected [0xAA] (List.replicate 8 0) 1 8 214 (by decide) (by decide)

/-- C14 (as amended): the length field is the 2-byte little-endian payload length
for payloads that fit 16 bits.  For every call with `0 ≤ msg_len ≤ 65535`, a
16-bit topic and a buffer of the stated length in which `encode_msg` returns
`0`, `rospkt[2] + 256 * rospkt[3]` equals `msg_len` and
`rospkt[5] + 256 * rospkt[6]` equals the topic id. -/
theorem C14_length_field (msg rospkt : List Byte) (msg_len rospkt_len : Int) (t : Nat)
    (hret : (encode_msg msg msg_len t rospkt rospkt_len).1 = 0)
    (h0 : 0 ≤ msg_len) (h16 : msg_len ≤ 65535) (ht : t < 65536)
    (hbuf : (rospkt.length : Int) = rospkt_len) :
    (((encode_msg msg msg_len t rospkt rospkt_len).2.getD 2 0).val : Int) +
        256 * (((encode_msg msg msg_len t rospkt rospkt_len).2.getD 3 0).val : Int) = msg_len
    ∧ ((encode_msg msg msg_len t rospkt rospkt_len).2.getD 5 0).val +
        256 * ((encode_msg msg msg_len t rospkt rospkt_len).2.getD 6 0).val = t := by
  have hw8 : wrap_int (msg_len + 8) = msg_len + 8 := wrap_int_id _ (by omega) (by omega)
  have hlen : rospkt_len = msg_len + 8 := by
    by_contra hne
    have h2 : msg_len + 8 ≠ rospkt_len := fun e => hne e.symm
    simp [encode_msg, hw8, h2] at hret
  obtain ⟨_, f2, f3, f5, f6⟩ := encode_msg_fields msg rospkt msg_len rospkt_len t h0 (by omega)
    hlen (by omega)
  rw [f2, f3, f5, f6]
  simp only [u8_of_int, u8_of_nat, Fin.ofNat]
  omega

theorem C14_length_field_witness :
    (((encode_msg [0xAA] 1 214 (List.replicate 9 0) 9).2.getD 2 0).val : Int) +
        256 * (((encode_msg [0xAA] 1 214 (List.replicate 9 0) 9).2.getD 3 0).val : Int) = 1
    ∧ ((encode_msg [0xAA] 1 214 (List.replicate 9 0) 9).2.getD 5 0).val +
        256 * ((encode_msg [0xAA] 1 214 (List.replicate 9 0) 9).2.getD 6 0).val = 214 :=
  C14_length_field [0xAA] (List.replicate 9 0) 1 9 214 (by decide) (by decide) (by decide)
    (by decide) (by decide)

theorem long_payload_fields (msg rospkt : List Byte) (hbuf : 7 ≤ rospkt.length) :
    (encode_msg msg 65536 214 rospkt 65544).1 = 0
    ∧ (encode_msg msg 65536 214 rospkt 65544).2.getD 2 0 = 0
    ∧ (encode_msg msg 65536 214 rospkt 65544).2.getD 3 0 = 0 := by
  obtain ⟨f1, f2, f3, _, _⟩ := encode_msg_fields msg rospkt 65536 65544 214 (by decide)
    (by decide) (by decide) hbuf
  exact ⟨f1, f2.trans (by decide), f3.trans (by decide)⟩

/-- C14 (counterexample): with a payload of `65536` bytes and a buffer of `65544`
bytes `encode_msg` returns `0`, yet both length bytes are `0`, so
`rospkt[2] + 256 * rospkt[3] = 0`, not `65536`. -/
theorem C14_length_field_truncated :
    (encode_msg (List.replicate 65536 0) 65536 214 (List.replicate 65544 0) 65544).1 = 0
    ∧ ((encode_msg (List.replicate 65536 0) 65536 214 (List.replicate 65544 0) 65544).2.getD 2
          0).val +
        256 * ((encode_msg (List.replicate 65536 0) 65536 214 (List.replicate 65544 0)
          65544).2.getD 3 0).val = 0
    ∧ ((encode_msg (List.replicate 65536 0) 65536 214 (List.replicate 65544 0) 65544).2.getD 2
          0).val +
        256 * ((encode_msg (List.replicate 65536 0) 65536 214 (List.replicate 65544 0)
          65544).2.getD 3 0).val ≠ 65536 := by
  obtain ⟨f1, f2, f3⟩ := long_payload_fields (List.replicate 65536 0) (List.replicate 65544 0)
    (by rw [List.length_replicate]; decide)
  rw [f2, f3]
  exact ⟨f1, by decide, by decide⟩

/-! ## Descriptors and `File` -/

theorem range_subset_length (keys : List Int) (c : Nat) (h : ∀ j < c, (j : Int) ∈ keys) :
    c ≤ keys.length := by
  have hsub : (Finset.range c).image (fun j : Nat => (j : Int)) ⊆ keys.toFinset := by
    intro x hx
    obtain ⟨j, hj, rfl⟩ := Finset.mem_image.mp hx
    exact List.mem_toFinset.mpr (h j (Finset.mem_range.mp hj))
  have hcard : ((Finset.range c).image (fun j : Nat => (j : Int))).card = c := by
    rw [Finset.card_image_of_injective _ Nat.cast_injective, Finset.card_range]
  calc c = ((Finset.range c).image (fun j : Nat => (j : Int))).card := hcard.symm
    _ ≤ keys.toFinset.card := Finset.card_le_card hsub
    _ ≤ keys.length := List.toFinset_card_le keys

theorem lowest_unused_not_mem (keys : List Int) (fuel c : Nat)
    (hall : ∀ j < c, (j : Int) ∈ keys) (hfuel : fuel + c = keys.length) :
    lowest_unused keys fuel c ∉ keys := by
  induction fuel generalizing c with
  | zero =>
    intro hmem
    simp only [lowest_unused] at hmem
    have := range_subset_length keys (c + 1) (fun j hj => by
      rcases Nat.lt_succ_iff_lt_or_eq.mp hj with h | h
      · exact hall j h
      · subst h; exact hmem)
    omega
  | succ fuel ih =>
    simp only [lowest_unused]
    split
    · rename_i hc
      exact ih (c + 1) (fun j hj => by
        rcases Nat.lt_succ_iff_lt_or_eq.mp hj with h | h
        · exact hall j h
        · subst h; exact hc) (by omega)
    · rename_i hc
      exact hc

theorem lowest_unused_nonneg (keys : List Int) (fuel c : Nat) :
    0 ≤ lowest_unused keys fuel c := by
  induction fuel generalizing c with
  | zero => simp [lowest_unused]
  | succ fuel ih =>
    simp only [lowest_unused]
    split
    · exact ih (c + 1)
    · exact Int.natCast_nonneg c

theorem fresh_not_open (t : FdTable) : t.fresh ∉ t.entries.map Prod.fst :=
  lowest_unused_not_mem _ _ 0 (fun j hj => absurd hj (Nat.not_lt_zero j)) (by simp)

theorem fresh_nonneg (t : FdTable) : 0 ≤ t.fresh := lowest_unused_nonneg _ _ _

theorem lookup_mem_keys (l : List (Int × Nat)) (a : Int) (k : Nat)
    (h : List.lookup a l = some k) : a ∈ l.map Prod.fst := by
  induction l with
  | nil => simp at h
  | cons e l ih =>
    obtain ⟨x, y⟩ := e
    simp only [List.lookup_cons] at h
    by_cases hx : a = x
    · simp [hx]
    · have hb : (a == x) = false := by simpa using hx
      rw [hb] at h
      simp only [List.map_cons, List.mem_cons]
      exact Or.inr (ih h)

theorem lookup_append_fresh (l : List (Int × Nat)) (n : Int) (k : Nat)
    (h : n ∉ l.map Prod.fst) : List.lookup n (l ++ [(n, k)]) = some k := by
  induction l with
  | nil => simp [List.lookup_cons]
  | cons e l ih =>
    obtain ⟨x, y⟩ := e
    simp only [List.map_cons, List.mem_cons, not_or] at h
    have hb : (n == x) = false := by simpa using h.1
    simp only [List.cons_append, List.lookup_cons, hb]
    exact ih h.2

theorem lookup_filter_ne (l : List (Int × Nat)) (n fd : Int) (h : n ≠ fd) :
    List.lookup n (l.filter (fun e => e.1 ≠ fd)) = List.lookup n l := by
  induction l with
  | nil => rfl
  | cons e l ih =>
    obtain ⟨x, y⟩ := e
    by_cases hx : x = fd
    · have hb : (n == x) = false := by simpa [hx] using h
      rw [List.filter_cons_of_neg (by simp [hx]), ih, List.lookup_cons, hb]
    · rw [List.filter_cons_of_pos (by simp [hx]), List.lookup_cons, List.lookup_cons, ih]

theorem lookup_filter_self (l : List (Int × Nat)) (fd : Int) :
    List.lookup fd (l.filter (fun e => e.1 ≠ fd)) = none := by
  induction l with
  | nil => rfl
  | cons e l ih =>
    obtain ⟨x, y⟩ := e
    by_cases hx : x = fd
    · rw [List.filter_cons_of_neg (by simp [hx]), ih]
    · have hb : (fd == x) = false := by simpa using (fun e : fd = x => hx e.symm)
      rw [List.filter_cons_of_pos (by simp [hx]), List.lookup_cons, hb, ih]

theorem copy_construct_open (t : FdTable) (src : File) (k : Nat)
    (hopen : t.file_of src.fd_ = some k) (hvalid : src.ok = true) :
    File.copy_construct t src =
      ({ entries := t.entries ++ [(t.fresh, k)], closed := t.closed,
         dupped := t.dupped ++ [src.fd_] }, ⟨t.fresh⟩) := by
  have hnn : src.fd_ ≥ 0 := by
    by_contra hneg
    simp [File.ok, hneg] at hvalid
  simp only [File.copy_construct, hnn, if_true, sys_dup, hopen]

/-- C17: descriptor copy independence.  Copy-constructing from a valid `File` whose
descriptor is open yields a `File` that is valid and holds a different
descriptor, open on the same file; destroying the original afterwards closes
the original's number only: the copy's descriptor is still open on the same
file, and `read` and `write` on the copy are forwarded to the system call with
that descriptor.  Copying an invalid `File` yields an invalid `File` and leaves
the table, its record of `dup` calls included, as it was. -/
theorem C17_descriptor_copy_independence (t : FdTable) (src bad : File) (k n : Nat)
    (sys_read sys_write : Int → Nat → Int)
    (hopen : t.file_of src.fd_ = some k) (hvalid : src.ok = true) (hbad : bad.ok = false) :
    ((File.copy_construct t src).2.ok = true
      ∧ (File.copy_construct t src).2.fd_ ≠ src.fd_
      ∧ (File.copy_construct t src).1.file_of (File.copy_construct t src).2.fd_ = some k
      ∧ (File.destroy (File.copy_construct t src).1 src).file_of src.fd_ = none
      ∧ (File.destroy (File.copy_construct t src).1 src).file_of
          (File.copy_construct t src).2.fd_ = some k
      ∧ File.read sys_read (File.copy_construct t src).2 n =
          (sys_read (File.copy_construct t src).2.fd_ n, some (File.copy_construct t src).2.fd_)
      ∧ File.write sys_write (File.copy_construct t src).2 n =
          (sys_write (File.copy_construct t src).2.fd_ n, some (File.copy_construct t src).2.fd_))
    ∧ File.copy_construct t bad = (t, File.default) := by
  have hnn : src.fd_ ≥ 0 := by
    by_contra hneg
    simp [File.ok, hneg] at hvalid
  have hfresh := fresh_not_open t
  have hfnn := fresh_nonneg t
  have hne : t.fresh ≠ src.fd_ := by
    intro e
    exact hfresh (e ▸ lookup_mem_keys t.entries src.fd_ k hopen)
  rw [copy_construct_open t src k hopen hvalid]
  refine ⟨⟨?_, hne, ?_, ?_, ?_, ?_, ?_⟩, ?_⟩
  · simp [File.ok, hfnn]
  · exact lookup_append_fresh t.entries t.fresh k hfresh
  · simp only [File.destroy, hnn, if_true, sys_close, FdTable.file_of]
    exact lookup_filter_self _ _
  · simp only [File.destroy, hnn, if_true, sys_close, FdTable.file_of]
    rw [lookup_filter_ne _ _ _ hne]
    exact lookup_append_fresh t.entries t.fresh k hfresh
  · simp [File.read, hfnn]
  · simp [File.write, hfnn]
  · have hneg : ¬ bad.fd_ ≥ 0 := by
      intro h
      simp [File.ok, h] at hbad
    simp only [File.copy_construct, hneg, if_false, File.default]

theorem C17_descriptor_copy_independence_witness :
    ((File.copy_construct table_0_5 ⟨5⟩).2.ok = true
      ∧ (File.copy_construct table_0_5 ⟨5⟩).2.fd_ ≠ (⟨5⟩ : File).fd_
      ∧ (File.copy_construct table_0_5 ⟨5⟩).1.file_of (File.copy_construct table_0_5 ⟨5⟩).2.fd_
          = some 11
      ∧ (File.destroy (File.copy_construct table_0_5 ⟨5⟩).1 ⟨5⟩).file_of (⟨5⟩ : File).fd_ = none
      ∧ (File.destroy (File.copy_construct table_0_5 ⟨5⟩).1 ⟨5⟩).file_of
          (File.copy_construct table_0_5 ⟨5⟩).2.fd_ = some 11
      ∧ File.read (fun _ _ => 1) (File.copy_construct table_0_5 ⟨5⟩).2 1 =
          ((fun _ _ => 1) (File.copy_construct table_0_5 ⟨5⟩).2.fd_ 1,
            some (File.copy_construct table_0_5 ⟨5⟩).2.fd_)
      ∧ File.write (fun _ _ => 1) (File.copy_construct table_0_5 ⟨5⟩).2 1 =
          ((fun _ _ => 1) (File.copy_construct table_0_5 ⟨5⟩).2.fd_ 1,
            some (File.copy_construct table_0_5 ⟨5⟩).2.fd_))
    ∧ File.copy_construct table_0_5 ⟨-1⟩ = (table_0_5, File.default) :=
  C17_descriptor_copy_independence table_0_5 ⟨5⟩ ⟨-1⟩ 11 1 (fun _ _ => 1) (fun _ _ => 1)
    (by decide) (by decide) (by decide)

/-- C15 (failing input): move assignment onto a `File` holding descriptor `0`.
With `a` holding `0` and `b` holding `5`, `a = std::move(b)` makes no `close`
call and leaves `b` holding descriptor `0`: `b.ok()` is `true` and `b.fd()` is
`0`, not `-1`.  Move construction from the same `b` does invalidate it. -/
theorem C15_move_assign_descriptor_zero :
    File.move_assign table_0_5 ⟨0⟩ ⟨5⟩ = (table_0_5, ⟨5⟩, ⟨0⟩)
    ∧ (File.move_assign table_0_5 ⟨0⟩ ⟨5⟩).2.2.ok = true
    ∧ (File.move_assign table_0_5 ⟨0⟩ ⟨5⟩).2.2.fd = 0
    ∧ (File.move_assign table_0_5 ⟨0⟩ ⟨5⟩).1.closed = []
    ∧ (File.move_construct ⟨5⟩).2.fd = -1 := by
  decide

/-- C16 (failing input): copy assignment onto a `File` holding descriptor `0`.
With `a` holding `0` and `b` holding `5`, `a = b` makes no `close` call:
`a` now holds the duplicate `1` and descriptor `0` stays open with no object
holding it, whereas the destructor of the same `a` does close `0`.  The copy
assignments of `Pipe` and `Fifo` make no `close` call either. -/
theorem C16_copy_assign_descriptor_zero :
    File.copy_assign table_0_5 false ⟨0⟩ ⟨5⟩ =
      ({ entries := [(0, 10), (5, 11), (1, 11)], closed := [], dupped := [5] }, ⟨1⟩)
    ∧ (File.copy_assign table_0_5 false ⟨0⟩ ⟨5⟩).1.file_of 0 = some 10
    ∧ (File.destroy table_0_5 ⟨0⟩).closed = [0]
    ∧ (Pipe.copy_assign table_0_5 false ⟨0, true⟩ ⟨5, false⟩).1.closed = []
    ∧ (Fifo.copy_assign table_0_5 false ⟨0, FifoMode.READ, "a"⟩ ⟨5, FifoMode.WRITE, "b"⟩).1.closed
        = [] := by
  decide

/-! ## Signal registration -/

theorem countP_eraseIdx_add {α : Type} (p : α → Bool) (l : List α) (i : Nat) (s : α)
    (h : l[i]? = some s) :
    (l.eraseIdx i).countP p + (if p s then 1 else 0) = l.countP p := by
  induction l generalizing i with
  | nil => simp at h
  | cons a l ih =>
    cases i with
    | zero =>
      simp only [List.getElem?_cons_zero, Option.some.injEq] at h
      subst h
      simp only [List.eraseIdx_cons_zero, List.countP_cons]
    | succ i =>
      simp only [List.getElem?_cons_succ] at h
      simp only [List.eraseIdx_cons_succ, List.countP_cons]
      have := ih i h
      omega

theorem countP_set_add {α : Type} (p : α → Bool) (l : List α) (i : Nat) (s new : α)
    (h : l[i]? = some s) :
    (l.set i new).countP p + (if p s then 1 else 0) = l.countP p + (if p new then 1 else 0) := by
  induction l generalizing i with
  | nil => simp at h
  | cons a l ih =>
    cases i with
    | zero =>
      simp only [List.getElem?_cons_zero, Option.some.injEq] at h
      subst h
      simp only [List.set_cons_zero, List.countP_cons]
      omega
    | succ i =>
      simp only [List.getElem?_cons_succ] at h
      simp only [List.set_cons_succ, List.countP_cons]
      have := ih i h
      omega

theorem unregister_is_init (st : SignalState) (idx k : Int) :
    ((st.unregister idx).notifier k).is_init =
      if k = idx then false else (st.notifier k).is_init := by
  simp only [SignalState.unregister, Function.update_apply]
  split <;> rfl

theorem holders_pos (w : SignalWorld) (i : Nat) (s : Signal) (h : w.objs[i]? = some s) :
    1 ≤ w.holders s.signum_ := by
  have := countP_eraseIdx_add (fun x : Signal => decide (x.signum_ = s.signum_)) w.objs i s h
  simp only [decide_True, if_true] at this
  simp only [SignalWorld.holders]
  omega

theorem consistent_init_of_holder (w : SignalWorld) (hc : w.consistent) (i : Nat) (s : Signal)
    (h : w.objs[i]? = some s) (hs : 0 ≤ s.signum_) :
    (w.st.notifier s.signum_).is_init = true ∧ w.holders s.signum_ = 1 := by
  have h1 := holders_pos w i s h
  have h2 := hc s.signum_ hs
  by_cases hi : (w.st.notifier s.signum_).is_init = true
  · simp only [hi, if_true] at h2
    exact ⟨hi, h2⟩
  · simp only [hi] at h2
    simp at h2
    omega

theorem construct_fail (st : SignalState) (created : Pipe × Pipe) (signum : Int)
    (h : signum < 1 ∨ signum > 32 ∨ (st.notifier (signum - 1)).is_init = true) :
    Signal.construct st created signum = (st, none) := by
  simp only [Signal.construct]
  by_cases hr : signum < 1 ∨ signum > 32
  · rw [if_pos hr]
  · rw [if_neg hr]
    have hi : (st.notifier (signum - 1)).is_init = true := by
      rcases h with h | h | h
      · exact absurd (Or.inl h) hr
      · exact absurd (Or.inr h) hr
      · exact h
    rw [if_pos hi]

theorem construct_ok (st : SignalState) (created : Pipe × Pipe) (signum : Int)
    (h1 : 1 ≤ signum) (h2 : signum ≤ 32) (h3 : (st.notifier (signum - 1)).is_init = false) :
    Signal.construct st created signum =
      ({ notifier := Function.update st.notifier (signum - 1) ⟨true, created⟩,
         handler_installed := Function.update st.handler_installed signum true },
        some ⟨signum - 1⟩) := by
  simp only [Signal.construct]
  rw [if_neg (by omega), if_neg (by rw [h3]; decide)]

theorem consistent_construct (w : SignalWorld) (hc : w.consistent) (created : Pipe × Pipe)
    (signum : Int) : (w.step (.construct created signum)).consistent := by
  by_cases hr : signum < 1 ∨ signum > 32 ∨ (w.st.notifier (signum - 1)).is_init = true
  · simp only [SignalWorld.step, construct_fail w.st created signum hr]
    exact hc
  · have h1 : 1 ≤ signum := by omega
    have h2 : signum ≤ 32 := by omega
    have h3 : (w.st.notifier (signum - 1)).is_init = false := by
      cases hb : (w.st.notifier (signum - 1)).is_init
      · rfl
      · exact absurd (Or.inr (Or.inr hb)) hr
    simp only [SignalWorld.step, construct_ok w.st created signum h1 h2 h3]
    intro k hk
    have h0 := hc k hk
    simp only [SignalWorld.holders, List.countP_append, List.countP_cons, List.countP_nil,
      Function.update_apply] at h0 ⊢
    by_cases hk2 : k = signum - 1
    · subst hk2
      rw [h3] at h0
      simp only [Bool.false_eq_true, if_false] at h0
      simp only [h0, decide_True, if_true]
    · have hk3 : ¬ signum - 1 = k := fun e => hk2 e.symm
      simp only [hk2, hk3, if_false, decide_False, Bool.false_eq_true, Nat.add_zero]
      exact h0

theorem consistent_destroy (w : SignalWorld) (hc : w.consistent) (i : Nat) :
    (w.step (.destroy i)).consistent := by
  simp only [SignalWorld.step]
  rcases hget : w.objs[i]? with _ | s
  · exact hc
  · simp only [Signal.destroy]
    intro k hk
    have h0 := hc k hk
    have he := countP_eraseIdx_add (fun x : Signal => decide (x.signum_ = k)) w.objs i s hget
    beta_reduce at he
    by_cases hs : s.signum_ ≥ 0
    · simp only [hs, if_true, SignalWorld.holders, unregister_is_init] at h0 ⊢
      by_cases hk2 : k = s.signum_
      · subst hk2
        have := (consistent_init_of_holder w hc i s hget hs).2
        simp only [SignalWorld.holders] at this
        simp only [decide_True, if_true] at he
        simp only [if_true, Bool.false_eq_true, if_false]
        omega
      · have hk3 : ¬ s.signum_ = k := fun e => hk2 e.symm
        simp only [hk3, decide_False, Bool.false_eq_true, if_false, Nat.add_zero] at he
        simp only [hk2, if_false, he]
        exact h0
    · have hk3 : ¬ s.signum_ = k := by omega
      simp only [hk3, decide_False, Bool.false_eq_true, if_false, Nat.add_zero] at he
      simp only [hs, if_false, SignalWorld.holders, he] at h0 ⊢
      exact h0

theorem consistent_move_construct (w : SignalWorld) (hc : w.consistent) (i : Nat) :
    (w.step (.move_construct i)).consistent := by
  simp only [SignalWorld.step]
  rcases hget : w.objs[i]? with _ | s
  · exact hc
  · simp only [Signal.move_construct]
    intro k hk
    have h0 := hc k hk
    have he := countP_set_add (fun x : Signal => decide (x.signum_ = k)) w.objs i s ⟨-1⟩ hget
    beta_reduce at he
    have hm : ¬ (-1 : Int) = k := by omega
    simp only [hm, decide_False, Bool.false_eq_true, if_false, Nat.add_zero] at he
    simp only [SignalWorld.holders, List.countP_append, List.countP_cons, List.countP_nil] at h0 ⊢
    rw [← h0]
    omega

theorem set_same {α : Type} (l : List α) (i : Nat) (s : α) (h : l[i]? = some s) :
    l.set i s = l := by
  induction l generalizing i with
  | nil => rfl
  | cons a l ih =>
    cases i with
    | zero =>
      simp only [List.getElem?_cons_zero, Option.some.injEq] at h
      subst h
      rfl
    | succ i =>
      simp only [List.getElem?_cons_succ] at h
      simp only [List.set_cons_succ, ih i h]

theorem consistent_move_assign (w : SignalWorld) (hc : w.consistent) (j i : Nat) :
    (w.step (.move_assign j i)).consistent := by
  simp only [SignalWorld.step]
  rcases hgj : w.objs[j]? with _ | sj
  · exact hc
  · rcases hgi : w.objs[i]? with _ | si
    · exact hc
    · simp only [Signal.move_assign]
      by_cases hcond : decide (j = i) = false ∧ si.signum_ ≥ 0
      · simp only [hcond, and_self, if_true]
        have hji : j ≠ i := by simpa using hcond.1
        have hgi2 : (w.objs.set j ⟨si.signum_⟩)[i]? = some si := by
          rw [List.getElem?_set, if_neg hji, hgi]
        intro k hk
        have h0 := hc k hk
        have e1 := countP_set_add (fun x : Signal => decide (x.signum_ = k)) w.objs j sj
          ⟨si.signum_⟩ hgj
        have e2 := countP_set_add (fun x : Signal => decide (x.signum_ = k))
          (w.objs.set j ⟨si.signum_⟩) i si ⟨-1⟩ hgi2
        beta_reduce at e1 e2
        have hm : ¬ (-1 : Int) = k := by omega
        simp only [hm, decide_False, Bool.false_eq_true, if_false, Nat.add_zero] at e2
        simp only [SignalWorld.holders] at h0 ⊢
        by_cases hs : sj.signum_ ≥ 0
        · simp only [hs, if_true, unregister_is_init]
          by_cases hk2 : k = sj.signum_
          · subst hk2
            have h1 := (consistent_init_of_holder w hc j sj hgj hs).2
            simp only [SignalWorld.holders] at h1
            simp only [decide_True, if_true] at e1
            simp only [if_true, Bool.false_eq_true, if_false]
            omega
          · have hk3 : ¬ sj.signum_ = k := fun e => hk2 e.symm
            simp only [hk3, decide_False, Bool.false_eq_true, if_false, Nat.add_zero] at e1
            simp only [hk2, if_false]
            rw [← h0]
            omega
        · have hk3 : ¬ sj.signum_ = k := by omega
          simp only [hk3, decide_False, Bool.false_eq_true, if_false, Nat.add_zero] at e1
          simp only [hs, if_false]
          rw [← h0]
          omega
      · simp only [hcond, if_false]
        rw [set_same w.objs j sj hgj, set_same w.objs i si hgi]
        exact hc

theorem consistent_step (w : SignalWorld) (hc : w.consistent) (op : SignalOp) :
    (w.step op).consistent := by
  cases op with
  | construct created signum => exact consistent_construct w hc created signum
  | destroy i => exact consistent_destroy w hc i
  | move_construct i => exact consistent_move_construct w hc i
  | move_assign j i => exact consistent_move_assign w hc j i

theorem consistent_foldl (ops : List SignalOp) (w : SignalWorld) (hc : w.consistent) :
    (ops.foldl SignalWorld.step w).consistent := by
  induction ops generalizing w with
  | nil => exact hc
  | cons op ops ih => exact ih (w.step op) (consistent_step w hc op)

theorem consistent_run (ops : List SignalOp) : (SignalWorld.run ops).consistent := by
  apply consistent_foldl
  intro k _
  simp [SignalWorld.holders, SignalState.empty]

theorem signum_eq_iff (s : Signal) (n : Int) (hn : 1 ≤ n) :
    s.signum = n ↔ s.signum_ = n - 1 := by
  simp only [Signal.signum]
  split <;> omega

/-- C19: registration-table invariant.  In every state reached from the empty
table by a sequence of `Signal` constructions, destructions, move
constructions and move assignments, for each signal number `n` in `1..32` at
most one live `Signal` object reports `signum() == n`, and slot `n - 1` is
initialised if and only if such an object exists; and if the live object at
position `i` reports `n`, then after it is destroyed `Signal(n)` can be
constructed. -/
theorem C19_registration_table_invariant (ops : List SignalOp) (n : Int) (i : Nat)
    (created : Pipe × Pipe) (hn1 : 1 ≤ n) (hn32 : n ≤ 32) :
    (SignalWorld.run ops).objs.countP (fun s => decide (s.signum = n)) ≤ 1
    ∧ (((SignalWorld.run ops).st.notifier (n - 1)).is_init = true ↔
        ∃ s ∈ (SignalWorld.run ops).objs, s.signum = n)
    ∧ ((SignalWorld.run ops).objs[i]?.map Signal.signum ≠ some n
      ∨ Signal.construct ((SignalWorld.run ops).step (.destroy i)).st created n =
          ({ notifier := Function.update ((SignalWorld.run ops).step (.destroy i)).st.notifier
                (n - 1) ⟨true, created⟩,
             handler_installed := Function.update
                ((SignalWorld.run ops).step (.destroy i)).st.handler_installed n true },
            some ⟨n - 1⟩)) := by
  have hc := consistent_run ops
  have hcount : (SignalWorld.run ops).objs.countP (fun s => decide (s.signum = n)) =
      (SignalWorld.run ops).holders (n - 1) := by
    simp only [SignalWorld.holders]
    apply List.countP_congr
    intro s _
    simp only [decide_eq_true_eq]
    exact signum_eq_iff s n hn1
  have hh := hc (n - 1) (by omega)
  refine ⟨?_, ?_, ?_⟩
  · rw [hcount, hh]
    split <;> omega
  · constructor
    · intro hi
      have hpos : 0 < (SignalWorld.run ops).objs.countP (fun s => decide (s.signum = n)) := by
        rw [hcount, hh, hi]; simp
      obtain ⟨s, hs, hp⟩ := List.countP_pos_iff.mp hpos
      exact ⟨s, hs, by simpa using hp⟩
    · rintro ⟨s, hs, hp⟩
      have hpos : 0 < (SignalWorld.run ops).objs.countP (fun s => decide (s.signum = n)) :=
        List.countP_pos_iff.mpr ⟨s, hs, by simpa using hp⟩
      rw [hcount, hh] at hpos
      by_contra hne
      simp [hne] at hpos
  · rcases hget : (SignalWorld.run ops).objs[i]? with _ | s
    · left; simp
    · by_cases hs : s.signum = n
      · right
        have hs2 : s.signum_ = n - 1 := (signum_eq_iff s n hn1).mp hs
        have hst : ((SignalWorld.run ops).step (.destroy i)).st =
            (SignalWorld.run ops).st.unregister (n - 1) := by
          simp only [SignalWorld.step, hget, Signal.destroy, hs2]
          rw [if_pos (by omega)]
        apply construct_ok _ _ _ hn1 hn32
        rw [hst, unregister_is_init, if_pos rfl]
      · left
        simp [hs]

theorem C19_registration_table_invariant_witness :
    (SignalWorld.run [.construct (⟨3, true⟩, ⟨4, false⟩) 2]).objs.countP
        (fun s => decide (s.signum = 2)) ≤ 1
    ∧ (((SignalWorld.run [.construct (⟨3, true⟩, ⟨4, false⟩) 2]).st.notifier (2 - 1)).is_init
          = true ↔
        ∃ s ∈ (SignalWorld.run [.construct (⟨3, true⟩, ⟨4, false⟩) 2]).objs, s.signum = 2)
    ∧ ((SignalWorld.run [.construct (⟨3, true⟩, ⟨4, false⟩) 2]).objs[0]?.map Signal.signum
          ≠ some 2
      ∨ Signal.construct
          ((SignalWorld.run [.construct (⟨3, true⟩, ⟨4, false⟩) 2]).step (.destroy 0)).st
          (⟨5, true⟩, ⟨6, false⟩) 2 =
          ({ notifier := Function.update
                ((SignalWorld.run [.construct (⟨3, true⟩, ⟨4, false⟩) 2]).step
                  (.destroy 0)).st.notifier (2 - 1) ⟨true, (⟨5, true⟩, ⟨6, false⟩)⟩,
             handler_installed := Function.update
                ((SignalWorld.run [.construct (⟨3, true⟩, ⟨4, false⟩) 2]).step
                  (.destroy 0)).st.handler_installed 2 true },
            some ⟨2 - 1⟩)) :=
  C19_registration_table_invariant [.construct (⟨3, true⟩, ⟨4, false⟩) 2] 2 0
    (⟨5, true⟩, ⟨6, false⟩) (by decide) (by decide)

/-- C18: `Signal` construction fails exactly on misuse.  Either `signum < 1`,
`signum > 32` or slot `signum - 1` is already initialised, and the constructor
throws, leaving the table and the dispositions unchanged; or none of these
holds, and the constructor succeeds: slot `signum - 1` is initialised and holds
the pipe pair just created, the handler is installed for `signum`, and
`signum()` of the new object returns `signum`. -/
theorem C18_signal_construction (st : SignalState) (created : Pipe × Pipe) (signum : Int) :
    ((signum < 1 ∨ signum > 32 ∨ (st.notifier (signum - 1)).is_init = true)
      ∧ Signal.construct st created signum = (st, none))
    ∨ ((1 ≤ signum ∧ signum ≤ 32 ∧ (st.notifier (signum - 1)).is_init = false)
      ∧ (Signal.construct st created signum).2 = some ⟨signum - 1⟩
      ∧ Signal.signum ⟨signum - 1⟩ = signum
      ∧ (Signal.construct st created signum).1.notifier (signum - 1) = ⟨true, created⟩
      ∧ (Signal.construct st created signum).1.handler_installed signum = true) := by
  by_cases hr : signum < 1 ∨ signum > 32 ∨ (st.notifier (signum - 1)).is_init = true
  · exact Or.inl ⟨hr, construct_fail st created signum hr⟩
  · right
    have h1 : 1 ≤ signum := by omega
    have h2 : signum ≤ 32 := by omega
    have h3 : (st.notifier (signum - 1)).is_init = false := by
      cases hb : (st.notifier (signum - 1)).is_init
      · rfl
      · exact absurd (Or.inr (Or.inr hb)) hr
    rw [construct_ok st created signum h1 h2 h3]
    refine ⟨⟨h1, h2, h3⟩, rfl, ?_, ?_, ?_⟩
    · simp only [Signal.signum]
      split <;> omega
    · simp only [Function.update_same]
    · simp only [Function.update_same]

theorem invalid_signal_inert (st : SignalState) (s : Signal) (pid : Int)
    (sys_raise : Int → Int) (sys_kill : Int → Int → Int) (sys_poll : Int → Int × Bool)
    (h : s.signum_ < 0) :
    s.signum = -1 ∧ Signal.raise sys_raise s = (false, [])
    ∧ Signal.kill sys_kill s pid = (false, []) ∧ Signal.wait st sys_poll s = (false, []) := by
  simp only [Signal.signum, Signal.raise, Signal.kill, Signal.wait, h, if_true, and_self]

/-- C20: a move transfers a signal registration.  With `a` registered for `n`:
after `Signal b(std::move(a))`, and after `b = std::move(a)`, `b.signum()` is
`n`, `a.signum()` is `-1`, `a.raise()`, `a.kill(pid)` and `a.wait(d)` return
`false` without making a system call, and slot `n - 1` stays initialised; if
`b` was registered for a different number `m`, slot `m - 1` is uninitialised
and the disposition of `m` is the default afterwards; if `b` was invalid the
table is unchanged; and move-assigning from an invalid `Signal` leaves the
destination, the source and the table unchanged. -/
theorem C20_move_transfers_registration (st : SignalState) (a b inv : Signal) (n m pid : Int)
    (sys_raise : Int → Int) (sys_kill : Int → Int → Int) (sys_poll : Int → Int × Bool)
    (ha : a.signum_ = n - 1) (hn1 : 1 ≤ n) (hn32 : n ≤ 32)
    (hinit : (st.notifier (n - 1)).is_init = true)
    (hb : b.signum_ = m - 1) (hm1 : 1 ≤ m) (hm32 : m ≤ 32) (hmn : m ≠ n)
    (hinv : inv.signum_ < 0) :
    ((Signal.move_construct a).1.signum = n
      ∧ (Signal.move_construct a).2.signum = -1
      ∧ Signal.raise sys_raise (Signal.move_construct a).2 = (false, [])
      ∧ Signal.kill sys_kill (Signal.move_construct a).2 pid = (false, [])
      ∧ Signal.wait st sys_poll (Signal.move_construct a).2 = (false, []))
    ∧ ((Signal.move_assign st false b a).2.1.signum = n
      ∧ (Signal.move_assign st false b a).2.2.signum = -1
      ∧ Signal.raise sys_raise (Signal.move_assign st false b a).2.2 = (false, [])
      ∧ Signal.kill sys_kill (Signal.move_assign st false b a).2.2 pid = (false, [])
      ∧ Signal.wait (Signal.move_assign st false b a).1 sys_poll
          (Signal.move_assign st false b a).2.2 = (false, [])
      ∧ ((Signal.move_assign st false b a).1.notifier (n - 1)).is_init = true
      ∧ ((Signal.move_assign st false b a).1.notifier (m - 1)).is_init = false
      ∧ (Signal.move_assign st false b a).1.handler_installed m = false)
    ∧ ((Signal.move_assign st false inv a).2.1.signum = n
      ∧ (Signal.move_assign st false inv a).2.2.signum = -1
      ∧ (Signal.move_assign st false inv a).1 = st)
    ∧ Signal.move_assign st false b inv = (st, b, inv) := by
  have hav : a.signum_ ≥ 0 := by omega
  have hbv : b.signum_ ≥ 0 := by omega
  have hneg : ((-1 : Int) < 0) := by decide
  have hsn : Signal.signum ⟨a.signum_⟩ = n := by
    simp only [Signal.signum]
    split <;> omega
  have e1 : Signal.move_assign st false b a = (st.unregister b.signum_, ⟨a.signum_⟩, ⟨-1⟩) := by
    simp only [Signal.move_assign, hav, hbv, and_self, if_true]
  have e2 : Signal.move_assign st false inv a = (st, ⟨a.signum_⟩, ⟨-1⟩) := by
    have hi : ¬ inv.signum_ ≥ 0 := by omega
    simp only [Signal.move_assign, hav, hi, and_self, if_true, if_false]
  have e3 : Signal.move_assign st false b inv = (st, b, inv) := by
    have hi : ¬ inv.signum_ ≥ 0 := by omega
    simp only [Signal.move_assign, hi, and_false, if_false]
  refine ⟨⟨hsn, ?_⟩, ?_, ?_, e3⟩
  · exact invalid_signal_inert st ⟨-1⟩ pid sys_raise sys_kill sys_poll hneg
  · rw [e1]
    refine ⟨hsn, ?_⟩
    obtain ⟨i1, i2, i3, i4⟩ := invalid_signal_inert (st.unregister b.signum_) ⟨-1⟩ pid sys_raise
      sys_kill sys_poll hneg
    refine ⟨i1, i2, i3, i4, ?_, ?_, ?_⟩
    · rw [unregister_is_init, if_neg (by omega)]
      exact hinit
    · rw [unregister_is_init, if_pos hb.symm]
    · simp only [SignalState.unregister, hb, Int.sub_add_cancel, Function.update_same]
  · rw [e2]
    exact ⟨hsn, (invalid_signal_inert st ⟨-1⟩ pid sys_raise sys_kill sys_poll hneg).1, rfl⟩

theorem C20_move_transfers_registration_witness :
    ((Signal.move_construct ⟨1⟩).1.signum = 2
      ∧ (Signal.move_construct ⟨1⟩).2.signum = -1
      ∧ Signal.raise (fun _ => 0) (Signal.move_construct ⟨1⟩).2 = (false, [])
      ∧ Signal.kill (fun _ _ => 0) (Signal.move_construct ⟨1⟩).2 7 = (false, [])
      ∧ Signal.wait SignalState.with_2_3 (fun _ => (1, true)) (Signal.move_construct ⟨1⟩).2
          = (false, []))
    ∧ ((Signal.move_assign SignalState.with_2_3 false ⟨2⟩ ⟨1⟩).2.1.signum = 2
      ∧ (Signal.move_assign SignalState.with_2_3 false ⟨2⟩ ⟨1⟩).2.2.signum = -1
      ∧ Signal.raise (fun _ => 0) (Signal.move_assign SignalState.with_2_3 false ⟨2⟩ ⟨1⟩).2.2
          = (false, [])
      ∧ Signal.kill (fun _ _ => 0) (Signal.move_assign SignalState.with_2_3 false ⟨2⟩ ⟨1⟩).2.2 7
          = (false, [])
      ∧ Signal.wait (Signal.move_assign SignalState.with_2_3 false ⟨2⟩ ⟨1⟩).1
          (fun _ => (1, true)) (Signal.move_assign SignalState.with_2_3 false ⟨2⟩ ⟨1⟩).2.2
          = (false, [])
      ∧ ((Signal.move_assign SignalState.with_2_3 false ⟨2⟩ ⟨1⟩).1.notifier (2 - 1)).is_init
          = true
      ∧ ((Signal.move_assign SignalState.with_2_3 false ⟨2⟩ ⟨1⟩).1.notifier (3 - 1)).is_init
          = false
      ∧ (Signal.move_assign SignalState.with_2_3 false ⟨2⟩ ⟨1⟩).1.handler_installed 3 = false)
    ∧ ((Signal.move_assign SignalState.with_2_3 false ⟨-1⟩ ⟨1⟩).2.1.signum = 2
      ∧ (Signal.move_assign SignalState.with_2_3 false ⟨-1⟩ ⟨1⟩).2.2.signum = -1
      ∧ (Signal.move_assign SignalState.with_2_3 false ⟨-1⟩ ⟨1⟩).1 = SignalState.with_2_3)
    ∧ Signal.move_assign SignalState.with_2_3 false ⟨2⟩ ⟨-1⟩ =
        (SignalState.with_2_3, ⟨2⟩, ⟨-1⟩) :=
  C20_move_transfers_registration SignalState.with_2_3 ⟨1⟩ ⟨2⟩ ⟨-1⟩ 2 3 7 (fun _ => 0)
    (fun _ _ => 0) (fun _ => (1, true)) (by decide) (by decide) (by decide) (by decide)
    (by decide) (by decide) (by decide) (by decide) (by decide)

/-! ## Pipes and named pipes -/

theorem lookup_append_left (l l2 : List (Int × Nat)) (a : Int) (k : Nat)
    (h : List.lookup a l = some k) : List.lookup a (l ++ l2) = some k := by
  induction l with
  | nil => simp at h
  | cons e l ih =>
    obtain ⟨x, y⟩ := e
    simp only [List.cons_append, List.lookup_cons] at h ⊢
    cases hb : (a == x)
    · rw [hb] at h
      exact ih h
    · rw [hb] at h
      exact h

/-- C26 (as amended): tagging by the pipe factory.  When the underlying `pipe` call
succeeds, element 0 of the returned pair reports `is_read_end()` and element 1
reports `is_write_end()`, both are valid, and they hold two different
descriptors, `fds[0]` and `fds[1]`, open on the same new pipe.  When it fails,
both elements are the default `Pipe`: invalid, and both reporting
`is_write_end()`, the table being unchanged. -/
theorem C26_pipe_factory (t : FdTable) (obj : Nat) (g0 g1 : Int) :
    ((Pipe.create t false obj g0 g1).2.1.is_read_end = true
      ∧ (Pipe.create t false obj g0 g1).2.2.is_write_end = true
      ∧ (Pipe.create t false obj g0 g1).2.1.ok = true
      ∧ (Pipe.create t false obj g0 g1).2.2.ok = true
      ∧ (Pipe.create t false obj g0 g1).2.1.fd_ = (sys_pipe t false obj g0 g1).2.2.1
      ∧ (Pipe.create t false obj g0 g1).2.2.fd_ = (sys_pipe t false obj g0 g1).2.2.2
      ∧ (Pipe.create t false obj g0 g1).2.1.fd_ ≠ (Pipe.create t false obj g0 g1).2.2.fd_
      ∧ (Pipe.create t false obj g0 g1).1.file_of (Pipe.create t false obj g0 g1).2.1.fd_
          = some obj
      ∧ (Pipe.create t false obj g0 g1).1.file_of (Pipe.create t false obj g0 g1).2.2.fd_
          = some obj)
    ∧ (Pipe.create t true obj g0 g1 = (t, Pipe.default, Pipe.default)
      ∧ Pipe.default.ok = false
      ∧ Pipe.default.is_write_end = true
      ∧ Pipe.default.is_read_end = false) := by
  have hf1 := fresh_not_open t
  have hn1 := fresh_nonneg t
  have hf2 := fresh_not_open (FdTable.mk (t.entries ++ [(t.fresh, obj)]) t.closed t.dupped)
  have hn2 := fresh_nonneg (FdTable.mk (t.entries ++ [(t.fresh, obj)]) t.closed t.dupped)
  have hmem : t.fresh ∈ (t.entries ++ [(t.fresh, obj)]).map Prod.fst := by simp
  have hc : Pipe.create t false obj g0 g1 =
      (FdTable.mk (t.entries ++ [(t.fresh, obj)] ++
          [(FdTable.fresh (FdTable.mk (t.entries ++ [(t.fresh, obj)]) t.closed t.dupped), obj)])
          t.closed t.dupped,
        Pipe.of_fd t.fresh true,
        Pipe.of_fd (FdTable.fresh (FdTable.mk (t.entries ++ [(t.fresh, obj)]) t.closed
          t.dupped)) false) := by
    simp [Pipe.create, sys_pipe]
  refine ⟨?_, ?_⟩
  · rw [hc]
    refine ⟨rfl, rfl, ?_, ?_, ?_, ?_, ?_, ?_, ?_⟩
    · simp [Pipe.ok, Pipe.toFile, Pipe.of_fd, File.ok, hn1]
    · simp [Pipe.ok, Pipe.toFile, Pipe.of_fd, File.ok, hn2]
    · simp [sys_pipe, Pipe.of_fd]
    · simp [sys_pipe, Pipe.of_fd]
    · intro e
      simp only [Pipe.of_fd] at e
      exact hf2 (e ▸ hmem)
    · simp only [FdTable.file_of, Pipe.of_fd]
      exact lookup_append_left _ _ _ _ (lookup_append_fresh t.entries t.fresh obj hf1)
    · simp only [FdTable.file_of, Pipe.of_fd]
      exact lookup_append_fresh _ _ obj hf2
  · refine ⟨?_, by decide, by decide, by decide⟩
    simp [Pipe.create, sys_pipe]

/-- C26 (counterexample): when the `pipe` call fails, element 0 of the pair returned
by `Pipe::create` does not report `is_read_end()`. -/
theorem C26_failed_create_not_read_end :
    (Pipe.create table_0_5 true 12 0 0).2.1.is_read_end = false
    ∧ (Pipe.create table_0_5 true 12 0 0).2.1.is_write_end = true := by
  decide

/-- C28: opening and metadata of a `Fifo`.  For every pathname, mode and nonblocking
flag the constructor calls `mkfifo` on the path and then `open` on the same
path, with flags `O_RDONLY` when the mode is `READ` and `O_WRONLY` when it is
`WRITE`, or-ed with `O_NONBLOCK` if and only if `nonblocking` is true, the
access mode never being `O_RDWR`; afterwards `pathname()` and `mode()` return
the constructor's arguments whatever `open` returned; and copy construction and
copy assignment give the destination the pathname and mode of the source. -/
theorem C28_fifo_open_and_metadata (sys_open : String → Nat → Int) (pathname : String)
    (mode : FifoMode) (nonblocking : Bool) (t : FdTable) (src dst : Fifo) :
    ((Fifo.construct sys_open pathname mode nonblocking).2 =
        [FsCall.mkfifo pathname 0o666,
          FsCall.open_path pathname
            ((match mode with
              | FifoMode.READ => O_RDONLY
              | FifoMode.WRITE => O_WRONLY) ||| (if nonblocking then O_NONBLOCK else 0))]
      ∧ ((match mode with
            | FifoMode.READ => O_RDONLY
            | FifoMode.WRITE => O_WRONLY) ||| (if nonblocking then O_NONBLOCK else 0))
          &&& O_ACCMODE ≠ O_RDWR
      ∧ (Fifo.construct sys_open pathname mode nonblocking).1.pathname = pathname
      ∧ (Fifo.construct sys_open pathname mode nonblocking).1.mode = mode)
    ∧ ((Fifo.copy_construct t src).2.pathname = src.pathname
      ∧ (Fifo.copy_construct t src).2.mode = src.mode
      ∧ (Fifo.copy_assign t false dst src).2.pathname = src.pathname
      ∧ (Fifo.copy_assign t false dst src).2.mode = src.mode
      ∧ (Fifo.copy_assign t true src src).2 = src) := by
  refine ⟨⟨?_, ?_, rfl, rfl⟩, ?_, ?_, ?_, ?_, ?_⟩
  · cases mode <;> cases nonblocking <;> simp [Fifo.construct]
  · cases mode <;> cases nonblocking <;> decide
  · simp only [Fifo.copy_construct]
    split <;> rfl
  · simp only [Fifo.copy_construct]
    split <;> rfl
  · simp only [Fifo.copy_assign, Bool.false_eq_true, if_false]
    split <;> rfl
  · simp only [Fifo.copy_assign, Bool.false_eq_true, if_false]
    split <;> rfl
  · simp only [Fifo.copy_assign, if_true]

/-! ## The robot link -/

theorem drive_cmd_bytes_length (cmd : drive_cmd_t) : cmd.bytes.length = 20 := by
  simp [drive_cmd_t.bytes, le_bytes_length]

/-- C29: `drive` always emits one well-formed velocity frame.  For every drive
command, every descriptor and every prior content of the 28-byte local array:
the `encode_msg` call returns `0`, its payload is the 20 bytes of the packed
`drive_cmd_t`, and `drive` makes exactly one `write` call, between locking and
unlocking the mutex, whose bytes are the 28-byte frame `FF FE 14 00 EB D6 00`,
the payload, and the checksum of `D6 00` and the payload. -/
theorem C29_drive_frame (st : RobotState) (stack : List Byte) (cmd : drive_cmd_t)
    (hstack : stack.length = sizeof_drive_cmd_t + ROS_PKG_LENGTH) :
    (drive st stack cmd).1 = 0
    ∧ cmd.bytes.length = 20
    ∧ (drive st stack cmd).2 =
        [RobotAction.mutex_lock,
          RobotAction.write st.robot_fd
            ([0xFF, 0xFE, 0x14, 0x00, 0xEB, 0xD6, 0x00] ++ cmd.bytes ++
              [checksum ([0xD6, 0x00] ++ cmd.bytes) 22]),
          RobotAction.mutex_unlock]
    ∧ ([0xFF, 0xFE, 0x14, 0x00, 0xEB, 0xD6, 0x00] ++ cmd.bytes ++
        [checksum ([0xD6, 0x00] ++ cmd.bytes) 22]).length = 28 := by
  have hlen := drive_cmd_bytes_length cmd
  have h := encode_msg_layout cmd.bytes stack 214 (by omega)
    (by rw [hstack, hlen]; rfl)
  rw [hlen] at h
  have e1 : u8_of_int (((20 : Nat) : Int) % 256) = 0x14 := by decide
  have e2 : u8_of_int (((20 : Nat) : Int) / 256) = 0x00 := by decide
  have e3 : checksum [(0x14 : Byte), 0x00] 2 = 0xEB := by decide
  have e4 : u8_of_nat (214 % 256) = 0xD6 := by decide
  have e5 : u8_of_nat (214 / 256) = 0x00 := by decide
  rw [e1, e2, e3, e4, e5] at h
  have h' : encode_msg cmd.bytes (sizeof_drive_cmd_t : Nat) MBOT_VEL_CMD stack
      ((sizeof_drive_cmd_t + ROS_PKG_LENGTH : Nat) : Int) =
      (0, [0xFF, 0xFE, 0x14, 0x00, 0xEB, 0xD6, 0x00] ++ cmd.bytes ++
        [checksum ([0xD6, 0x00] ++ cmd.bytes) 22]) := h
  have hl : ([0xFF, 0xFE, 0x14, 0x00, 0xEB, 0xD6, 0x00] ++ cmd.bytes ++
      [checksum ([0xD6, 0x00] ++ cmd.bytes) 22]).length = 28 := by
    simp [hlen]
  refine ⟨?_, hlen, ?_, hl⟩
  · simp only [drive, h']
  · simp only [drive, h']
    have ht : sizeof_drive_cmd_t + ROS_PKG_LENGTH = 28 := rfl
    rw [ht, ← hl, List.take_length]

set_option maxRecDepth 8000 in
theorem C29_drive_frame_witness :
    (drive ⟨false, 0, 1⟩ (List.replicate 28 0) ⟨0, 0x3F000000, 0, 0⟩).2 =
      [RobotAction.mutex_lock,
        RobotAction.write 1
          [0xFF, 0xFE, 0x14, 0x00, 0xEB, 0xD6, 0x00,
            0, 0, 0, 0, 0, 0, 0, 0, 0, 0, 0, 0x3F, 0, 0, 0, 0, 0, 0, 0, 0, 0xEA],
        RobotAction.mutex_unlock] :=
  (C29_drive_frame ⟨false, 0, 1⟩ (List.replicate 28 0) ⟨0, 0x3F000000, 0, 0⟩
    (by decide)).2.2.1.trans (by decide)

/-- C30 (as amended): teardown order.  The effects of `deinit_mbot` are, in this
order: set the stop flag; join the time-sync thread, if and only if
`use_serial_flag`, which the last `init_mbot` call set to its argument, is
non-zero; close the robot descriptor; destroy the mutex.  `init_mbot` returns `0`
exactly when `use_serial` is zero or the serial port was opened and configured,
and it creates the time-sync thread if and only if `use_serial` is non-zero and
it returns `0`; when it returns `-1` no thread is created, while
`use_serial_flag` is set all the same. -/
theorem C30_teardown_order (st : RobotState) (use_serial open_result tcgetattr_result : Int) :
    (deinit_mbot st).2 =
        [RobotAction.set_stop_flag] ++
          (if st.use_serial_flag ≠ 0 then [RobotAction.thread_join] else []) ++
          [RobotAction.close st.robot_fd, RobotAction.mutex_destroy]
    ∧ (deinit_mbot st).1.stop_timesync_flag = true
    ∧ (init_mbot st use_serial open_result tcgetattr_result).2.1.use_serial_flag = use_serial
    ∧ ((init_mbot st use_serial open_result tcgetattr_result).1 = 0 ↔
        (use_serial = 0 ∨ (0 ≤ open_result ∧ tcgetattr_result = 0)))
    ∧ ((init_mbot st use_serial open_result tcgetattr_result).1 = 0 ∨
        (init_mbot st use_serial open_result tcgetattr_result).1 = -1)
    ∧ (RobotAction.thread_create ∈ (init_mbot st use_serial open_result tcgetattr_result).2.2 ↔
        (use_serial ≠ 0 ∧ (init_mbot st use_serial open_result tcgetattr_result).1 = 0)) := by
  refine ⟨rfl, rfl, ?_, ?_, ?_, ?_⟩
  all_goals
    simp only [init_mbot]
    by_cases hu : use_serial = 0
    · simp [hu]
    · by_cases ho : open_result < 0
      · simp [hu, ho]
        try omega
      · by_cases hg : tcgetattr_result = 0
        · simp [hu, ho, hg]
          try omega
        · simp [hu, ho, hg]

/-- C30 (counterexample): called with `use_serial = 1` when the serial port cannot
be opened, `init_mbot` returns `-1` and has not created the time-sync thread,
and a following `deinit_mbot` still joins it. -/
theorem C30_failed_init_starts_no_thread :
    (init_mbot ⟨false, 0, 0⟩ 1 (-1) 0).1 = -1
    ∧ RobotAction.thread_create ∉ (init_mbot ⟨false, 0, 0⟩ 1 (-1) 0).2.2
    ∧ RobotAction.thread_join ∈ (deinit_mbot (init_mbot ⟨false, 0, 0⟩ 1 (-1) 0).2.1).2 := by
  decide

/-! ## Delivery and consumption through the self-pipe -/

theorem iteration_finished (ops : Message Twist2DStamped) (dflt : Twist2DStamped)
    (buffer : List Byte) (reads : List (Int × List Byte)) (s : DriverStep)
    (h : MBotDriver.iteration ops dflt buffer reads = some s) (hf : s.finished = true) :
    s.events = [DriverEvent.read 4 0, DriverEvent.drive (MBotDriver.stop_cmd dflt),
      DriverEvent.returned] := by
  cases reads with
  | nil => simp [MBotDriver.iteration] at h
  | cons rd1 reads1 =>
    simp only [MBotDriver.iteration] at h
    split at h
    · cases h; rfl
    · split at h
      · cases h; cases hf
      · split at h
        · cases h; cases hf
        · split at h
          · cases h
          · split at h
            · cases h; cases hf
            · split at h
              · cases h; cases hf
              · cases h; cases hf

theorem iteration_continues (ops : Message Twist2DStamped) (dflt : Twist2DStamped)
    (buffer : List Byte) (reads : List (Int × List Byte)) (s : DriverStep)
    (h : MBotDriver.iteration ops dflt buffer reads = some s) (hf : s.finished = false) :
    DriverEvent.returned ∉ s.events ∧ DriverEvent.is_ready true ∉ s.events := by
  cases reads with
  | nil => simp [MBotDriver.iteration] at h
  | cons rd1 reads1 =>
    simp only [MBotDriver.iteration] at h
    split at h
    · cases h; cases hf
    · split at h
      · cases h; simp
      · split at h
        · cases h; simp
        · split at h
          · cases h
          · split at h
            · cases h; simp
            · split at h
              · cases h; simp
              · cases h; simp

theorem driver_spin_end (ops : Message Twist2DStamped) (dflt : Twist2DStamped)
    (ready : List Bool) (reads : List (Int × List Byte)) (buffer : List Byte)
    (tr : List DriverEvent) (h : MBotDriver.spin ops dflt ready reads buffer = some tr) :
    ∃ body x, tr = body ++ [x, DriverEvent.drive (MBotDriver.stop_cmd dflt), DriverEvent.returned]
      ∧ (x = DriverEvent.is_ready true ∨ x = DriverEvent.read 4 0)
      ∧ DriverEvent.returned ∉ body ∧ DriverEvent.is_ready true ∉ body := by
  induction ready generalizing reads buffer tr with
  | nil => simp [MBotDriver.spin] at h
  | cons r ready ih =>
    cases r with
    | true =>
      simp only [MBotDriver.spin, Option.some.injEq] at h
      subst h
      exact ⟨[], DriverEvent.is_ready true, rfl, Or.inl rfl, by simp, by simp⟩
    | false =>
      simp only [MBotDriver.spin] at h
      cases hit : MBotDriver.iteration ops dflt buffer reads with
      | none => simp [hit] at h
      | some s =>
        simp only [hit] at h
        cases hf : s.finished with
        | true =>
          simp only [hf, if_true, Option.some.injEq] at h
          subst h
          rw [iteration_finished ops dflt buffer reads s hit hf]
          exact ⟨[DriverEvent.is_ready false], DriverEvent.read 4 0, rfl, Or.inr rfl,
            by simp, by simp⟩
        | false =>
          simp only [hf, Bool.false_eq_true, if_false] at h
          cases hsp : MBotDriver.spin ops dflt ready s.reads s.buffer with
          | none => simp [hsp] at h
          | some tr1 =>
            simp only [hsp, Option.some.injEq] at h
            subst h
            obtain ⟨body, x, hb, hx, h1, h2⟩ := ih s.reads s.buffer tr1 hsp
            obtain ⟨g1, g2⟩ := iteration_continues ops dflt buffer reads s hit hf
            refine ⟨DriverEvent.is_ready false :: (s.events ++ body), x, ?_, hx, ?_, ?_⟩
            · rw [hb]
              simp
            · simp [g1, h1]
            · simp [g2, h2]

/-- C22: the driver stops the robot before exiting.  Every run of
`MBotDriver::spin` that returns ends with, in this order, the event that caused
the exit, which is either a notification check reporting ready or a `read` of
the 4-byte length returning `0`, one `drive` call with the stop command, whose
`vx`, `vy` and `wz` are zero, and the return; before these there is no return
and no notification check reporting ready, so that a check reporting ready is
followed by the stop command without any `read` in between. -/
theorem C22_driver_stops_before_exit (ops : Message Twist2DStamped) (dflt : Twist2DStamped)
    (ready : List Bool) (reads : List (Int × List Byte)) (buffer : List Byte)
    (tr : List DriverEvent) (h : MBotDriver.spin ops dflt ready reads buffer = some tr) :
    (∃ body x,
      tr = body ++ [x, DriverEvent.drive (MBotDriver.stop_cmd dflt), DriverEvent.returned]
      ∧ (x = DriverEvent.is_ready true ∨ x = DriverEvent.read 4 0)
      ∧ DriverEvent.returned ∉ body ∧ DriverEvent.is_ready true ∉ body)
    ∧ (MBotDriver.stop_cmd dflt).vx = 0
    ∧ (MBotDriver.stop_cmd dflt).vy = 0
    ∧ (MBotDriver.stop_cmd dflt).wz = 0 :=
  ⟨driver_spin_end ops dflt ready reads buffer tr h, rfl, rfl, rfl⟩

theorem C22_driver_stops_before_exit_witness :
    MBotDriver.spin twist2DStampedMsg ⟨0, [], (0, 0), 0, 0, 0⟩ [false, false, true]
        [(3, [1, 2, 3]), (0, [])] [0, 0, 0, 0, 0, 0, 0, 0] =
      some [DriverEvent.is_ready false, DriverEvent.read 4 3, DriverEvent.is_ready false,
        DriverEvent.read 4 0, DriverEvent.drive ⟨0, [], (0, 0), 0, 0, 0⟩, DriverEvent.returned]
    ∧ ∃ body x,
      [DriverEvent.is_ready false, DriverEvent.read 4 3, DriverEvent.is_ready false,
        DriverEvent.read 4 0, DriverEvent.drive ⟨0, [], (0, 0), 0, 0, 0⟩, DriverEvent.returned] =
        body ++ [x, DriverEvent.drive (MBotDriver.stop_cmd ⟨0, [], (0, 0), 0, 0, 0⟩),
          DriverEvent.returned]
      ∧ (x = DriverEvent.is_ready true ∨ x = DriverEvent.read 4 0)
      ∧ DriverEvent.returned ∉ body ∧ DriverEvent.is_ready true ∉ body :=
  ⟨by decide,
    (C22_driver_stops_before_exit twist2DStampedMsg ⟨0, [], (0, 0), 0, 0, 0⟩
      [false, false, true] [(3, [1, 2, 3]), (0, [])] [0, 0, 0, 0, 0, 0, 0, 0] _
      (by decide)).1⟩

theorem teleop_spin_end {D : Type} (ar : DoubleOps D) (ops : Message Twist2DStamped)
    (dflt : Twist2DStamped) (linear_speed angular_speed : D) (stack : List Byte)
    (now : Nat → Nat × Nat) (ready : List Bool) (reads : List (Int × List Byte)) (seq : Nat)
    (buffer : List Byte) (k : Nat) (tr : List TeleopEvent)
    (h : TeleopKeyboard.spin ar ops dflt linear_speed angular_speed stack now ready reads seq
      buffer k = some tr) :
    ∃ body, tr = body ++ [TeleopEvent.is_ready true, TeleopEvent.returned]
      ∧ TeleopEvent.returned ∉ body ∧ TeleopEvent.is_ready true ∉ body := by
  induction ready generalizing reads seq buffer k tr with
  | nil => simp [TeleopKeyboard.spin] at h
  | cons r ready ih =>
    cases r with
    | true =>
      simp only [TeleopKeyboard.spin, Option.some.injEq] at h
      subst h
      exact ⟨[], rfl, by simp, by simp⟩
    | false =>
      cases reads with
      | nil => simp [TeleopKeyboard.spin] at h
      | cons rd reads1 =>
        simp only [TeleopKeyboard.spin] at h
        split at h
        · cases h
        · rename_i tr1 hsp
          simp only [Option.some.injEq] at h
          subst h
          obtain ⟨body, hb, h1, h2⟩ := ih _ _ _ _ _ hsp
          have hev : TeleopEvent.returned ∉
              (TeleopKeyboard.iteration ar ops dflt linear_speed angular_speed stack seq buffer
                rd (now k)).events
            ∧ TeleopEvent.is_ready true ∉
              (TeleopKeyboard.iteration ar ops dflt linear_speed angular_speed stack seq buffer
                rd (now k)).events := by
            simp only [TeleopKeyboard.iteration]
            split
            · simp
            · split <;> simp
          refine ⟨TeleopEvent.is_ready false :: ((TeleopKeyboard.iteration ar ops dflt
            linear_speed angular_speed stack seq buffer rd (now k)).events ++ body), ?_, ?_, ?_⟩
          · rw [hb]
            simp
          · simp [hev.1, h1]
          · simp [hev.2, h2]

/-- C23 (failing input): with the notification ready at the first check, the run
of `TeleopKeyboard::spin` is the check and the return: it contains no `write`,
so no zero-velocity frame reaches its output, whereas `MBotDriver::spin` on a
notification that is ready calls `drive` with the stop command before it
returns. -/
theorem C23_teleop_writes_no_stop_frame :
    TeleopKeyboard.spin halvesOps twist2DStampedMsg ⟨0, [], (0, 0), 0, 0, 0⟩ 1 3
        (List.replicate 64 0) (fun _ => (0, 0)) [true] [] 0 [0] 0 =
      some [TeleopEvent.is_ready true, TeleopEvent.returned]
    ∧ ([TeleopEvent.is_ready true, TeleopEvent.returned].filter
        (fun e => match e with
          | TeleopEvent.write _ => true
          | _ => false)).length = 0
    ∧ MBotDriver.spin twist2DStampedMsg ⟨0, [], (0, 0), 0, 0, 0⟩ [true] [] [0] =
      some [DriverEvent.is_ready true,
        DriverEvent.drive (MBotDriver.stop_cmd ⟨0, [], (0, 0), 0, 0, 0⟩),
        DriverEvent.returned] := by
  decide

/-! ## The wire form of the velocity message -/

theorem serialize_number_splice (w : Nat) (dst : List Byte) (o x : Nat)
    (hfit : o + w ≤ dst.length) (hbuf : dst.length < SIZE_MOD) :
    serialize_number w dst o x = (splice dst o (le_bytes w x), o + w) := by
  have h1 : (o + w) % SIZE_MOD = o + w := Nat.mod_eq_of_lt (by omega)
  simp only [serialize_number, h1]
  rw [memcpy_to_eq dst o _ (by rw [le_bytes_length]; exact hfit), splice]

theorem wire_twist_length (m : Twist2DStamped) :
    (wire_twist m).length = 28 + m.frame_id.length := by
  simp only [wire_twist, List.length_append, le_bytes_length, wire_string_length,
    flatMap_le_bytes_length, List.length_cons, List.length_nil]
  omega

theorem twist_serialize (m : Twist2DStamped) (dst : List Byte) (o : Nat)
    (hfit : o + (wire_twist m).length ≤ dst.length) (hbuf : dst.length < SIZE_MOD) :
    twist2DStampedMsg.serialize m dst o = (splice dst o (wire_twist m), o + (wire_twist m).length) := by
  rw [wire_twist_length] at hfit
  have hA : (le_bytes 4 m.seq).length = 4 := le_bytes_length 4 m.seq
  have hB : (wire_string m.frame_id).length = 4 + m.frame_id.length := wire_string_length _
  have hC : ([m.stamp.1, m.stamp.2, m.vx, m.vy, m.wz].flatMap (le_bytes 4)).length = 20 := by
    rw [flatMap_le_bytes_length]
    rfl
  have s1 := serialize_number_splice 4 dst o m.seq (by omega) hbuf
  have l1 : (splice dst o (le_bytes 4 m.seq)).length = dst.length :=
    splice_length dst o _ (by omega)
  have s2 := serialize_string_splice (splice dst o (le_bytes 4 m.seq)) m.frame_id (o + 4)
    (by omega) (by omega)
  have c12 := splice_splice dst o (le_bytes 4 m.seq) (wire_string m.frame_id) (by omega)
  rw [hA] at c12
  rw [c12, hB] at s2
  have l2 : (splice dst o (le_bytes 4 m.seq ++ wire_string m.frame_id)).length = dst.length :=
    splice_length dst o _ (by rw [List.length_append, hA, hB]; omega)
  have s3 := serialize_number_array_splice 4 [m.stamp.1, m.stamp.2, m.vx, m.vy, m.wz]
    (splice dst o (le_bytes 4 m.seq ++ wire_string m.frame_id)) (o + 4 + (4 + m.frame_id.length))
    (by simp only [List.length_cons, List.length_nil]; omega) (by omega)
  have c23 := splice_splice dst o (le_bytes 4 m.seq ++ wire_string m.frame_id)
    ([m.stamp.1, m.stamp.2, m.vx, m.vy, m.wz].flatMap (le_bytes 4))
    (by rw [List.length_append, hA, hB]; omega)
  rw [List.length_append, hA, hB, ← Nat.add_assoc] at c23
  have e : o + 4 + (4 + m.frame_id.length) = o + 4 + 4 + m.frame_id.length := by omega
  rw [e] at c23 s3
  rw [c23] at s3
  have hw : wire_twist m = le_bytes 4 m.seq ++ wire_string m.frame_id ++
      [m.stamp.1, m.stamp.2, m.vx, m.vy, m.wz].flatMap (le_bytes 4) := by
    simp only [wire_twist, List.append_assoc]
  have hl := wire_twist_length m
  rw [hl, hw]
  simp only [twist2DStampedMsg, s1, s2, e, s3, List.length_cons, List.length_nil]
  refine Prod.ext rfl ?_
  simp only
  omega

theorem twist_deserialize (m prev : Twist2DStamped) (pre post : List Byte) (size : Nat)
    (hseq : m.seq < U32_MOD) (hfid : m.frame_id.length < U32_MOD)
    (hs1 : m.stamp.1 < U32_MOD) (hs2 : m.stamp.2 < U32_MOD)
    (hvx : m.vx < U32_MOD) (hvy : m.vy < U32_MOD) (hwz : m.wz < U32_MOD)
    (hsize : pre.length + (wire_twist m).length ≤ size) (hlt : size < SIZE_MOD) :
    twist2DStampedMsg.deserialize prev (pre ++ wire_twist m ++ post) size pre.length =
      (true, m, pre.length + (wire_twist m).length) := by
  rw [wire_twist_length] at hsize ⊢
  have h256 : (256 : Nat) ^ 4 = U32_MOD := by decide
  have e1 : pre ++ wire_twist m ++ post =
      pre ++ le_bytes 4 m.seq ++ (wire_string m.frame_id ++
        [m.stamp.1, m.stamp.2, m.vx, m.vy, m.wz].flatMap (le_bytes 4) ++ post) := by
    simp only [wire_twist, List.append_assoc]
  have e2 : pre ++ wire_twist m ++ post =
      (pre ++ le_bytes 4 m.seq) ++ (le_bytes 4 m.frame_id.length ++ m.frame_id) ++
        ([m.stamp.1, m.stamp.2, m.vx, m.vy, m.wz].flatMap (le_bytes 4) ++ post) := by
    simp only [wire_twist, wire_string, List.append_assoc]
  have e3 : pre ++ wire_twist m ++ post =
      (pre ++ le_bytes 4 m.seq ++ wire_string m.frame_id) ++
        [m.stamp.1, m.stamp.2, m.vx, m.vy, m.wz].flatMap (le_bytes 4) ++ post := by
    simp only [wire_twist, List.append_assoc]
  have r1 : deserialize_number 4 prev.seq (pre ++ wire_twist m ++ post) size pre.length =
      (true, m.seq, pre.length + 4) := by
    rw [e1, deserialize_number_mid pre (le_bytes 4 m.seq) _ 4 prev.seq size pre.length rfl
      (le_bytes_length 4 m.seq).symm (by omega) (by omega),
      le_value_le_bytes_of_lt 4 m.seq (by rw [h256]; exact hseq)]
  have r2 : deserialize_string prev.frame_id (pre ++ wire_twist m ++ post) size
      (pre.length + 4) = (true, m.frame_id, pre.length + 4 + 4 + m.frame_id.length) := by
    rw [e2]
    exact deserialize_string_wire (pre ++ le_bytes 4 m.seq) m.frame_id _ prev.frame_id
      m.frame_id.length size (pre.length + 4)
      (by rw [List.length_append, le_bytes_length])
      (Nat.mod_eq_of_lt hfid) (by omega) (by omega)
  have r3 : deserialize_number_array 4 [prev.stamp.1, prev.stamp.2, prev.vx, prev.vy, prev.wz]
      (pre ++ wire_twist m ++ post) size (pre.length + 4 + 4 + m.frame_id.length) =
      (true, [m.stamp.1, m.stamp.2, m.vx, m.vy, m.wz],
        pre.length + 4 + 4 + m.frame_id.length + 5 * 4) := by
    rw [e3]
    exact deserialize_number_array_wire 4 [m.stamp.1, m.stamp.2, m.vx, m.vy, m.wz] _
      (pre ++ le_bytes 4 m.seq ++ wire_string m.frame_id) post size
      (pre.length + 4 + 4 + m.frame_id.length)
      (by simp only [List.length_append, le_bytes_length, wire_string_length]; omega)
      rfl
      (by
        intro x hx
        rw [h256]
        simp only [List.mem_cons, List.mem_singleton, List.not_mem_nil, or_false] at hx
        rcases hx with rfl | rfl | rfl | rfl | rfl <;> assumption)
      (by simp only [List.length_cons, List.length_nil]; omega)
      (by simp only [List.length_cons, List.length_nil]; omega)
  simp only [twist2DStampedMsg, r1, r2, r3, Bool.true_eq_false, if_false]
  refine Prod.ext rfl (Prod.ext ?_ ?_)
  · cases m
    rfl
  · simp only
    omega

theorem twist_encodes (m : Twist2DStamped)
    (hseq : m.seq < U32_MOD) (hfid : m.frame_id.length + 28 < U32_MOD)
    (hs1 : m.stamp.1 < U32_MOD) (hs2 : m.stamp.2 < U32_MOD)
    (hvx : m.vx < U32_MOD) (hvy : m.vy < U32_MOD) (hwz : m.wz < U32_MOD) :
    twist2DStampedMsg.encodes m (wire_twist m) := by
  refine ⟨?_, ?_, ?_⟩
  · rw [wire_twist_length]
    have h1 : (4 + m.frame_id.length) % U32_MOD = 4 + m.frame_id.length :=
      Nat.mod_eq_of_lt (by omega)
    simp only [twist2DStampedMsg, size_string, h1]
    rw [Nat.mod_eq_of_lt (by omega)]
    omega
  · intro dst o hfit hbuf
    exact twist_serialize m dst o hfit hbuf
  · intro prev pre post size hsize hlt
    exact twist_deserialize m prev pre post size hseq (by omega) hs1 hs2 hvx hvy hwz hsize hlt

/-! ## The key table of the teleoperation loop -/

theorem teleop_key_stored (buffer : List Byte) (c : Byte) (h : 0 < buffer.length) :
    (memcpy_to buffer 0 ([c].take 1)).getD 0 0 = c := by
  cases buffer with
  | nil => simp at h
  | cons b bs => simp [memcpy_to]

theorem teleop_iteration_events {D : Type} (ar : DoubleOps D) (ops : Message Twist2DStamped)
    (dflt : Twist2DStamped) (linear_speed angular_speed : D) (stack : List Byte) (seq : Nat)
    (buffer : List Byte) (c : Byte) (now : Nat × Nat) (hbuf : 0 < buffer.length) :
    (TeleopKeyboard.iteration ar ops dflt linear_speed angular_speed stack seq buffer
      (1, [c]) now).events =
      match TeleopKeyboard.velocities ar linear_speed angular_speed c with
      | none => [TeleopEvent.read 1 1]
      | some v =>
        [TeleopEvent.read 1 1,
          TeleopEvent.write (TeleopKeyboard.frame ops stack
            (TeleopKeyboard.make_cmd ar dflt seq now v))] := by
  have hb := teleop_key_stored buffer c hbuf
  simp only [TeleopKeyboard.iteration, ne_eq, not_true_eq_false, if_false, hb]
  cases TeleopKeyboard.velocities ar linear_speed angular_speed c <;> rfl

theorem read_store (buffer data : List Byte) (n : Nat) (hd : data.length = n)
    (hfit : n ≤ buffer.length) : memcpy_to buffer 0 (data.take n) = data ++ buffer.drop n := by
  rw [List.take_of_length_le (by omega), memcpy_to_eq buffer 0 data (by omega)]
  simp [hd]

theorem length_decoded (pfx tail : List Byte) (hp : pfx.length = 4) :
    standardUInt32.deserialize 0 (pfx ++ tail) 4 0 = (true, le_value pfx, 4) := by
  have h := deserialize_number_mid [] pfx tail 4 0 4 0 rfl hp.symm (by omega) (by decide)
  simpa [standardUInt32] using h

theorem driver_iteration_frame (ops : Message Twist2DStamped) (dflt : Twist2DStamped)
    (buffer pfx : List Byte) (rd2 : Int × List Byte) (rest : List (Int × List Byte))
    (hbuf : 4 ≤ buffer.length) (hp : pfx.length = 4) :
    MBotDriver.iteration ops dflt buffer ((4, pfx) :: rd2 :: rest) =
      if rd2.1 ≠ (le_value pfx : Int) then
        some ⟨[DriverEvent.read 4 4, DriverEvent.read (le_value pfx) rd2.1], false,
          memcpy_to (pfx ++ buffer.drop 4) 0 (rd2.2.take (le_value pfx)), rest⟩
      else if (ops.deserialize dflt
          (memcpy_to (pfx ++ buffer.drop 4) 0 (rd2.2.take (le_value pfx)))
          (le_value pfx) 0).1 = false then
        some ⟨[DriverEvent.read 4 4, DriverEvent.read (le_value pfx) rd2.1], false,
          memcpy_to (pfx ++ buffer.drop 4) 0 (rd2.2.take (le_value pfx)), rest⟩
      else
        some ⟨[DriverEvent.read 4 4, DriverEvent.read (le_value pfx) rd2.1,
            DriverEvent.drive (ops.deserialize dflt
              (memcpy_to (pfx ++ buffer.drop 4) 0 (rd2.2.take (le_value pfx)))
              (le_value pfx) 0).2.1], false,
          memcpy_to (pfx ++ buffer.drop 4) 0 (rd2.2.take (le_value pfx)), rest⟩ := by
  have h1 := read_store buffer pfx 4 hp hbuf
  have h2 := length_decoded pfx (buffer.drop 4) hp
  simp only [MBotDriver.iteration, h1, h2]
  simp

theorem teleop_frame_bytes (ops : Message Twist2DStamped) (stack enc : List Byte)
    (cmd : Twist2DStamped) (henc : ops.encodes cmd enc)
    (hfit : 4 + enc.length ≤ stack.length) (hstack : stack.length < SIZE_MOD) :
    TeleopKeyboard.frame ops stack cmd = le_bytes 4 enc.length ++ enc := by
  obtain ⟨hsize, hser, _⟩ := henc
  have s1 := serialize_number_splice 4 stack 0 (ops.size cmd) (by omega) hstack
  have l1 : (splice stack 0 (le_bytes 4 (ops.size cmd))).length = stack.length :=
    splice_length stack 0 _ (by rw [le_bytes_length]; omega)
  have s2 := hser (splice stack 0 (le_bytes 4 (ops.size cmd))) (0 + 4) (by omega) (by omega)
  have c12 := splice_splice stack 0 (le_bytes 4 (ops.size cmd)) enc
    (by rw [le_bytes_length]; omega)
  rw [le_bytes_length] at c12
  rw [c12] at s2
  have hm := memcpy_from_mid [] (le_bytes 4 (ops.size cmd) ++ enc)
    (stack.drop (0 + (le_bytes 4 (ops.size cmd) ++ enc).length)) 0 (0 + 4 + enc.length) rfl
    (by rw [List.length_append, le_bytes_length])
  simp only [TeleopKeyboard.frame, standardUInt32, s1, s2]
  rw [← hsize] at hm ⊢
  simpa [splice] using hm

theorem driver_iteration_decoded (ops : Message Twist2DStamped) (dflt : Twist2DStamped)
    (buffer pfx body : List Byte) (rest : List (Int × List Byte))
    (hbuf : buffer.length = 4096) (hp : pfx.length = 4) (hb : body.length = le_value pfx)
    (hn : body.length ≤ 4096) :
    MBotDriver.iteration ops dflt buffer ((4, pfx) :: ((body.length : Int), body) :: rest) =
      some ⟨[DriverEvent.read 4 4, DriverEvent.read body.length body.length] ++
          (if (ops.deserialize dflt (body ++ (pfx ++ buffer.drop 4).drop body.length)
              body.length 0).1 = true then
            [DriverEvent.drive (ops.deserialize dflt
              (body ++ (pfx ++ buffer.drop 4).drop body.length) body.length 0).2.1]
          else []),
        false, body ++ (pfx ++ buffer.drop 4).drop body.length, rest⟩ := by
  have hst := read_store (pfx ++ buffer.drop 4) body body.length rfl
    (by simp only [List.length_append, List.length_drop]; omega)
  rw [driver_iteration_frame ops dflt buffer pfx _ rest (by omega) hp]
  simp only [← hb, hst, ne_eq, not_true_eq_false, if_false]
  cases h : (ops.deserialize dflt (body ++ (pfx ++ buffer.drop 4).drop body.length)
    body.length 0).1 <;> simp

/-- C24: stream framing end to end.  With a receive buffer of 4096 bytes: when one
`read` delivers a 4-byte length prefix `n ≤ 4096` and the next delivers exactly
`n` bytes, the pass through the loop body of `MBotDriver::spin` calls `drive`
exactly once, with the message decoded from the buffer holding those bytes, if
decoding succeeds, and not at all if it fails; it makes no `drive` call when the
first `read` returns a count other than `4` and `0`, nor when the second returns
a count other than `n`.  The frame `TeleopKeyboard::spin` writes for the key `w`
is the 4-byte encoding of the size of the message followed by its wire form, and
the driver, reading these two parts, drives the same message, whose `vx` is
`0.5f` and whose `vy` and `wz` are zero when `linear_speed` is `0.5`. -/
theorem C24_stream_framing {D : Type} (ar : DoubleOps D) (ops : Message Twist2DStamped)
    (dflt : Twist2DStamped) (linear_speed angular_speed : D)
    (buffer pfx body junk stack kbuf enc : List Byte) (k : Int)
    (rest : List (Int × List Byte)) (seq : Nat) (now : Nat × Nat)
    (hbuf : buffer.length = 4096) (hp : pfx.length = 4) (hb : body.length = le_value pfx)
    (hn : body.length ≤ 4096) (hstack : stack.length = 4096) (hk : 0 < kbuf.length)
    (henc : ops.encodes
      (TeleopKeyboard.make_cmd ar dflt seq now (linear_speed, ar.zero, ar.zero)) enc)
    (hfit : 4 + enc.length ≤ 4096)
    (hhalf : ar.to_float linear_speed = 0x3F000000) (hzero : ar.to_float ar.zero = 0) :
    MBotDriver.iteration ops dflt buffer ((4, pfx) :: ((body.length : Int), body) :: rest) =
        some ⟨[DriverEvent.read 4 4, DriverEvent.read body.length body.length] ++
            (if (ops.deserialize dflt (body ++ (pfx ++ buffer.drop 4).drop body.length)
                body.length 0).1 = true then
              [DriverEvent.drive (ops.deserialize dflt
                (body ++ (pfx ++ buffer.drop 4).drop body.length) body.length 0).2.1]
            else []),
          false, body ++ (pfx ++ buffer.drop 4).drop body.length, rest⟩
    ∧ (k = 0 ∨ k = 4 ∨
        MBotDriver.iteration ops dflt buffer ((k, junk) :: rest) =
          some ⟨[DriverEvent.read 4 k], false, memcpy_to buffer 0 (junk.take 4), rest⟩)
    ∧ (k = (le_value pfx : Int) ∨
        (MBotDriver.iteration ops dflt buffer ((4, pfx) :: (k, junk) :: rest)).map
            DriverStep.events =
          some [DriverEvent.read 4 4, DriverEvent.read (le_value pfx) k])
    ∧ (TeleopKeyboard.iteration ar ops dflt linear_speed angular_speed stack seq kbuf
          (1, [119]) now).events =
        [TeleopEvent.read 1 1, TeleopEvent.write (le_bytes 4 enc.length ++ enc)]
    ∧ (MBotDriver.iteration ops dflt buffer
          ((4, le_bytes 4 enc.length) :: ((enc.length : Int), enc) :: rest)).map
          DriverStep.events =
        some [DriverEvent.read 4 4, DriverEvent.read enc.length enc.length,
          DriverEvent.drive
            (TeleopKeyboard.make_cmd ar dflt seq now (linear_speed, ar.zero, ar.zero))]
    ∧ (TeleopKeyboard.make_cmd ar dflt seq now (linear_speed, ar.zero, ar.zero)).vx = 0x3F000000
    ∧ (TeleopKeyboard.make_cmd ar dflt seq now (linear_speed, ar.zero, ar.zero)).vy = 0
    ∧ (TeleopKeyboard.make_cmd ar dflt seq now (linear_speed, ar.zero, ar.zero)).wz = 0 := by
  refine ⟨driver_iteration_decoded ops dflt buffer pfx body rest hbuf hp hb hn, ?_, ?_, ?_, ?_,
    hhalf, hzero, hzero⟩
  · by_cases h0 : k = 0
    · exact Or.inl h0
    · by_cases h4 : k = 4
      · exact Or.inr (Or.inl h4)
      · right; right
        simp [MBotDriver.iteration, h0, h4]
  · by_cases hk2 : k = (le_value pfx : Int)
    · exact Or.inl hk2
    · right
      rw [driver_iteration_frame ops dflt buffer pfx _ rest (by omega) hp]
      simp [hk2]
  · rw [teleop_iteration_events ar ops dflt linear_speed angular_speed stack seq kbuf 119 now hk]
    have hv : TeleopKeyboard.velocities ar linear_speed angular_speed 119 =
        some (linear_speed, ar.zero, ar.zero) := by
      simp [TeleopKeyboard.velocities]
    rw [hv]
    simp only
    rw [teleop_frame_bytes ops stack enc _ henc (by omega) (by rw [hstack]; decide)]
  · have hl4 : (le_bytes 4 enc.length).length = 4 := le_bytes_length 4 enc.length
    have hval : le_value (le_bytes 4 enc.length) = enc.length :=
      le_value_le_bytes_of_lt 4 enc.length (by norm_num; omega)
    have hd := driver_iteration_decoded ops dflt buffer (le_bytes 4 enc.length) enc rest hbuf
      hl4 hval.symm (by omega)
    have hdes := henc.2.2 dflt [] ((le_bytes 4 enc.length ++ buffer.drop 4).drop enc.length)
      enc.length (by simp) (by unfold SIZE_MOD; omega)
    simp only [List.nil_append, List.length_nil, Nat.zero_add] at hdes
    rw [hd, hdes]
    simp

theorem C24_stream_framing_witness :
    (MBotDriver.iteration twist2DStampedMsg ⟨0, [], (0, 0), 0, 0, 0⟩ (List.replicate 4096 0)
        ((4, le_bytes 4 (wire_twist (TeleopKeyboard.make_cmd halvesOps ⟨0, [], (0, 0), 0, 0, 0⟩
            0 (7, 9) (1, halvesOps.zero, halvesOps.zero))).length) ::
          (((wire_twist (TeleopKeyboard.make_cmd halvesOps ⟨0, [], (0, 0), 0, 0, 0⟩
            0 (7, 9) (1, halvesOps.zero, halvesOps.zero))).length : Int),
            wire_twist (TeleopKeyboard.make_cmd halvesOps ⟨0, [], (0, 0), 0, 0, 0⟩
              0 (7, 9) (1, halvesOps.zero, halvesOps.zero))) :: [])).map DriverStep.events =
      some [DriverEvent.read 4 4,
        DriverEvent.read
          (wire_twist (TeleopKeyboard.make_cmd halvesOps ⟨0, [], (0, 0), 0, 0, 0⟩
            0 (7, 9) (1, halvesOps.zero, halvesOps.zero))).length
          (wire_twist (TeleopKeyboard.make_cmd halvesOps ⟨0, [], (0, 0), 0, 0, 0⟩
            0 (7, 9) (1, halvesOps.zero, halvesOps.zero))).length,
        DriverEvent.drive (TeleopKeyboard.make_cmd halvesOps ⟨0, [], (0, 0), 0, 0, 0⟩
          0 (7, 9) (1, halvesOps.zero, halvesOps.zero))]
    ∧ (TeleopKeyboard.make_cmd halvesOps ⟨0, [], (0, 0), 0, 0, 0⟩ 0 (7, 9)
        (1, halvesOps.zero, halvesOps.zero)).vx = 0x3F000000 := by
  have h := C24_stream_framing halvesOps twist2DStampedMsg ⟨0, [], (0, 0), 0, 0, 0⟩ 1 3
    (List.replicate 4096 0) [2, 0, 0, 0] [1, 2] [] (List.replicate 4096 0) [0]
    (wire_twist (TeleopKeyboard.make_cmd halvesOps ⟨0, [], (0, 0), 0, 0, 0⟩ 0 (7, 9)
      (1, halvesOps.zero, halvesOps.zero))) 3 [] 0 (7, 9)
    (List.length_replicate _ _) (by decide) (by decide) (by decide)
    (List.length_replicate _ _) (by decide)
    (twist_encodes _ (by decide) (by decide) (by decide) (by decide) (by decide) (by decide)
      (by decide))
    (by decide) (by decide) (by decide)
  exact ⟨h.2.2.2.2.1, h.2.2.2.2.2.1⟩

/-! ## Receive buffer, store ranges, checksum law and stop flag -/

/-- C32 (failing input): with a 4096-byte receive buffer and a length prefix
`01 10 00 00`, the pass through the loop body of `MBotDriver::spin` requests
`4097` bytes in its second `read`, one more than the buffer holds. -/
theorem C32_receive_buffer_overrun :
    (MBotDriver.iteration twist2DStampedMsg ⟨0, [], (0, 0), 0, 0, 0⟩ (List.replicate 4096 0)
        [(4, [1, 16, 0, 0]), (0, [])]).map DriverStep.events =
      some [DriverEvent.read 4 4, DriverEvent.read 4097 0]
    ∧ (List.replicate 4096 (0 : Byte)).length < 4097 := by
  have hv : le_value [1, 16, 0, 0] = 4097 := by decide
  refine ⟨?_, by rw [List.length_replicate]; decide⟩
  rw [driver_iteration_frame twist2DStampedMsg ⟨0, [], (0, 0), 0, 0, 0⟩ (List.replicate 4096 0)
    [1, 16, 0, 0] (0, []) [] (by rw [List.length_replicate]; decide) rfl]
  rw [hv, if_pos (by decide)]
  rfl

theorem encode_msg_stores_inside (msg_len rospkt_len : Int) (h0 : 0 ≤ msg_len)
    (hno : msg_len + 8 < 2 ^ 31) :
    stores_inside rospkt_len (encode_msg_stores msg_len rospkt_len) = true := by
  have hw : wrap_int (msg_len + 8) = msg_len + 8 := wrap_int_id _ (by omega) hno
  simp only [encode_msg_stores, hw]
  split
  · rfl
  · rename_i h
    have hlen : rospkt_len = msg_len + 8 := by
      by_contra hne
      exact h (fun e => hne e.symm)
    have hm : msg_len % (SIZE_MOD : Int) = msg_len :=
      Int.emod_eq_of_lt h0 (by unfold SIZE_MOD; norm_num; omega)
    have hc : ((msg_len % (SIZE_MOD : Int)).toNat : Int) = msg_len := by
      rw [hm]
      exact Int.toNat_of_nonneg h0
    simp only [stores_inside, List.all_cons, List.all_nil, Bool.and_true, Bool.and_eq_true,
      decide_eq_true_eq, hc]
    subst hlen
    refine ⟨?_, ?_, ?_, ?_, ?_, ?_, ?_, ?_, ?_⟩ <;> right <;> constructor <;> omega

theorem sum_complement (s c : Nat) (h : c = 255 - s % 256) : (s + c) % 256 = 255 := by
  omega

/-- C34: checksum complement law.  For every byte sequence `b` the sum of its bytes
plus `checksum(b)` is `255` modulo `256`.  In the frame produced by `encode_msg`
for a payload of length `L` with `L + 8` representable in `int` and a buffer of
`L + 8` bytes, the call returns `0`, the bytes at indices 2, 3 and 4 sum to `255`
modulo `256`, and so do the bytes from index 5 to the last. -/
theorem C34_checksum_complement (b msg rospkt : List Byte) (t : Nat)
    (hL : msg.length + 8 < 2 ^ 31) (hbuf : rospkt.length = msg.length + 8) :
    ((b.map (fun x => x.val)).sum + (checksum b b.length).val) % 256 = 255
    ∧ (encode_msg msg msg.length t rospkt (msg.length + 8)).1 = 0
    ∧ (((encode_msg msg msg.length t rospkt (msg.length + 8)).2.getD 2 0).val
        + ((encode_msg msg msg.length t rospkt (msg.length + 8)).2.getD 3 0).val
        + ((encode_msg msg msg.length t rospkt (msg.length + 8)).2.getD 4 0).val) % 256 = 255
    ∧ ((((encode_msg msg msg.length t rospkt (msg.length + 8)).2.drop 5).map
        (fun x => x.val)).sum) % 256 = 255 := by
  refine ⟨sum_complement _ _ (checksum_val b), ?_, ?_, ?_⟩
  · rw [encode_msg_layout msg rospkt t hL hbuf]
  · rw [encode_msg_layout msg rospkt t hL hbuf]
    have h := checksum_val [u8_of_int ((msg.length : Int) % 256),
      u8_of_int ((msg.length : Int) / 256)]
    simp only [List.length_cons, List.length_nil, List.map_cons, List.map_nil, List.sum_cons,
      List.sum_nil] at h
    have h2 : ((0 + 1 + 1 : Nat) : Int) = 2 := by norm_num
    rw [h2] at h
    simp only [List.cons_append, List.getD_cons_succ, List.getD_cons_zero]
    omega
  · rw [encode_msg_layout msg rospkt t hL hbuf]
    have h := checksum_val ([u8_of_nat (t % 256), u8_of_nat (t / 256)] ++ msg)
    have h2 : ((([u8_of_nat (t % 256), u8_of_nat (t / 256)] ++ msg).length : Nat) : Int) =
        (msg.length : Int) + 2 := by
      simp only [List.cons_append, List.nil_append, List.length_cons]
      push_cast
      ring
    rw [h2] at h
    simp only [List.cons_append, List.nil_append, List.drop_succ_cons, List.drop_zero,
      List.map_cons, List.map_append, List.map_nil, List.sum_cons, List.sum_append,
      List.sum_nil] at h ⊢
    omega

theorem C34_checksum_complement_witness :
    ((([0x05, 0x00] : List Byte).map (fun x => x.val)).sum
      + (checksum [0x05, 0x00] ([0x05, 0x00] : List Byte).length).val) % 256 = 255
    ∧ ((((encode_msg [0xAA] ([0xAA] : List Byte).length 214 (List.replicate 9 0)
        (([0xAA] : List Byte).length + 8)).2.drop 5).map (fun x => x.val)).sum) % 256 = 255 :=
  ⟨(C34_checksum_complement [0x05, 0x00] [0xAA] (List.replicate 9 0) 214 (by decide)
      (by decide)).1,
    (C34_checksum_complement [0x05, 0x00] [0xAA] (List.replicate 9 0) 214 (by decide)
      (by decide)).2.2.2⟩

/-- C35: the stop flag is monotone.  `init_mbot` leaves `stop_timesync_flag` as it
was, whatever its argument and whether it succeeds; `deinit_mbot` sets it;
`drive` and `timesync` store to no global at all.  Hence after `deinit_mbot`
the flag is still set when a later `init_mbot(1)` has returned, and a time-sync
loop started then returns at its first check: it writes no frame. -/
theorem C35_stop_flag_monotone (st : RobotState) (use_serial open_result tcgetattr_result : Int)
    (e : Bool × Nat × List Byte × Int) (env : List (Bool × Nat × List Byte × Int)) :
    (init_mbot st use_serial open_result tcgetattr_result).2.1.stop_timesync_flag =
        st.stop_timesync_flag
    ∧ (deinit_mbot st).1.stop_timesync_flag = true
    ∧ (init_mbot (deinit_mbot st).1 1 open_result tcgetattr_result).2.1.stop_timesync_flag = true
    ∧ timesync (init_mbot (deinit_mbot st).1 1 open_result tcgetattr_result).2.1 (e :: env) =
        some []
    ∧ ((st.stop_timesync_flag = true ∧ timesync st (e :: env) = some [])
        ∨ st.stop_timesync_flag = false) := by
  have h1 : ∀ s : RobotState, ∀ u : Int,
      (init_mbot s u open_result tcgetattr_result).2.1.stop_timesync_flag =
        s.stop_timesync_flag := by
    intro s u
    simp only [init_mbot]
    split
    · split
      · rfl
      · split <;> rfl
    · rfl
  have h2 : ∀ s : RobotState, s.stop_timesync_flag = true → timesync s (e :: env) = some [] := by
    intro s hs
    simp [timesync, hs]
  refine ⟨h1 st use_serial, rfl, ?_, ?_, ?_⟩
  · rw [h1]
    rfl
  · exact h2 _ (by rw [h1]; rfl)
  · cases hf : st.stop_timesync_flag
    · exact Or.inr rfl
    · exact Or.inl ⟨rfl, h2 st hf⟩

/-! ## Frames on the shared descriptor -/

end Rix
